import Mathlib

/-!
# expreduce: the pattern matcher and the definition store of `cas.go`

A shallow embedding of the positional and the orderless matcher of
`expreduce/cas.go` (`NonOrderlessIsMatchQ`, `OrderlessIsMatchQ`,
`ExtractBlankSequences`) together with the binding context `PDManager`, of
the definition store of `EvalState` (`Define`, `GetDef`, `Clear`, `ClearAll`),
of the normalization of rationals (`ex_rational.go`), of the native evaluators
of `builtin_atoms.go` and `qfunctions.go`, and of `GetAllDefinitions`.

Conventions of the embedding.

* Go values are immutable Lean values, so `DeepCopy` and `CopyPD` return the
  value they are given.  The callees take `pm` by pointer and are taken not to
  write through it (the functions of `cas.go` copy it on entry).
* Slices are lists; an index is a `Nat` where the source keeps it
  non-negative and an `Int` where it can be `-1` (`j`, `startI`,
  `progressI`).
* A Go run-time panic (index out of range, negative `make`) is the result
  `none`; a function that can panic returns an `Option`.
* The logger argument `cl` only prints; it is dropped.
* Functions called by `cas.go` whose bodies are not among the source files
  (`IsMatchQ`, `IsSameQ`, `MemberQ`, `ExArrayTestRepeatingMatch`,
  `BlankSequenceToBlank`, `BlankNullSequenceToBlank`, `nextKPermutation`) are
  the fields of the structure `Helpers`; the theorems hold for every choice of
  them unless a hypothesis says otherwise.  `specHelpers` is one choice,
  modelled from the spec, at which the theorems are instantiated.
* The definition store (`Define`, `GetDef`, `Clear`, `ClearAll`, `Init`) is
  embedded by state passing: a method of `*EvalState` takes the store and
  returns the store it leaves.  The printers `String()` and `StringForm` and
  the rewriter `ReplaceAll`, whose bodies are not among the source files, are
  the further fields of `StoreHelpers`; the loading of the built-in
  definitions in `Init` is the parameter `loadAll`.
* Outside `RatHeap` a `*big.Int` is the integer it holds; the methods of
  `math/big` are the operations on `Int` (`bigAbs`, `bigGCD`, `bigDiv`, the last with the panic on
  a divisor zero).  `Rational.Eval` and the native evaluators are functions of
  the value of their argument and return an `Option`.
* The claims on the aliasing of binding contexts are stated over `PDHeap`, a
  heap of `PDManager` objects addressed by pointers; the `range` loops over a
  Go map run over a list of its entries, in any order.  At an address the
  object is the `PDManager` value of the matcher, and `PDHeap.Update`,
  `PDHeap.CopyPD` are proved to compute `PDManager.Update` and `CopyPD`.
* The abort of `log.Fatalf` in `GetAllDefinitions` is the result `none`; the
  functions that return the definitions of a module are the fields of
  `DefinitionGetters`.
* The claims on rational arithmetic in place (`AddR`, `MulR`) are stated
  over `RatHeap`, a heap of `big.Int` objects and of `Rational` structs whose
  `Num` and `Den` are pointers into it, so that the receiver and the argument
  may be the same object or share a `big.Int`; the object `tmp`, which the
  method makes and no one else holds, is a local value.
* The loop `for n > 0` of `permutations` has no bound in the source; it is
  embedded with a bound on its iterations and the three results of `Run`, so
  that a bound used up is told apart from a panic, and the theorems show that
  the bound `n!/(n-r)! + 1` is never used up.
* An `int` and an `int64` are integers reduced by `wrapInt64`; a Go string is
  the sequence of its bytes (`goBytes`), which `len` counts and a slice
  expression cuts.  `NewString`, whose body is not among the source files, is
  a parameter of the evaluator of `StringTake`.
-/

namespace Expreduce

/-! ## Expressions -/

/-- The expression variants used by the matcher: `Symbol`, `Integer`,
`Rational`, `String` and the composite `Expression`, whose `Parts[0]` is the
head.  (Floating point atoms are left out of the embedding.) -/
inductive Ex where
  | Symbol (Name : String)
  | Integer (Val : Int)
  | Rational (Num Den : Int) (needsEval : Bool)
  | String (Val : String)
  | Expression (Parts : List Ex)
deriving Inhabited

/-- The field `Parts` of an `*Expression`; the other variants have none. -/
def Ex.Parts : Ex → List Ex
  | .Expression ps => ps
  | _ => []

/-- The method `DeepCopy`: a fresh copy of the same value. -/
def Ex.DeepCopy (e : Ex) : Ex := e

/-- The constructor `NewEmptyExpression()`: the expression without parts that
`HeadAssertion` returns next to `false`. -/
def NewEmptyExpression : Ex := .Expression []

/-- Modelled from the spec: `HeadAssertion` is called by `cas.go` but its body
is not among the source files.  By its uses (in `StringTake`: `asList, isList
:= HeadAssertion(...)` followed by `asList.Parts[1]`) and the spec's
`Composite(head, parts)`, it answers whether `ex` is a composite whose head is
the symbol `head_str`, and returns that composite. -/
def HeadAssertion (ex : Ex) (head_str : String) : Ex × Bool :=
  match ex with
  | .Expression (.Symbol name :: _) =>
      if name = head_str then (ex, true) else (NewEmptyExpression, false)
  | _ => (NewEmptyExpression, false)

/-! ## Binding contexts -/

/-- The struct `PDManager{patternDefined map[string]Ex}`: the Go map is the
function from a name to its value, `none` for a name that is not a key. -/
structure PDManager where
  patternDefined : String → Option Ex

/-- The function `EmptyPD()`: a context without bindings. -/
def EmptyPD : PDManager := ⟨fun _ => none⟩

/-- The function `CopyPD(orig)`: every key with a deep copy of its value. -/
def CopyPD (orig : PDManager) : PDManager :=
  ⟨fun k => (orig.patternDefined k).map Ex.DeepCopy⟩

/-- The method `this.Update(toAdd)`: `this[k] = v` for every `k, v` of `toAdd`. -/
def PDManager.Update (this toAdd : PDManager) : PDManager :=
  ⟨fun k => match toAdd.patternDefined k with
            | some v => some v
            | none => this.patternDefined k⟩

/-- The assignment `pm.patternDefined[name] = v`. -/
def PDManager.set (pm : PDManager) (name : String) (v : Ex) : PDManager :=
  ⟨fun k => if k = name then some v else pm.patternDefined k⟩

/-! ## The functions `cas.go` calls but does not define -/

/-- The callees of the matcher whose bodies are not among the source files.
`kPermutations n k` stands for `nextKPermutation`: it lists the values the
array `perm` takes after the identity, in the order in which the calls
`nextKPermutation(perm, n, k)` produce them, up to the call that returns 0. -/
structure Helpers where
  IsMatchQ : Ex → Ex → PDManager → Bool × PDManager
  IsSameQ : Ex → Ex → Bool
  MemberQ : List Ex → Ex → Bool
  ExArrayTestRepeatingMatch : List Ex → Ex → Bool
  BlankSequenceToBlank : Ex → Ex
  BlankNullSequenceToBlank : Ex → Ex
  kPermutations : Nat → Nat → List (List Nat)

/-! ## The positional matcher -/

/-- What lines 581-587 of `cas.go` compute for one pattern element. -/
structure SeqTest where
  pat : Ex
  isPat : Bool
  bns : Ex
  isBns : Bool
  bs : Ex
  isBs : Bool

/-- Lines 581-587: the three `HeadAssertion`s on `lhs_components[i]` and, for
a `Pattern`, the two on `pat.Parts[2]`.  `none` is the index-out-of-range
panic of `pat.Parts[2]` on a `Pattern` with fewer than two arguments. -/
def seqTest (p : Ex) : Option SeqTest :=
  let (pat, isPat) := HeadAssertion p "Pattern"
  let (bns, isBns) := HeadAssertion p "BlankNullSequence"
  let (bs, isBs) := HeadAssertion p "BlankSequence"
  if isPat then
    match pat.Parts.get? 2 with
    | none => none
    | some q =>
        let (bns, isBns) := HeadAssertion q "BlankNullSequence"
        let (bs, isBs) := HeadAssertion q "BlankSequence"
        some ⟨pat, isPat, bns, isBns, bs, isBs⟩
  else some ⟨pat, isPat, bns, isBns, bs, isBs⟩

/-- Lines 623-641: the body of `if seqMatches && matchq`, for the window
`seqToTry` and the context `newPDs` of the remainder match.  (`pat.Parts[1]`
exists because `pat.Parts[2]` was read before; a name that is not yet a key is
first assigned `target` and then compared with it.) -/
def acceptWindow (H : Helpers) (t : SeqTest) (seqToTry : List Ex)
    (pm newPDs : PDManager) : Bool × PDManager :=
  let pm := pm.Update newPDs
  if t.isPat then
    match t.pat.Parts.get? 1 with
    | some (.Symbol name) =>
        let target := Ex.Expression (Ex.Symbol "Sequence" :: seqToTry)
        match pm.patternDefined name with
        | none =>
            let pm := pm.set name target
            if H.IsSameQ target target then (true, pm) else (false, pm)
        | some v => if H.IsSameQ v target then (true, pm) else (false, pm)
    | _ => (true, pm)
  else (true, pm)

/-- The loop `for j := startI; j < len(components); j++` of lines 600-642,
with `todo` iterations left, the next one being number `n`.  `body n` is that
iteration: `none` a panic, `some (some r)` a `return r`, `some none` falling
through to `j++`.  After the last iteration line 643 returns `false, pm`. -/
def windowLoop (body : Nat → Option (Option (Bool × PDManager))) (pm : PDManager) :
    Nat → Nat → Option (Bool × PDManager)
  | 0, _ => some (false, pm)
  | todo + 1, n =>
      match body n with
      | none => none
      | some (some r) => some r
      | some none => windowLoop body pm todo (n + 1)

/-- The function `Max(x, y)` of lines 542-547, on lengths and indices. -/
def Max (x y : Nat) : Nat := if x > y then x else y

/-- The copying loop `for k := lo; ...; k++ { out[...] = xs[k].DeepCopy() }`
over `count` indices from `k` on; `none` is the panic of an index `k` outside
`xs`. -/
def copyFrom (xs : List Ex) : Nat → Int → Option (List Ex)
  | 0, _ => some []
  | count + 1, k =>
      if k < 0 then none
      else
        match xs.get? k.toNat, copyFrom xs count (k + 1) with
        | some x, some rest => some (x :: rest)
        | _, _ => none

/-- The allocation `out := make([]Ex, hi - lo)` followed by the copying loop
`for k := lo; k < hi; k++ { out[k-lo] = xs[k].DeepCopy() }`: the three
slices of the window search (`remainingLhs`, `seqToTry`, `remainingComps`)
are built this way.  `none` is the panic of a negative size or of an index
out of range. -/
def copyRange (xs : List Ex) (lo hi : Int) : Option (List Ex) :=
  if hi - lo < 0 then none else copyFrom xs (hi - lo).toNat lo

/-- One iteration of the loop `for j` of lines 600-642, at the index `j`:
`none` a panic, `some (some r)` a `return r`, `some none` falling through to
`j++`.  `self` is the recursive call of line 622. -/
def windowIteration (H : Helpers)
    (self : List Ex → List Ex → PDManager → Option (Bool × PDManager))
    (t : SeqTest) (components remainingLhs : List Ex) (i : Nat) (pm : PDManager)
    (j : Int) : Option (Option (Bool × PDManager)) :=
  match copyRange components i (j + 1) with
  | none => none
  | some seqToTry =>
      let seqMatches :=
        if t.isBns then
          H.ExArrayTestRepeatingMatch seqToTry (H.BlankNullSequenceToBlank t.bns)
        else
          H.ExArrayTestRepeatingMatch seqToTry (H.BlankSequenceToBlank t.bs)
      match copyRange components (j + 1) components.length with
      | none => none
      | some remainingComps =>
          match self remainingComps remainingLhs pm with
          | none => none
          | some (matchq, newPDs) =>
              if seqMatches && matchq then
                some (some (acceptWindow H t seqToTry pm newPDs))
              else some none

/-- The loop `for i := 0; i < Max(len(components), len(lhs_components)); i++`
of lines 571-656 with `todo` iterations left, at the index `i`, and the test
of lines 657-661 after it.  `progressI` is the value of that variable on
entry, `self` the recursive call of line 622. -/
def positionLoop (H : Helpers)
    (self : List Ex → List Ex → PDManager → Option (Bool × PDManager))
    (components lhs_components : List Ex) :
    Nat → Nat → Int → PDManager → Option (Bool × PDManager)
  | 0, _, progressI, pm =>
      if progressI = (lhs_components.length : Int) - 1 then some (true, pm)
      else some (false, pm)
  | todo + 1, i, _, pm =>
      if i ≥ lhs_components.length then some (false, pm)
      else
        match lhs_components.get? i with
        | none => none
        | some p =>
            match seqTest p with
            | none => none
            | some t =>
                if t.isBns || t.isBs then
                  match copyRange lhs_components (i + 1) lhs_components.length with
                  | none => none
                  | some remainingLhs =>
                      let startI : Int := if t.isBns then (i : Int) - 1 else i
                      windowLoop
                        (fun d => windowIteration H self t components remainingLhs i pm
                          (startI + d))
                        pm ((components.length : Int) - startI).toNat 0
                else if i ≥ components.length then some (false, pm)
                else
                  match components.get? i with
                  | none => none
                  | some c =>
                      let (ismatchq, toAdd) := H.IsMatchQ c.DeepCopy p pm
                      if ismatchq then
                        positionLoop H self components lhs_components todo (i + 1) i
                          (pm.Update toAdd)
                      else some (false, pm)

/-- The body of `NonOrderlessIsMatchQ` with a bound `depth` on the nesting of
its recursive calls (`none` when the bound is used up): the copy of `pm`, the
two base cases of lines 563-568, then the loop over `i`. -/
def NonOrderlessIsMatchQ.go (H : Helpers) :
    Nat → List Ex → List Ex → PDManager → Option (Bool × PDManager)
  | 0, _, _, _ => none
  | depth + 1, components, lhs_components, pm =>
      let pm := CopyPD pm
      if components.length = 0 ∧ lhs_components.length = 0 then some (true, pm)
      else if components.length ≠ 0 ∧ lhs_components.length = 0 then some (false, pm)
      else
        positionLoop H (NonOrderlessIsMatchQ.go H depth) components lhs_components
          (Max components.length lhs_components.length) 0 0 pm

/-- The function `NonOrderlessIsMatchQ(components, lhs_components, pm, cl)` of
lines 556-662.  Every recursive call is made on `remainingLhs`, which is
shorter than `lhs_components`, so the nesting of calls is at most
`len(lhs_components) + 1` deep and the bound given to `go` is never used up
(theorem `NonOrderlessIsMatchQ_eq_positionalMatch`). -/
def NonOrderlessIsMatchQ (H : Helpers) (components lhs_components : List Ex)
    (pm : PDManager) : Option (Bool × PDManager) :=
  NonOrderlessIsMatchQ.go H (lhs_components.length + 1) components lhs_components pm

/-! ## The orderless matcher -/

/-- The function `ExtractBlankSequences(components)`: the elements for which
the test of lines 448-454 (the same computation as `seqTest`) finds
`isBs || isBns` go to `bs`, the others to `nonBS`, each list in the order of
`components`. -/
def ExtractBlankSequences : List Ex → Option (List Ex × List Ex)
  | [] => some ([], [])
  | c :: rest =>
      match seqTest c, ExtractBlankSequences rest with
      | some t, some (nonBS, bs) =>
          if t.isBs || t.isBns then some (nonBS, c :: bs) else some (c :: nonBS, bs)
      | _, _ => none

/-- Lines 522-525: `orderedComponents[oci] = components[ci].DeepCopy()` for
`oci, ci := range perm`; `none` is the panic of an index `ci` that is out of
range. -/
def orderComponents (components : List Ex) : List Nat → Option (List Ex)
  | [] => some []
  | ci :: perm =>
      match components.get? ci, orderComponents components perm with
      | some c, some ordered => some (c :: ordered)
      | _, _ => none

/-- The loop `for cont == 1` of lines 517-537 over the successive values of
`perm`: `orderedComponents[oci] = components[perm[oci]]`, then the positional
matcher; the first success is returned, and `false, pm` when the values are
used up. -/
def permLoop (H : Helpers) (components ordered_lhs_components : List Ex)
    (pm : PDManager) : List (List Nat) → Option (Bool × PDManager)
  | [] => some (false, pm)
  | perm :: later =>
      match orderComponents components perm with
      | none => none
      | some orderedComponents =>
          match NonOrderlessIsMatchQ H orderedComponents ordered_lhs_components pm with
          | none => none
          | some (ncIsMatchQ, newPm) =>
              if ncIsMatchQ then some (true, newPm)
              else permLoop H components ordered_lhs_components pm later

/-- The function `OrderlessIsMatchQ(components, lhs_components, pm, cl)` of
lines 471-540: the two length guards, the `MemberQ` pre-filter over every
pattern element, then the permutation search over `components` against
`nonBS ++ bs`. -/
def OrderlessIsMatchQ (H : Helpers) (components lhs_components : List Ex)
    (pm : PDManager) : Option (Bool × PDManager) :=
  let pm := CopyPD pm
  match ExtractBlankSequences lhs_components with
  | none => none
  | some (nonBS, bs) =>
      if bs.length = 0 ∧ components.length ≠ lhs_components.length then some (false, pm)
      else if nonBS.length > components.length then some (false, pm)
      else if lhs_components.any (fun mustContain => !H.MemberQ components mustContain) then
        some (false, pm)
      else
        let kConstant := if bs.length = 1 then nonBS.length else components.length
        let perm := List.range components.length
        let ordered_lhs_components := nonBS ++ bs
        permLoop H components ordered_lhs_components pm
          (perm :: H.kPermutations components.length kConstant)

/-! ## The positional matcher as a recursion on the pattern list -/

/-- The recursive form of `NonOrderlessIsMatchQ`, by recursion on the pattern
list (theorem `NonOrderlessIsMatchQ_eq_positionalMatch` shows that the two
agree).  The loop `for i` is the recursion: at index `i` the arguments are the
lists from `i` on (`components[i:]`, `lhs_components[i:]`) and `pm` is the
context after the updates of the positions before `i`.  In the window search
`n` is the window length `j - i + 1`, `components[i..j]` is `take n` and
`components[j+1:]` is `drop n`. -/
def positionalMatch (H : Helpers) (components lhs_components : List Ex)
    (pm : PDManager) : Option (Bool × PDManager) :=
  match lhs_components with
  | [] =>
      match components with
      | [] => some (true, CopyPD pm)
      | _ :: _ => some (false, CopyPD pm)
  | p :: remainingLhs =>
      let pm := CopyPD pm
      match seqTest p with
      | none => none
      | some t =>
          if t.isBns || t.isBs then
            let n0 := if t.isBns then 0 else 1
            windowLoop
              (fun n =>
                let seqToTry := components.take n
                let seqMatches :=
                  if t.isBns then
                    H.ExArrayTestRepeatingMatch seqToTry (H.BlankNullSequenceToBlank t.bns)
                  else
                    H.ExArrayTestRepeatingMatch seqToTry (H.BlankSequenceToBlank t.bs)
                let remainingComps := components.drop n
                match positionalMatch H remainingComps remainingLhs pm with
                | none => none
                | some (matchq, newPDs) =>
                    if seqMatches && matchq then
                      some (some (acceptWindow H t seqToTry pm newPDs))
                    else some none)
              pm (components.length + 1 - n0) n0
          else
            match components with
            | [] => some (false, pm)
            | c :: rest =>
                let (ismatchq, toAdd) := H.IsMatchQ c p pm
                if ismatchq then
                  positionalMatch H rest remainingLhs (pm.Update toAdd)
                else some (false, pm)

/-! ## Vocabulary of the specification -/

/-- A sequence wildcard: a `BlankSequence` or `BlankNullSequence` element, bare
or as the second argument of a `Pattern`. -/
def isSeqWildcard (p : Ex) : Bool :=
  (HeadAssertion p "BlankSequence").2 || (HeadAssertion p "BlankNullSequence").2 ||
  ((HeadAssertion p "Pattern").2 &&
    match p.Parts.get? 2 with
    | some q => (HeadAssertion q "BlankSequence").2 || (HeadAssertion q "BlankNullSequence").2
    | none => false)

/-- A `Pattern`-headed element is well formed when it has at least two
arguments (`Parts[0]` is the head). -/
def wellFormedPattern (p : Ex) : Bool :=
  !(HeadAssertion p "Pattern").2 || decide (3 ≤ p.Parts.length)

/-- The context `pm_i` with which position `i` of a positional match is tried:
`pm_0 = pm`, and `pm_(i+1)` is `pm_i` updated with what `IsMatchQ` returned at
position `i`. -/
def contextAt (H : Helpers) : List Ex → List Ex → PDManager → Nat → PDManager
  | c :: cs, p :: ps, pm, i + 1 => contextAt H cs ps (pm.Update (H.IsMatchQ c p pm).2) i
  | _, _, pm, _ => pm

/-- The returned context `b` extends `a`: every name bound in `a` is bound to
the same value in `b`. -/
def PDManager.extendedBy (a b : PDManager) : Prop :=
  ∀ k v, a.patternDefined k = some v → b.patternDefined k = some v

/-- The minimum window of a sequence wildcard: 0 elements for a
`BlankNullSequence`, 1 for a `BlankSequence`. -/
def minWindow (t : SeqTest) : Nat := if t.isBns then 0 else 1

/-- The element test of a sequence wildcard on a window (lines 609-613). -/
def elementTest (H : Helpers) (t : SeqTest) (window : List Ex) : Bool :=
  if t.isBns then H.ExArrayTestRepeatingMatch window (H.BlankNullSequenceToBlank t.bns)
  else H.ExArrayTestRepeatingMatch window (H.BlankSequenceToBlank t.bs)

/-- The window of length `n` is accepted: its elements pass the element test
and the remaining pattern `R` matches the remaining components. -/
def windowAccepted (H : Helpers) (t : SeqTest) (cs R : List Ex) (pm : PDManager)
    (n : Nat) : Prop :=
  elementTest H t (cs.take n) = true ∧
    ∃ newPDs, NonOrderlessIsMatchQ H (cs.drop n) R pm = some (true, newPDs)

/-- The name of a named sequence wildcard: the symbol `pat.Parts[1]` of a
`Pattern`. -/
def wildcardName (t : SeqTest) : Option String :=
  if t.isPat then
    match t.pat.Parts.get? 1 with
    | some (.Symbol name) => some name
    | _ => none
  else none

/-- The expression `Sequence[w...]`. -/
def Sequence (w : List Ex) : Ex := .Expression (.Symbol "Sequence" :: w)

/-- The spec's contract of the single-element matcher for the pattern
`Pattern[x, Blank[]]` (§4.4 "matches any single expression; if wrapped in a
named Pattern, binds the name to the matched expression, subject to the
consistency invariant in §3"): with `x` unbound it succeeds and the context it
returns, merged into `pm`, binds `x` to the expression; with `x` bound to `v`
it succeeds exactly when `v` is `IsSameQ` to the expression. -/
def NamedBlankContract (H : Helpers) (x : String) : Prop :=
  (∀ e pm, pm.patternDefined x = none →
    (H.IsMatchQ e (.Expression [.Symbol "Pattern", .Symbol x, .Expression [.Symbol "Blank"]])
        pm).1 = true ∧
    (pm.Update (H.IsMatchQ e
        (.Expression [.Symbol "Pattern", .Symbol x, .Expression [.Symbol "Blank"]])
        pm).2).patternDefined x = some e) ∧
  (∀ e v pm, pm.patternDefined x = some v →
    (H.IsMatchQ e (.Expression [.Symbol "Pattern", .Symbol x, .Expression [.Symbol "Blank"]])
        pm).1 = H.IsSameQ v e)

/-! ## A reference instance of the missing callees -/

mutual
/-- Modelled from the spec: `IsSameQ` is not among the source files.  The
spec calls it structural identity; atoms are compared by their value (a
`Rational` by `Num` and `Den`, as `Rational.IsEqual` does) and composites part
by part. -/
def IsSameQ : Ex → Ex → Bool
  | .Symbol a, .Symbol b => a == b
  | .Integer a, .Integer b => a == b
  | .Rational a b _, .Rational c d _ => a == c && b == d
  | .String a, .String b => a == b
  | .Expression as, .Expression bs => IsSameQList as bs
  | _, _ => false
/-- Part by part comparison of two lists of parts, as `FunctionIsSameQ`. -/
def IsSameQList : List Ex → List Ex → Bool
  | [], [] => true
  | a :: as, b :: bs => IsSameQ a b && IsSameQList as bs
  | _, _ => false
end

/-- The head against which a typed blank is checked. -/
def headName : Ex → String
  | .Symbol _ => "Symbol"
  | .Integer _ => "Integer"
  | .Rational _ _ _ => "Rational"
  | .String _ => "String"
  | .Expression (.Symbol h :: _) => h
  | .Expression _ => ""

/-- Whether `b` is a blank (`Blank`, `BlankSequence` or `BlankNullSequence`,
with or without a head constraint) and, if so, whether the single expression
`e` satisfies it. -/
def blankTest (b e : Ex) : Option Bool :=
  match b with
  | .Expression [.Symbol h] =>
      if h = "Blank" ∨ h = "BlankSequence" ∨ h = "BlankNullSequence" then some true else none
  | .Expression [.Symbol h, .Symbol ty] =>
      if h = "Blank" ∨ h = "BlankSequence" ∨ h = "BlankNullSequence" then
        some (headName e == ty)
      else none
  | _ => none

/-- Modelled from the spec: `BlankSequenceToBlank` and
`BlankNullSequenceToBlank` are not among the source files.  They give the
element pattern of a sequence wildcard: the same expression with head
`Blank`. -/
def toBlank : Ex → Ex
  | .Expression (_ :: args) => .Expression (.Symbol "Blank" :: args)
  | e => e

/-- Modelled from the spec: `nextKPermutation` is not among the source files.
The `k`-permutations of the indices `avail`, in lexicographic order. -/
def kPerms : Nat → List Nat → List (List Nat)
  | 0, _ => [[]]
  | k + 1, avail => avail.flatMap (fun x => (kPerms k (avail.erase x)).map (fun p => x :: p))

/-- Modelled from the spec: the values of `perm` after the identity when the
search "enumerates k-permutations of the expression's children" and "avoids
permuting the open-ended tail": each `k`-permutation of the `n` indices,
followed by the indices it does not use in increasing order. -/
def kPermutations (n k : Nat) : List (List Nat) :=
  ((kPerms k (List.range n)).map
    (fun p => p ++ (List.range n).filter (fun i => !p.contains i))).tail

/-- Modelled from the spec: `MemberQ` and `ExArrayTestRepeatingMatch` are not
among the source files.  The callees built from a single-element matcher `m`:
`MemberQ` looks for a component that matches the element (for a literal
element, the spec's "structurally-equal counterpart"; the spec's
`MatchQ[a+b+c, c+__]` is true only if the wildcard, which the code also sends
through the pre-filter, finds one as well), and the repeating match checks
every element of the window on its own. -/
def helpersOf (m : Ex → Ex → PDManager → Bool × PDManager) : Helpers where
  IsMatchQ := m
  IsSameQ := IsSameQ
  MemberQ := fun components item => components.any (fun e => (m e item EmptyPD).1)
  ExArrayTestRepeatingMatch := fun array blank => array.all (fun e => (m e blank EmptyPD).1)
  BlankSequenceToBlank := toBlank
  BlankNullSequenceToBlank := toBlank
  kPermutations := kPermutations

/-- The part of the modelled `IsMatchQ` for blanks: a blank matches any single
expression of the required head (a sequence wildcard met as a single pattern
counts as a blank: one expression is a sequence of one); a named `Pattern`
around a blank binds its name to the matched expression, or, when the name is
bound, requires the bound value to be `IsSameQ` to it.  `other` decides the
remaining cases. -/
def matchBlank (other : Ex → Ex → PDManager → Bool × PDManager) (a b : Ex)
    (pm : PDManager) : Bool × PDManager :=
  match blankTest b a with
  | some ok => (ok, pm)
  | none =>
      match b with
      | .Expression [.Symbol "Pattern", .Symbol x, q] =>
          match blankTest q a with
          | some true =>
              match pm.patternDefined x with
              | none => (true, pm.set x a)
              | some v => (IsSameQ v a, pm)
          | _ => (false, pm)
      | _ => other a b pm

/-- Modelled from the spec: `IsMatchQ` is not among the source files.  Blanks
and named blanks are matched as in `matchBlank`; two composites are matched
part by part by the positional matcher (down to nesting depth `fuel`);
everything else is structural equality. -/
def IsMatchQ : Nat → Ex → Ex → PDManager → Bool × PDManager
  | 0 => matchBlank (fun a b pm => (IsSameQ a b, pm))
  | fuel + 1 =>
      matchBlank (fun a b pm =>
        match a, b with
        | .Expression as, .Expression bs =>
            match NonOrderlessIsMatchQ (helpersOf (IsMatchQ fuel)) as bs pm with
            | some r => r
            | none => (false, pm)
        | _, _ => (IsSameQ a b, pm))

/-- The reference instance of the missing callees. -/
def specHelpers (fuel : Nat) : Helpers := helpersOf (IsMatchQ fuel)


/-! ## The definition store -/

/-- The Go built-in `len` on a string: its length in bytes. -/
def len (s : String) : Nat := s.utf8ByteSize

/-- The struct `Def` of `cas.go:55-61`.  The type `Attributes` is not among
the source files and is kept as the list of the attribute names; the Go
function value `legacyEvalFn` is kept without its `*EvalState` argument.
`Define`, `GetDef` and `Clear` never read or write these two fields. -/
structure Def where
  downvalues : List Ex
  attributes : List String
  legacyEvalFn : Option (Ex → Ex)

/-- The struct `EvalState` of `cas.go:63-71`, without the embedded logger: the
Go map `defined` is the function from a name to its `Def`, `none` for a name
that is not a key. -/
structure EvalState where
  defined : String → Option Def
  NoInit : Bool

/-- The callees of the store whose bodies are not among the source files, next
to those of the matcher: the methods `StringForm(form)` and `String()` of an
expression (`ExString`), and `ReplaceAll`. -/
structure StoreHelpers extends Helpers where
  StringForm : Ex → String → String
  ExString : Ex → String
  ReplaceAll : Ex → Ex → PDManager → Ex

/-- The literal `Expression{[]Ex{&Symbol{"Rule"}, lhs, rhs}}` of lines 292,
316 and 321. -/
def ruleExpression (lhs rhs : Ex) : Ex := .Expression [.Symbol "Rule", lhs, rhs]

/-- The assignment `this.defined[name] = d`. -/
def EvalState.setDefined (this : EvalState) (name : String) (d : Def) : EvalState :=
  { this with defined := fun k => if k = name then some d else this.defined k }

/-- The loop of lines 298-303 over the downvalues from index `i` on: `none` is
a panic (`Parts[1]` or `Parts[2]` out of range), `some none` the end of the
loop without a `return`, `some (some dvs)` the downvalues after the assignment
`downvalues[i].Parts[2] = rhs`, which writes through the slice kept in the
map. -/
def redefineLoop (S : StoreHelpers) (lhs rhs : Ex) : List Ex → Option (Option (List Ex))
  | [] => some none
  | r :: rest =>
      match r.Parts.get? 1 with
      | none => none
      | some pat =>
          if S.IsSameQ pat lhs then
            if 2 < r.Parts.length then some (some (.Expression (r.Parts.set 2 rhs) :: rest))
            else none
          else
            match redefineLoop S lhs rhs rest with
            | none => none
            | some none => some none
            | some (some rest') => some (some (r :: rest'))

/-- The loop of lines 313-320 over the downvalues from index `i` on and the
`append` of line 321 after it: the new rule goes before the first rule whose
`thisLhsLen` is below `newLhsLen`, or to the end.  `none` is the panic of
`Parts[1]`. -/
def insertLoop (S : StoreHelpers) (newLhsLen : Nat) (rule : Ex) : List Ex → Option (List Ex)
  | [] => some [rule]
  | r :: rest =>
      match r.Parts.get? 1 with
      | none => none
      | some pat =>
          let thisLhsLen := len (S.ExString pat)
          if thisLhsLen < newLhsLen then some (rule :: r :: rest)
          else
            match insertLoop S newLhsLen rule rest with
            | none => none
            | some rest' => some (r :: rest')

/-- The method `Define(name, lhs, rhs)` of lines 287-323; the state after the
call, `none` for a panic. -/
def EvalState.Define (S : StoreHelpers) (this : EvalState) (name : String) (lhs rhs : Ex) :
    Option EvalState :=
  match this.defined name with
  | none =>
      let newDef : Def := ⟨[ruleExpression lhs rhs], [], none⟩
      some (this.setDefined name newDef)
  | some d =>
      match redefineLoop S lhs rhs d.downvalues with
      | none => none
      | some (some dvs) => some (this.setDefined name { d with downvalues := dvs })
      | some none =>
          let tmp := d
          let newLhsLen := len (S.StringForm lhs "InputForm")
          match insertLoop S newLhsLen (ruleExpression lhs rhs) d.downvalues with
          | none => none
          | some dvs => some (this.setDefined name { tmp with downvalues := dvs })

/-- The loop of lines 277-283 over the downvalues from index `i` on: the pair
returned by `GetDef`, with `none` for the Go `nil`; the outer `none` is the
panic of `Parts[1]`. -/
def getDefLoop (S : StoreHelpers) (lhs : Ex) : List Ex → Option (Option Ex × Bool)
  | [] => some (none, false)
  | r :: rest =>
      match r.Parts.get? 1 with
      | none => none
      | some pat =>
          if (S.IsMatchQ lhs pat EmptyPD).1 then some (some (S.ReplaceAll lhs r EmptyPD), true)
          else getDefLoop S lhs rest

/-- The method `GetDef(name, lhs)` of lines 271-285: the pair it returns and
the state after the call. -/
def EvalState.GetDef (S : StoreHelpers) (this : EvalState) (name : String) (lhs : Ex) :
    Option ((Option Ex × Bool) × EvalState) :=
  match this.defined name with
  | none => some ((none, false), this)
  | some d =>
      match getDefLoop S lhs d.downvalues with
      | none => none
      | some res => some (res, this)

/-- The method `Clear(name)` of lines 329-334. -/
def EvalState.Clear (this : EvalState) (name : String) : EvalState :=
  match this.defined name with
  | some _ => { this with defined := fun k => if k = name then none else this.defined k }
  | none => this

/-- The method `Init(loadAllDefs)` of lines 186-208.  `loadAll` stands for
lines 191-206 (the two passes of `Load` over `GetAllDefinitions()` and
`InitCAS`), whose callees are not among the source files; `none` is a fatal
exit or a panic in them. -/
def EvalState.Init (loadAll : EvalState → Option EvalState) (es : EvalState)
    (loadAllDefs : Bool) : Option EvalState :=
  let es : EvalState := { es with defined := fun _ => none }
  let es : EvalState := { es with NoInit := !loadAllDefs }
  if !es.NoInit then loadAll es else some es

/-- The method `ClearAll()` of lines 325-327. -/
def EvalState.ClearAll (loadAll : EvalState → Option EvalState) (this : EvalState) :
    Option EvalState :=
  this.Init loadAll (!this.NoInit)

/-! ## Vocabulary of the specification for the store -/

/-- The specificity of a stored rule: the length of the printed `InputForm` of
its pattern `Parts[1]`. -/
def specificity (S : StoreHelpers) (r : Ex) : Nat :=
  match r.Parts.get? 1 with
  | some pat => len (S.StringForm pat "InputForm")
  | none => 0

/-- The length the insertion loop computes for a stored rule:
`len(Parts[1].String())`. -/
def storedLen (S : StoreHelpers) (r : Ex) : Nat :=
  match r.Parts.get? 1 with
  | some pat => len (S.ExString pat)
  | none => 0

/-- A store without any `Def`. -/
def emptyStore (noInit : Bool) : EvalState := ⟨fun _ => none, noInit⟩

/-- The state after a sequence of `Define` calls, `none` if one of them
panics. -/
def runDefines (S : StoreHelpers) : EvalState → List (String × Ex × Ex) → Option EvalState
  | es, [] => some es
  | es, (name, lhs, rhs) :: calls =>
      match es.Define S name lhs rhs with
      | none => none
      | some es' => runDefines S es' calls

/-- The pattern of a stored rule is `pat`, and it is (or is not) `IsSameQ` to
`lhs`, as line 299 tests it. -/
def patternSameQ (S : StoreHelpers) (lhs : Ex) (r : Ex) (b : Bool) : Prop :=
  ∃ pat, r.Parts.get? 1 = some pat ∧ S.IsSameQ pat lhs = b

/-- The pattern of a stored rule is `pat`, and it matches (or does not match)
`e` under the empty context, as line 278 tests it. -/
def patternMatches (S : StoreHelpers) (e : Ex) (r : Ex) (b : Bool) : Prop :=
  ∃ pat, r.Parts.get? 1 = some pat ∧ (S.IsMatchQ e pat EmptyPD).1 = b

/-- The rule list `dvs` is in non-increasing order of specificity. -/
def sortedBySpecificity (S : StoreHelpers) (dvs : List Ex) : Prop :=
  List.Pairwise (fun a b => specificity S b ≤ specificity S a) dvs

/-- Every rule of the list has the three parts that `Define` gives a rule: the
head `Rule`, the pattern `Parts[1]` and the replacement `Parts[2]`. -/
def rulesWellFormed (dvs : List Ex) : Prop := ∀ r ∈ dvs, 2 < r.Parts.length

/-- The invariant of the store: the rule list of every defined symbol is made
of three-part rules and is in non-increasing order of specificity. -/
def StoreInvariant (S : StoreHelpers) (s : EvalState) : Prop :=
  ∀ name d, s.defined name = some d →
    rulesWellFormed d.downvalues ∧ sortedBySpecificity S d.downvalues

/-! ## A reference instance of the callees of the store -/

mutual
/-- Modelled from the spec: the printing methods of an expression are not
among the source files (but for `Rational`).  A composite is printed as the
spec writes it, `Head[Part1, Part2, ...]`, an atom by its value. -/
def printEx : Ex → String
  | .Symbol n => n
  | .Integer v => toString v
  | .Rational n d _ => toString n ++ "/" ++ toString d
  | .String v => String.singleton (Char.ofNat 34) ++ v ++ String.singleton (Char.ofNat 34)
  | .Expression parts => printParts parts
/-- The head, then the arguments between brackets. -/
def printParts : List Ex → String
  | [] => "[]"
  | h :: args => printEx h ++ "[" ++ printArgs args ++ "]"
/-- The arguments, separated by a comma and a blank. -/
def printArgs : List Ex → String
  | [] => ""
  | a :: rest => if rest.isEmpty then printEx a else printEx a ++ ", " ++ printArgs rest
end

mutual
/-- Modelled from the spec: the substitution of the bindings of a match into a
replacement template ("substitute the resulting bindings into its replacement
template"): a bound symbol is replaced by its value. -/
def ReplacePD : Ex → PDManager → Ex
  | .Symbol n, pm =>
      match pm.patternDefined n with
      | some v => v
      | none => .Symbol n
  | .Expression parts, pm => .Expression (ReplacePDList parts pm)
  | e, _ => e
/-- The substitution in every part. -/
def ReplacePDList : List Ex → PDManager → List Ex
  | [], _ => []
  | a :: rest, pm => ReplacePD a pm :: ReplacePDList rest pm
end

/-- Modelled from the spec: `ReplaceAll` is not among the source files.  When
the expression matches the pattern `r.Parts[1]` of the rule, the result is the
replacement `r.Parts[2]` with the bindings of the match substituted; else the
expression itself. -/
def ReplaceAll (m : Ex → Ex → PDManager → Bool × PDManager) (e r : Ex) (pm : PDManager) : Ex :=
  match r.Parts.get? 1, r.Parts.get? 2 with
  | some pat, some rhs =>
      if (m e pat pm).1 then ReplacePD rhs (pm.Update (m e pat pm).2) else e
  | _, _ => e

/-- The reference instance of the callees of the store: the reference matcher,
one printed form for every `form` and for `String()`, and the modelled
`ReplaceAll`. -/
def specStoreHelpers (fuel : Nat) : StoreHelpers where
  toHelpers := specHelpers fuel
  StringForm := fun e _ => printEx e
  ExString := printEx
  ReplaceAll := ReplaceAll (IsMatchQ fuel)

/-! ## Binding contexts behind pointers -/

/-- The heap of the `PDManager` objects: `cell a` is the object the pointer `a`
points to, `none` for an address that is not allocated, and `next` is the
address the next allocation returns. -/
structure PDHeap where
  cell : Nat → Option PDManager
  next : Nat

/-- In a well-formed heap no address from `next` on is allocated. -/
def PDHeap.wellFormed (h : PDHeap) : Prop := ∀ a, h.next ≤ a → h.cell a = none

/-- The object at address `a` becomes `pm`. -/
def PDHeap.store (h : PDHeap) (a : Nat) (pm : PDManager) : PDHeap :=
  { h with cell := fun b => if b = a then some pm else h.cell b }

/-- The function `EmptyPD()` of `cas.go:35-37`: the address of a fresh object
with an empty map. -/
def PDHeap.EmptyPD (h : PDHeap) : Nat × PDHeap :=
  (h.next, ⟨fun b => if b = h.next then some Expreduce.EmptyPD else h.cell b, h.next + 1⟩)

/-- The body of the two `range` loops of `cas.go:42-44` and `cas.go:50-52` run
over the entries `k, v` in the order of the list: each step is the assignment
`(*this).patternDefined[k] = f(v)`, where `f` is `DeepCopy` in `CopyPD` and
nothing in `Update`.  `none` is the nil-pointer panic. -/
def PDHeap.assignAll (f : Ex → Ex) (this : Nat) : PDHeap → List (String × Ex) → Option PDHeap
  | h, [] => some h
  | h, (k, v) :: rest =>
      match h.cell this with
      | none => none
      | some pm => PDHeap.assignAll f this (h.store this (pm.set k (f v))) rest

/-- The method `this.Update(toAdd)` of `cas.go:48-53` on pointers.  Go leaves
the order of a `range` over a map open: `entries` is the order in which the
loop meets the entries of the map of `toAdd`. -/
def PDHeap.Update (h : PDHeap) (this toAdd : Nat) (entries : List (String × Ex)) :
    Option PDHeap :=
  match h.cell toAdd with
  | none => none
  | some _ => PDHeap.assignAll (fun v => v) this h entries

/-- The function `CopyPD(orig)` of `cas.go:39-46` on pointers: `dest` is a
fresh empty object, filled by the loop over the entries of the map of `orig`,
met in the order `entries`. -/
def PDHeap.CopyPD (h : PDHeap) (orig : Nat) (entries : List (String × Ex)) :
    Option (Nat × PDHeap) :=
  match (h.EmptyPD).2.cell orig with
  | none => none
  | some _ =>
      match PDHeap.assignAll Ex.DeepCopy (h.EmptyPD).1 (h.EmptyPD).2 entries with
      | none => none
      | some h2 => some ((h.EmptyPD).1, h2)

/-- The list `entries` is an order in which a `range` loop can meet the map of
`pm`: it holds the entries of the map and nothing else. -/
def enumerates (entries : List (String × Ex)) (pm : PDManager) : Prop :=
  ∀ k v, (k, v) ∈ entries ↔ pm.patternDefined k = some v

/-- The loop of `Update` on values: the assignments `this[k] = v` in the order
of the list. -/
def updateLoop (this : PDManager) : List (String × Ex) → PDManager
  | [] => this
  | (k, v) :: rest => updateLoop (this.set k v) rest

/-! ## Rational numbers -/

/-- Modelled from the spec: `NewSymbol` is called by `ex_rational.go` and
`qfunctions.go` but its body is not among the source files.  By the spec's
`Symbol(name)` it makes the symbol of that name. -/
def NewSymbol (name : String) : Ex := .Symbol name

/-- Modelled from the spec: `NewInteger` is called by `ex_rational.go` but its
body is not among the source files.  By the spec's `Integer(value)` it makes
the integer atom of that value. -/
def NewInteger (i : Int) : Ex := .Integer i

/-- The struct `Rational` of `ex_rational.go:11-15`; a `*big.Int` is the
integer it holds. -/
structure Rational where
  Num : Int
  Den : Int
  needsEval : Bool

/-- The constructor `NewRational(n, d)` of `ex_rational.go:111-113`. -/
def NewRational (n d : Int) : Rational := ⟨n, d, true⟩

/-- A `*Rational` as a value of the interface `Ex`. -/
def Rational.toEx (this : Rational) : Ex := .Rational this.Num this.Den this.needsEval

/-- The method `Abs` of `math/big.Int`: the absolute value. -/
def bigAbs (x : Int) : Int := (x.natAbs : Nat)

/-- The method `GCD(nil, nil, a, b)` of `math/big.Int`: the greatest common
divisor of `a` and `b`, not negative. -/
def bigGCD (a b : Int) : Int := (Int.gcd a b : Nat)

/-- The method `Div` of `math/big.Int`: Euclidean division, with a run-time
panic (`none`) for the divisor zero. -/
def bigDiv (x y : Int) : Option Int := if y = 0 then none else some (x / y)

/-- The method `Eval` of `ex_rational.go:17-58`, without its argument `es`,
which it does not use.  Where the source returns `this` after writing its
three fields, the result is the rational with the fields written. -/
def Rational.Eval (this : Rational) : Option Ex :=
  if this.Num = 0 ∧ this.Den = 0 then some (NewSymbol "System`Indeterminate")
  else if this.Den = 0 then some (NewSymbol "System`ComplexInfinity")
  else if this.Num = 0 then some (NewInteger 0)
  else
    let negNum := decide (this.Num < 0)
    let negDen := decide (this.Den < 0)
    let negateRes := negNum != negDen
    let absNum := bigAbs this.Num
    let absDen := bigAbs this.Den
    let gcd := bigGCD absNum absDen
    match bigDiv absNum gcd with
    | none => none
    | some absNum =>
        match bigDiv absDen gcd with
        | none => none
        | some absDen =>
            if absDen = 1 then
              if !negateRes then some (NewInteger absNum)
              else some (NewInteger (-absNum))
            else if !negateRes then some (.Rational absNum absDen false)
            else some (.Rational (-absNum) absDen false)

/-- The method `IsEqual` of `ex_rational.go:78-88`, without the logger. -/
def Rational.IsEqual (this : Rational) (other : Ex) : String :=
  match other with
  | .Rational n d _ =>
      if this.Num ≠ n ∨ this.Den ≠ d then "EQUAL_FALSE" else "EQUAL_TRUE"
  | _ => "EQUAL_FALSE"

/-! ## Vocabulary of the specification for rationals -/

/-- The numerator `|Num| / gcd(|Num|, |Den|)` of the reduced fraction, without
its sign. -/
def reducedNum (r : Rational) : Nat := r.Num.natAbs / Nat.gcd r.Num.natAbs r.Den.natAbs

/-- The denominator `|Den| / gcd(|Num|, |Den|)` of the reduced fraction. -/
def reducedDen (r : Rational) : Nat := r.Den.natAbs / Nat.gcd r.Num.natAbs r.Den.natAbs

/-- Exactly one of `Num`, `Den` is negative. -/
def oneNegative (r : Rational) : Bool := decide (r.Num < 0) != decide (r.Den < 0)

/-- The numerator of the reduced fraction with the sign of the fraction. -/
def signedNum (r : Rational) : Int :=
  if oneNegative r = true then -(reducedNum r : Int) else (reducedNum r : Int)

/-! ## Rational arithmetic in place -/

/-- The method `AddI` of `ex_rational.go:135-139`, the argument being the value
of the `Integer`: `tmp = i.Val * this.Den`, then `this.Num += tmp`. -/
def Rational.AddI (this : Rational) (i : Int) : Rational :=
  let tmp := i * this.Den
  { this with Num := this.Num + tmp }

/-- The struct `Rational` of `ex_rational.go:11-15` as it lies in memory:
`Num` and `Den` are pointers to `big.Int` objects. -/
structure RationalObj where
  Num : Nat
  Den : Nat
  needsEval : Bool

/-- The heap of the `big.Int` objects and of the `Rational` objects: the
integer that the object behind a `*big.Int` holds and the struct behind a
`*Rational`, `none` for an address that is not allocated.  Two `Rational`
objects may hold the same `*big.Int`. -/
structure RatHeap where
  int : Nat → Option Int
  rat : Nat → Option RationalObj

/-- The `big.Int` object at address `p` comes to hold `v`. -/
def RatHeap.setInt (h : RatHeap) (p : Nat) (v : Int) : RatHeap :=
  { h with int := fun q => if q = p then some v else h.int q }

/-- The method `z.Mul(x, y)` of `math/big.Int` on pointers: it reads the
objects `x` and `y` and then writes their product to the object `z`, which
may be one of them; `none` is the nil-pointer panic. -/
def RatHeap.Mul (h : RatHeap) (z x y : Nat) : Option RatHeap :=
  match h.int z, h.int x, h.int y with
  | some _, some vx, some vy => some (h.setInt z (vx * vy))
  | _, _, _ => none

/-- The fraction that the `Rational` object at the pointer `p` holds: the
values of the two `big.Int` objects it points to. -/
def RatHeap.read (h : RatHeap) (p : Nat) : Option Rational :=
  match h.rat p with
  | some o =>
      match h.int o.Num, h.int o.Den with
      | some n, some d => some ⟨n, d, o.needsEval⟩
      | _, _ => none
  | none => none

/-- The method `this.AddR(r)` of `ex_rational.go:141-148` on pointers, one
statement after the other, each reading the `big.Int` objects as they are when
it runs.  The object `tmp` is new and no one else holds it: it is the local
value `tmp`.  `none` is the nil-pointer panic. -/
def RatHeap.AddR (h : RatHeap) (this r : Nat) : Option RatHeap :=
  match h.rat this, h.rat r with
  | some t, some r0 =>
      match h.int t.Den, h.int r0.Num with
      | some d, some rn =>
          let tmp := d * rn
          match h.Mul t.Den t.Den r0.Den with
          | none => none
          | some h1 =>
              match h1.Mul t.Num t.Num r0.Den with
              | none => none
              | some h2 =>
                  match h2.int t.Num with
                  | some n => some (h2.setInt t.Num (n + tmp))
                  | none => none
      | _, _ => none
  | _, _ => none

/-- The method `this.MulR(r)` of `ex_rational.go:158-161` on pointers:
`this.Num.Mul(this.Num, r.Num)`, then `this.Den.Mul(this.Den, r.Den)`. -/
def RatHeap.MulR (h : RatHeap) (this r : Nat) : Option RatHeap :=
  match h.rat this, h.rat r with
  | some t, some r0 =>
      match h.Mul t.Num t.Num r0.Num with
      | none => none
      | some h1 => h1.Mul t.Den t.Den r0.Den
  | _, _ => none

/-- The rational number that a `Rational` denotes. -/
def Rational.value (r : Rational) : ℚ := (r.Num : ℚ) / (r.Den : ℚ)

/-- A `Rational` in lowest terms with a positive denominator. -/
def Rational.normalized (r : Rational) : Prop := Int.gcd r.Num r.Den = 1 ∧ 0 < r.Den

/-- The heap with `1/2` at the address 0 and `1/3` at the address 1, made of
four `big.Int` objects. -/
def ratHeapTwo : RatHeap :=
  ⟨fun p => if p = 0 then some 1 else if p = 1 then some 2 else if p = 2 then some 1
      else if p = 3 then some 3 else none,
    fun a => if a = 0 then some ⟨0, 1, false⟩ else if a = 1 then some ⟨2, 3, false⟩ else none⟩

/-- The heap with two `Rational` objects, at the addresses 0 and 1, that both
hold `1/3`: each has a numerator of its own, the `big.Int` objects 0 and 1,
and they share the denominator, the `big.Int` object 2. -/
def ratHeapShared : RatHeap :=
  ⟨fun p => if p = 0 then some 1 else if p = 1 then some 1 else if p = 2 then some 3 else none,
    fun a => if a = 0 then some ⟨0, 2, false⟩ else if a = 1 then some ⟨1, 2, false⟩ else none⟩

/-! ## Permutations -/

/-- How a call with a bound on the number of iterations of an unbounded loop
ends: it returns a value, it panics, or the bound is used up. -/
inductive Run (α : Type) where
  | done (a : α)
  | panic
  | unfinished

/-- The read `xs[k]` of a slice of `int`; `none` is the index-out-of-range
panic. -/
def getAt (xs : List Int) (k : Int) : Option Int :=
  if k < 0 then none else xs.get? k.toNat

/-- The write `xs[k] = v` to a slice of `int`; `none` is the
index-out-of-range panic. -/
def setAt (xs : List Int) (k : Int) (v : Int) : Option (List Int) :=
  if k < 0 ∨ (xs.length : Int) ≤ k then none else some (xs.set k.toNat v)

/-- The variables of `permutations` that its loops write. -/
structure PermState where
  indices : List Int
  cycles : List Int
  result : List Int
  res : List (List Int)

/-- The loop `for j := i; j < n-1; j += 1 { indices[j] = indices[j+1] }` of
lines 722-724, with `todo` iterations left. -/
def shiftLoop : Nat → Int → List Int → Option (List Int)
  | 0, _, indices => some indices
  | todo + 1, j, indices =>
      match getAt indices (j + 1) with
      | none => none
      | some v =>
          match setAt indices j v with
          | none => none
          | some indices1 => shiftLoop todo (j + 1) indices1

/-- The loop `for k := i; k < r; k += 1 { result[k] = pool[indices[k]] }` of
lines 731-733, with `todo` iterations left. -/
def resultLoop (pool indices : List Int) : Nat → Int → List Int → Option (List Int)
  | 0, _, result => some result
  | todo + 1, k, result =>
      match getAt indices k with
      | none => none
      | some el =>
          match getAt pool el with
          | none => none
          | some v =>
              match setAt result k v with
              | none => none
              | some result1 => resultLoop pool indices todo (k + 1) result1

/-- The loop `for ; i >= 0; i -= 1` of lines 718-741 with `todo` iterations
left, at the index `i`.  The result is `none` for a panic, and otherwise the
state and whether the loop was left by `break` (so that `i >= 0` after it). -/
def cycleLoop (pool : List Int) (n r : Int) :
    Nat → Int → PermState → Option (PermState × Bool)
  | 0, _, st => some (st, false)
  | todo + 1, i, st =>
      match getAt st.cycles i with
      | none => none
      | some ci =>
          match setAt st.cycles i (ci - 1) with
          | none => none
          | some cycles1 =>
              if ci - 1 = 0 then
                match getAt st.indices i with
                | none => none
                | some index =>
                    match shiftLoop (n - 1 - i).toNat i st.indices with
                    | none => none
                    | some indices1 =>
                        match setAt indices1 (n - 1) index with
                        | none => none
                        | some indices2 =>
                            match setAt cycles1 i (n - i) with
                            | none => none
                            | some cycles2 =>
                                cycleLoop pool n r todo (i - 1)
                                  { st with indices := indices2, cycles := cycles2 }
              else
                let j := ci - 1
                match getAt st.indices (n - j), getAt st.indices i with
                | some a, some b =>
                    match setAt st.indices i a with
                    | none => none
                    | some indices1 =>
                        match setAt indices1 (n - j) b with
                        | none => none
                        | some indices2 =>
                            match resultLoop pool indices2 (r - i).toNat i st.result with
                            | none => none
                            | some result1 =>
                                some ({ indices := indices2, cycles := cycles1,
                                        result := result1, res := st.res ++ [result1] }, true)
                | _, _ => none

/-- The loop `for n > 0` of lines 716-747, with a bound on the number of its
iterations. -/
def mainLoop (pool : List Int) (n r : Int) : Nat → PermState → Run (List (List Int))
  | 0, _ => .unfinished
  | fuel + 1, st =>
      if n > 0 then
        match cycleLoop pool n r r.toNat (r - 1) st with
        | none => .panic
        | some (st1, broke) =>
            if !broke then .done st1.res
            else mainLoop pool n r fuel st1
      else .done st.res

/-- The loop `for i, el := range indices[:r] { result[i] = pool[el] }` of
lines 707-709 over the elements of `indices[:r]`, the next index being `i`. -/
def initResult (pool : List Int) : List Int → Int → List Int → Option (List Int)
  | [], _, result => some result
  | el :: rest, i, result =>
      match getAt pool el with
      | none => none
      | some v =>
          match setAt result i v with
          | none => none
          | some result1 => initResult pool rest (i + 1) result1

/-- The function `permutations(iterable, r)` of `cas.go:688-750`, with the
bound `fuel` on the iterations of the loop `for n > 0`.  The allocation
`make([]int, r)` panics for a negative `r`; the loops `for i := range` that
fill `indices` and `cycles` are the two `map`s. -/
def permutationsBounded (fuel : Nat) (iterable : List Int) (r : Int) : Run (List (List Int)) :=
  let res : List (List Int) := []
  let pool := iterable
  let n : Int := pool.length
  if r > n then .done res
  else
    let indices : List Int := (List.range pool.length).map (fun i : Nat => (i : Int))
    if r < 0 then .panic
    else
      let cycles : List Int := (List.range r.toNat).map (fun i : Nat => n - (i : Int))
      let result : List Int := List.replicate r.toNat 0
      match initResult pool (indices.take r.toNat) 0 result with
      | none => .panic
      | some result1 =>
          let c := result1
          let res := res ++ [c]
          mainLoop pool n r fuel ⟨indices, cycles, result1, res⟩

/-- The function `permutations(iterable, r)`: every iteration of the loop
`for n > 0` but the last appends a permutation, and there are
`n (n-1) ... (n-r+1)` of them, so that many iterations and one more are
enough, and every larger bound gives the same result
(`permutationsBounded_eq`). -/
def permutations (iterable : List Int) (r : Int) : Run (List (List Int)) :=
  permutationsBounded (Nat.descFactorial iterable.length r.toNat + 1) iterable r


/-! ## Vocabulary of the specification for permutations -/

/-- The element `iterable[i]`, and `0` for an index that is out of range. -/
def poolAt (pool : List Int) (i : Nat) : Int := pool.getD i 0

/-- A list of indices as a slice of `int`. -/
def toInts (xs : List Nat) : List Int := xs.map (fun i : Nat => (i : Int))

/-- The values `n - k` of `cycles[k]` for `k` from `i` up to `r - 1`, as the
loop of lines 702-704 sets them. -/
def freshCycles (n r i : Nat) : List Int :=
  (List.range (r - i)).map (fun d : Nat => (n : Int) - ((i + d : Nat) : Int))

/-- The `(k+1)`-permutations of the list `A ++ B` that start with an element
of `B`, block by block in the order of `B`. -/
def restBlocks (k : Nat) : List Nat → List Nat → List (List Nat)
  | _, [] => []
  | A, y :: B => (kPerms k (A ++ B)).map (fun p => y :: p) ++ restBlocks k (A ++ [y]) B

/-- The next iteration of the loop `for n > 0` when the loop over `i` has
come down to the index `i - 1` (`i` iterations left) without leaving: the rest
of that loop, then the test `i < 0`, then the further iterations. -/
def resumeAt (pool : List Int) (n r : Int) (i fuel : Nat) (st : PermState) :
    Run (List (List Int)) :=
  match cycleLoop pool n r i ((i : Int) - 1) st with
  | none => .panic
  | some (st1, broke) => if !broke then .done st1.res else mainLoop pool n r fuel st1

/-- The state of `permutations` between two iterations of the loop over `i`,
below the index `i`: `indices` holds `pre` and then `T`, the entries of
`cycles` from `i` on are those of a fresh start, `result` holds the elements
at `pre` in its first `i` places, and `res` is `res`. -/
structure AtLevel (pool : List Int) (n r i : Nat) (pre T : List Nat) (cpre : List Int)
    (res : List (List Int)) (st : PermState) : Prop where
  indices_eq : st.indices = toInts (pre ++ T)
  cycles_eq : st.cycles = cpre ++ freshCycles n r i
  result_length : st.result.length = r
  result_take : st.result.take i = pre.map (poolAt pool)
  res_eq : st.res = res

/-- The slices that `permutations` appends for the index lists `pre ++ q`, `q`
in `Q`: the elements of `pool` at these indices. -/
def emit (pool : List Int) (pre : List Nat) (Q : List (List Nat)) : List (List Int) :=
  Q.map (fun q => (pre ++ q).map (poolAt pool))

/-! ## Native evaluators -/

/-- The type `evalFnType` of `qfunctions.go:12`, without the argument
`*EvalState`, of which the evaluators below use the logger only.  The
argument is the `*Expression` as an `Ex`; `none` is a run-time panic. -/
abbrev evalFnType : Type := Ex → Option Ex

/-- The struct `Rule` of `cas.go:73-76`. -/
structure Rule where
  Lhs : String
  Rhs : String

/-- The struct `Definition` of `cas.go:78-99`, without the examples, the tests
and `toString`. -/
structure Definition where
  Name : String
  Usage : String
  Bootstrap : Bool
  Rules : List Rule
  legacyEvalFn : Option evalFnType
  Attributes : List String

/-- The literal `Definition{Name: name}`: the other fields have their zero
value. -/
def Definition.named (name : String) : Definition := ⟨name, "", false, [], none, []⟩

/-- The function literal of `builtin_atoms.go:6-16`, the native evaluator of
`Rational`. -/
def rationalEvalFn : evalFnType := fun this =>
  if this.Parts.length ≠ 3 then some this
  else
    match this.Parts.get? 1, this.Parts.get? 2 with
    | some p1, some p2 =>
        match p1, p2 with
        | .Integer n, .Integer d => (NewRational n d).Eval
        | _, _ => some this
    | _, _ => none

/-- The function `getAtomsDefinitions` of `builtin_atoms.go:3-22`. -/
def getAtomsDefinitions : List Definition :=
  [{ Definition.named "Rational" with legacyEvalFn := some rationalEvalFn },
   Definition.named "String", Definition.named "Real", Definition.named "Integer"]

/-- The function `singleParamQEval` of `qfunctions.go:14-24`. -/
def singleParamQEval (fn : Ex → Bool) : evalFnType := fun this =>
  if this.Parts.length ≠ 2 then some this
  else
    match this.Parts.get? 1 with
    | none => none
    | some p1 =>
        if fn p1 then some (NewSymbol "System`True") else some (NewSymbol "System`False")

/-- The function `singleParamQLogEval` of `qfunctions.go:26-36`; the logger
argument of `fn` is dropped. -/
def singleParamQLogEval (fn : Ex → Bool) : evalFnType := fun this =>
  if this.Parts.length ≠ 2 then some this
  else
    match this.Parts.get? 1 with
    | none => none
    | some p1 =>
        if fn p1 then some (NewSymbol "System`True") else some (NewSymbol "System`False")

/-- The function `doubleParamQLogEval` of `qfunctions.go:38-48`; the logger
argument of `fn` is dropped. -/
def doubleParamQLogEval (fn : Ex → Ex → Bool) : evalFnType := fun this =>
  if this.Parts.length ≠ 3 then some this
  else
    match this.Parts.get? 1, this.Parts.get? 2 with
    | some p1, some p2 =>
        if fn p1 p2 then some (NewSymbol "System`True") else some (NewSymbol "System`False")
    | _, _ => none

/-- The function `symbolNameQ` of `qfunctions.go:89-95`, without the logger. -/
def symbolNameQ (e : Ex) (name : String) : Bool :=
  match e with
  | .Symbol n => decide (n = name)
  | _ => false

/-- The function `trueQ` of `qfunctions.go:97-99`. -/
def trueQ (e : Ex) : Bool := symbolNameQ e "System`True"

/-- The function `falseQ` of `qfunctions.go:101-103`. -/
def falseQ (e : Ex) : Bool := symbolNameQ e "System`False"

/-! ## The listing of the built-in definitions -/

/-- The struct `NamedDefSet` of `cas.go:140-143`. -/
structure NamedDefSet where
  Name : String
  Defs : List Definition

/-- The nineteen functions that `GetAllDefinitions` calls for the definitions
of a module; their bodies are not among the source files. -/
structure DefinitionGetters where
  GetCombinatoricsDefinitions : List Definition
  GetCalculusDefinitions : List Definition
  GetComparisonDefinitions : List Definition
  GetConstantsDefinitions : List Definition
  GetExpressionDefinitions : List Definition
  GetFlowControlDefinitions : List Definition
  GetListDefinitions : List Definition
  GetOrderDefinitions : List Definition
  GetPlusDefinitions : List Definition
  GetPowerDefinitions : List Definition
  GetRandomDefinitions : List Definition
  GetReplacementDefinitions : List Definition
  GetSortDefinitions : List Definition
  GetSymbolDefinitions : List Definition
  GetSystemDefinitions : List Definition
  GetStringDefinitions : List Definition
  GetTimeDefinitions : List Definition
  GetTimesDefinitions : List Definition
  GetPatternDefinitions : List Definition

/-- Lines 146-164 of `cas.go`: the sets in the order in which they are
appended. -/
def listedDefinitions (G : DefinitionGetters) : List NamedDefSet :=
  [⟨"combinatorics", G.GetCombinatoricsDefinitions⟩,
   ⟨"calculus", G.GetCalculusDefinitions⟩,
   ⟨"comparison", G.GetComparisonDefinitions⟩,
   ⟨"constants", G.GetConstantsDefinitions⟩,
   ⟨"expression", G.GetExpressionDefinitions⟩,
   ⟨"flowcontrol", G.GetFlowControlDefinitions⟩,
   ⟨"list", G.GetListDefinitions⟩,
   ⟨"order", G.GetOrderDefinitions⟩,
   ⟨"plus", G.GetPlusDefinitions⟩,
   ⟨"power", G.GetPowerDefinitions⟩,
   ⟨"random", G.GetRandomDefinitions⟩,
   ⟨"replacement", G.GetReplacementDefinitions⟩,
   ⟨"sort", G.GetSortDefinitions⟩,
   ⟨"symbol", G.GetSymbolDefinitions⟩,
   ⟨"system", G.GetSystemDefinitions⟩,
   ⟨"string", G.GetStringDefinitions⟩,
   ⟨"time", G.GetTimeDefinitions⟩,
   ⟨"times", G.GetTimesDefinitions⟩,
   ⟨"pattern", G.GetPatternDefinitions⟩]

/-- The inner loop of lines 169-175 over the definitions of one set.  The Go
map `definedNames` is the function from a name to its value; `none` is the
abort of `log.Fatalf`. -/
def checkDefs : (String → Option Bool) → List Definition → Option (String → Option Bool)
  | definedNames, [] => some definedNames
  | definedNames, d :: rest =>
      if (definedNames d.Name).isSome then none
      else checkDefs (fun k => if k = d.Name then some true else definedNames k) rest

/-- The outer loop of lines 168-176 over the sets. -/
def checkDefSets : (String → Option Bool) → List NamedDefSet → Option (String → Option Bool)
  | definedNames, [] => some definedNames
  | definedNames, defSet :: rest =>
      match checkDefs definedNames defSet.Defs with
      | none => none
      | some definedNames1 => checkDefSets definedNames1 rest

/-- The function `GetAllDefinitions` of `cas.go:145-178`; `none` is the abort
of `log.Fatalf`. -/
def GetAllDefinitions (G : DefinitionGetters) : Option (List NamedDefSet) :=
  let defs := listedDefinitions G
  match checkDefSets (fun _ => none) defs with
  | none => none
  | some _ => some defs

/-- The names of all the definitions of the sets, in the order in which the
two loops meet them. -/
def allNames (defs : List NamedDefSet) : List String :=
  defs.flatMap (fun defSet => defSet.Defs.map (fun d => d.Name))

/-! ## The native evaluator of `StringTake` -/

/-- The bytes of a Go string.  A Go string is a sequence of bytes: `len`
counts them and `s[lo:hi]` slices them. -/
def goBytes (s : String) : List UInt8 := s.toUTF8.data.toList

/-- The value of an `int64` computed without regard to overflow: the value
modulo `2^64` in the range from `-2^63` to `2^63 - 1`.  It is also the result
of `x.Int64()` on a `*big.Int`: `x` itself when it fits in 64 bits. -/
def wrapInt64 (x : Int) : Int := (x + 2 ^ 63) % 2 ^ 64 - 2 ^ 63

/-- The slice expression `bytes[lo:hi]` on a string; `none` is the
slice-bounds-out-of-range panic. -/
def goSlice (bytes : List UInt8) (lo hi : Int) : Option (List UInt8) :=
  if 0 ≤ lo ∧ lo ≤ hi ∧ hi ≤ (bytes.length : Int) then
    some ((bytes.drop lo.toNat).take (hi.toNat - lo.toNat))
  else none

/-- The function literal of `builtin_string.go:76-102`, the native evaluator
of `StringTake`, on a platform whose `int` has 64 bits.  `NewString`, whose
body is not among the source files, is a parameter: it is given the bytes of
the Go string it wraps. -/
def stringTakeEvalFn (NewString : List UInt8 → Ex) : evalFnType := fun this =>
  if this.Parts.length ≠ 3 then some this
  else
    match this.Parts.get? 1, this.Parts.get? 2 with
    | some p1, some p2 =>
        match p1 with
        | .String asStr =>
            let (asList, isList) := HeadAssertion p2 "System`List"
            if !isList || asList.Parts.length ≠ 3 then some this
            else
              match asList.Parts.get? 1, asList.Parts.get? 2 with
              | some q1, some q2 =>
                  match q1, q2 with
                  | .Integer sInt, .Integer eInt =>
                      let s := wrapInt64 (wrapInt64 sInt - 1)
                      let e := wrapInt64 (wrapInt64 eInt - 1)
                      if s < 0 ∨ e ≥ (len asStr : Int) then some this
                      else if e < s then some (NewString [])
                      else (goSlice (goBytes asStr) s (wrapInt64 (e + 1))).map NewString
                  | _, _ => some this
              | _, _ => none
        | _ => some this
    | _, _ => none

/-- Modelled from the spec: `NewString` is called by `builtin_string.go` but
its body is not among the source files.  By its name and its uses it returns
the `*String` whose `Val` is its argument.  This is the constructor at ASCII
text, each byte being the character of that code. -/
def specNewString (bytes : List UInt8) : Ex :=
  .String (String.mk (bytes.map (fun b => Char.ofNat b.toNat)))

/-! ## Example expressions and stores -/

/-- The pattern `f[x_]`. -/
def fBlank : Ex :=
  .Expression [.Symbol "f",
    .Expression [.Symbol "Pattern", .Symbol "x", .Expression [.Symbol "Blank"]]]

/-- The pattern `f[x_Integer]`. -/
def fBlankInteger : Ex :=
  .Expression [.Symbol "f",
    .Expression [.Symbol "Pattern", .Symbol "x",
      .Expression [.Symbol "Blank", .Symbol "Integer"]]]

/-- The Definition whose only rule is `f[x_] -> 2`. -/
def defFBlank : Def := ⟨[ruleExpression fBlank (.Integer 2)], [], none⟩

/-- The store whose only Definition is `defFBlank`, under the name `f`. -/
def storeFBlank : EvalState := (emptyStore true).setDefined "f" defFBlank

/-- The context that binds `x` to `a`. -/
def pdXA : PDManager := EmptyPD.set "x" (.Symbol "a")

/-- The context that binds `x` to `b` and `y` to `c`. -/
def pdXBYC : PDManager := (EmptyPD.set "x" (.Symbol "b")).set "y" (.Symbol "c")

/-- The heap with two objects: `pdXA` at the address 0 and `pdXBYC` at the
address 1. -/
def heapTwo : PDHeap :=
  ⟨fun a => if a = 0 then some pdXA else if a = 1 then some pdXBYC else none, 2⟩

/-- The getters of which `GetPlusDefinitions` returns `plus`,
`GetTimesDefinitions` returns `times`, and the others return no definition. -/
def gettersOf (plus times : List Definition) : DefinitionGetters :=
  ⟨[], [], [], [], [], [], [], [], plus, [], [], [], [], [], [], [], [], times, []⟩

/-- The expression `StringTake[str, {m, n}]`. -/
def stringTakeOf (str : String) (m n : Int) : Ex :=
  .Expression [.Symbol "System`StringTake", .String str,
    .Expression [.Symbol "System`List", .Integer m, .Integer n]]

/-! ## Basic facts -/

theorem CopyPD_eq (pm : PDManager) : CopyPD pm = pm := by
  cases pm with
  | mk f =>
    simp only [CopyPD, PDManager.mk.injEq]
    funext k
    cases f k <;> rfl

theorem HeadAssertion_fst (e : Ex) (h : String) (hh : (HeadAssertion e h).2 = true) :
    (HeadAssertion e h).1 = e := by
  unfold HeadAssertion at *
  split
  · split
    · rfl
    · rename_i hne; simp [hne] at hh
  · simp at hh

theorem seqTest_of_not_wildcard (p : Ex) (hwf : wellFormedPattern p = true)
    (hnw : isSeqWildcard p = false) :
    ∃ t, seqTest p = some t ∧ t.isBns = false ∧ t.isBs = false := by
  unfold seqTest
  unfold isSeqWildcard at hnw
  unfold wellFormedPattern at hwf
  simp only [Bool.or_eq_false_iff, Bool.and_eq_false_iff] at hnw
  obtain ⟨⟨h1, h2⟩, h3⟩ := hnw
  by_cases hp : (HeadAssertion p "Pattern").2 = true
  · have hfst := HeadAssertion_fst p "Pattern" hp
    simp only [hp, Bool.not_true, Bool.false_or, decide_eq_true_eq] at hwf
    have hlt : 2 < p.Parts.length := by omega
    rcases h3 with h3 | h3
    · simp [hp] at h3
    · simp only [hp, hfst, if_true]
      rw [List.get?_eq_get hlt] at h3 ⊢
      simp only [Bool.or_eq_false_iff] at h3
      exact ⟨_, rfl, h3.2, h3.1⟩
  · simp only [hp]
    exact ⟨_, rfl, h2, h1⟩

theorem positionalMatch_nil (H : Helpers) (cs : List Ex) (pm : PDManager) :
    positionalMatch H cs [] pm = some (cs.isEmpty, pm) := by
  cases cs <;> simp [positionalMatch, CopyPD_eq]

theorem positionalMatch_cons (H : Helpers) (components : List Ex) (p : Ex) (remainingLhs : List Ex)
    (pm : PDManager) :
    positionalMatch H components (p :: remainingLhs) pm =
      match seqTest p with
      | none => none
      | some t =>
          if t.isBns || t.isBs then
            windowLoop
              (fun n =>
                match positionalMatch H (components.drop n) remainingLhs pm with
                | none => none
                | some (matchq, newPDs) =>
                    if (if t.isBns then
                          H.ExArrayTestRepeatingMatch (components.take n)
                            (H.BlankNullSequenceToBlank t.bns)
                        else
                          H.ExArrayTestRepeatingMatch (components.take n)
                            (H.BlankSequenceToBlank t.bs)) && matchq then
                      some (some (acceptWindow H t (components.take n) pm newPDs))
                    else some none)
              pm (components.length + 1 - (if t.isBns then 0 else 1)) (if t.isBns then 0 else 1)
          else
            match components with
            | [] => some (false, pm)
            | c :: rest =>
                if (H.IsMatchQ c p pm).1 then
                  positionalMatch H rest remainingLhs (pm.Update (H.IsMatchQ c p pm).2)
                else some (false, pm) := by
  conv_rhs => rw [← CopyPD_eq pm]
  rfl

/-! ## The loops of `NonOrderlessIsMatchQ` and the recursion on the pattern list -/

theorem copyFrom_eq (xs : List Ex) (count k : Nat) (h : k + count ≤ xs.length) :
    copyFrom xs count (k : Int) = some ((xs.drop k).take count) := by
  induction count generalizing k with
  | zero => simp [copyFrom]
  | succ count ih =>
    have hk : k < xs.length := by omega
    have hnext : ((k : Int) + 1) = ((k + 1 : Nat) : Int) := by omega
    unfold copyFrom
    rw [hnext, ih (k + 1) (by omega)]
    have hneg : ¬ ((k : Int) < 0) := by omega
    rw [if_neg hneg, Int.toNat_ofNat, List.get?_eq_get hk]
    simp only
    rw [List.drop_eq_getElem_cons hk, List.take_succ_cons]
    rfl

theorem copyRange_eq (xs : List Ex) (lo hi : Nat) (h1 : lo ≤ hi) (h2 : hi ≤ xs.length) :
    copyRange xs (lo : Int) (hi : Int) = some ((xs.drop lo).take (hi - lo)) := by
  unfold copyRange
  have hneg : ¬ ((hi : Int) - (lo : Int) < 0) := by omega
  have hsub : ((hi : Int) - (lo : Int)).toNat = hi - lo := by omega
  rw [if_neg hneg, hsub]
  exact copyFrom_eq xs (hi - lo) lo (by omega)

theorem copyRange_drop (xs : List Ex) (lo : Nat) (h : lo ≤ xs.length) :
    copyRange xs (lo : Int) (xs.length : Int) = some (xs.drop lo) := by
  rw [copyRange_eq xs lo xs.length h (Nat.le_refl _)]
  congr 1
  apply List.take_of_length_le
  simp

theorem windowLoop_congr (body1 body2 : Nat → Option (Option (Bool × PDManager)))
    (pm : PDManager) (todo n0 m0 : Nat)
    (h : ∀ d, d < todo → body1 (n0 + d) = body2 (m0 + d)) :
    windowLoop body1 pm todo n0 = windowLoop body2 pm todo m0 := by
  induction todo generalizing n0 m0 with
  | zero => rfl
  | succ todo ih =>
    unfold windowLoop
    have h0 := h 0 (Nat.succ_pos todo)
    simp only [Nat.add_zero] at h0
    rw [h0]
    have hrest : windowLoop body1 pm todo (n0 + 1) = windowLoop body2 pm todo (m0 + 1) := by
      apply ih
      intro d hd
      have := h (d + 1) (by omega)
      have e1 : n0 + 1 + d = n0 + (d + 1) := by omega
      have e2 : m0 + 1 + d = m0 + (d + 1) := by omega
      rw [e1, e2]; exact this
    rw [hrest]

theorem windowIteration_eq (H : Helpers)
    (self : List Ex → List Ex → PDManager → Option (Bool × PDManager))
    (t : SeqTest) (cs R : List Ex) (i n : Nat) (pm : PDManager) (j : Int)
    (hj : j + 1 = ((i + n : Nat) : Int)) (hn : i + n ≤ cs.length) :
    windowIteration H self t cs R i pm j =
      match self ((cs.drop i).drop n) R pm with
      | none => none
      | some (matchq, newPDs) =>
          if (if t.isBns then
                H.ExArrayTestRepeatingMatch ((cs.drop i).take n)
                  (H.BlankNullSequenceToBlank t.bns)
              else
                H.ExArrayTestRepeatingMatch ((cs.drop i).take n)
                  (H.BlankSequenceToBlank t.bs)) && matchq then
            some (some (acceptWindow H t ((cs.drop i).take n) pm newPDs))
          else some none := by
  unfold windowIteration
  rw [hj, copyRange_eq cs i (i + n) (by omega) hn, copyRange_drop cs (i + n) hn]
  have e1 : i + n - i = n := by omega
  have e2 : List.drop (i + n) cs = List.drop n (List.drop i cs) := by
    rw [List.drop_drop]
  simp only [e1, e2]

theorem positionLoop_eq (H : Helpers)
    (self : List Ex → List Ex → PDManager → Option (Bool × PDManager))
    (cs ps : List Ex)
    (hself : ∀ cs' ps' pm', ps'.length < ps.length →
      self cs' ps' pm' = positionalMatch H cs' ps' pm')
    (todo i : Nat) (progressI : Int) (pm : PDManager)
    (hic : i ≤ cs.length) (hip : i ≤ ps.length)
    (htodo : todo = Max cs.length ps.length - i)
    (hprog : 0 < i → progressI = (i : Int) - 1) (hzero : i = 0 → 0 < todo) :
    positionLoop H self cs ps todo i progressI pm
      = positionalMatch H (cs.drop i) (ps.drop i) pm := by
  induction todo generalizing i progressI pm with
  | zero =>
    have hi0 : 0 < i := by
      rcases Nat.eq_zero_or_pos i with h | h
      · have := hzero h; omega
      · exact h
    have hmax : Max cs.length ps.length ≤ i := by omega
    unfold Max at hmax
    have hc : cs.length = i := by split at hmax <;> omega
    have hp : ps.length = i := by split at hmax <;> omega
    have hd1 : cs.drop i = [] := List.drop_eq_nil_of_le (by omega)
    have hd2 : ps.drop i = [] := List.drop_eq_nil_of_le (by omega)
    rw [hd1, hd2, positionalMatch_nil]
    unfold positionLoop
    rw [hprog hi0, hp]
    simp
  | succ todo ih =>
    have hlt : i < Max cs.length ps.length := by omega
    unfold positionLoop
    by_cases hge : i ≥ ps.length
    · rw [if_pos hge]
      have hd2 : ps.drop i = [] := List.drop_eq_nil_of_le hge
      have hci : i < cs.length := by
        unfold Max at hlt
        split at hlt <;> omega
      rw [hd2, positionalMatch_nil]
      have hne : (cs.drop i).isEmpty = false := by
        rw [List.drop_eq_getElem_cons hci]; rfl
      rw [hne]
    · rw [if_neg hge]
      have hpi : i < ps.length := by omega
      rw [List.get?_eq_get hpi, List.drop_eq_getElem_cons hpi, positionalMatch_cons]
      simp only
      cases ht : seqTest (ps.get ⟨i, hpi⟩) with
      | none => simp [ht]
      | some t =>
        have ht2 : seqTest ps[i] = some t := ht
        simp only [ht2]
        by_cases hw : (t.isBns || t.isBs) = true
        · simp only [hw, if_true]
          have hcast : ((i + 1 : Nat) : Int) = (i : Int) + 1 := by omega
          rw [← hcast, copyRange_drop ps (i + 1) (by omega)]
          simp only
          have hcount : ((cs.length : Int) - (if t.isBns = true then (i : Int) - 1 else (i : Int))).toNat
              = (cs.drop i).length + 1 - (if t.isBns = true then 0 else 1) := by
            rw [List.length_drop]
            split <;> omega
          rw [hcount]
          apply windowLoop_congr
          intro d hd
          rw [List.length_drop] at hd
          have hn : i + ((if t.isBns = true then 0 else 1) + d) ≤ cs.length := by
            split at hd <;> split <;> omega
          rw [windowIteration_eq H self t cs _ i ((if t.isBns = true then 0 else 1) + d) pm _
            (by split <;> push_cast <;> omega) hn]
          rw [hself _ _ _ (by rw [List.length_drop]; omega)]
        · simp only [hw]
          simp only [Bool.false_eq_true, if_false]
          by_cases hgc : i ≥ cs.length
          · rw [if_pos hgc, List.drop_eq_nil_of_le hgc]
          · rw [if_neg hgc]
            have hci : i < cs.length := by omega
            rw [List.get?_eq_get hci, List.drop_eq_getElem_cons hci]
            simp only [Ex.DeepCopy]
            have hget : cs.get ⟨i, hci⟩ = cs[i] := rfl
            rw [hget]
            by_cases hm : (H.IsMatchQ cs[i] ps[i] pm).1 = true
            · have hm2 : (H.IsMatchQ cs[i] (ps.get ⟨i, hpi⟩) pm).1 = true := hm
              rw [if_pos hm, if_pos hm2]
              exact ih (i + 1) i _ (by omega) (by omega) (by omega)
                (by intro _; push_cast; omega)
                (by intro h; omega)
            · have hm2 : ¬ (H.IsMatchQ cs[i] (ps.get ⟨i, hpi⟩) pm).1 = true := hm
              rw [if_neg hm, if_neg hm2]

theorem go_eq_positionalMatch (H : Helpers) (depth : Nat) (cs ps : List Ex) (pm : PDManager)
    (hd : ps.length < depth) :
    NonOrderlessIsMatchQ.go H depth cs ps pm = positionalMatch H cs ps pm := by
  induction depth generalizing cs ps pm with
  | zero => omega
  | succ depth ih =>
    unfold NonOrderlessIsMatchQ.go
    simp only [CopyPD_eq]
    cases ps with
    | nil =>
      rw [positionalMatch_nil]
      cases cs with
      | nil => simp
      | cons c rest => simp
    | cons p ps =>
      have h1 : ¬ (cs.length = 0 ∧ (p :: ps).length = 0) := by simp
      have h2 : ¬ (cs.length ≠ 0 ∧ (p :: ps).length = 0) := by simp
      rw [if_neg h1, if_neg h2]
      have hmax : 0 < Max cs.length (p :: ps).length := by
        unfold Max
        split <;> simp only [List.length_cons] at * <;> omega
      have := positionLoop_eq H (NonOrderlessIsMatchQ.go H depth) cs (p :: ps)
        (fun cs' ps' pm' hlt => ih cs' ps' pm' (by simp only [List.length_cons] at hd hlt; omega))
        (Max cs.length (p :: ps).length) 0 0 pm (Nat.zero_le _) (Nat.zero_le _) (by omega)
        (by intro h; omega) (by intro _; exact hmax)
      simpa using this

theorem NonOrderlessIsMatchQ_eq_positionalMatch (H : Helpers) (cs ps : List Ex)
    (pm : PDManager) :
    NonOrderlessIsMatchQ H cs ps pm = positionalMatch H cs ps pm :=
  go_eq_positionalMatch H (ps.length + 1) cs ps pm (Nat.lt_succ_self _)

theorem NOIMQ_nil (H : Helpers) (cs : List Ex) (pm : PDManager) :
    NonOrderlessIsMatchQ H cs [] pm = some (cs.isEmpty, pm) := by
  rw [NonOrderlessIsMatchQ_eq_positionalMatch, positionalMatch_nil]

theorem NOIMQ_cons (H : Helpers) (components : List Ex) (p : Ex) (remainingLhs : List Ex)
    (pm : PDManager) :
    NonOrderlessIsMatchQ H components (p :: remainingLhs) pm =
      match seqTest p with
      | none => none
      | some t =>
          if t.isBns || t.isBs then
            windowLoop
              (fun n =>
                match NonOrderlessIsMatchQ H (components.drop n) remainingLhs pm with
                | none => none
                | some (matchq, newPDs) =>
                    if (if t.isBns then
                          H.ExArrayTestRepeatingMatch (components.take n)
                            (H.BlankNullSequenceToBlank t.bns)
                        else
                          H.ExArrayTestRepeatingMatch (components.take n)
                            (H.BlankSequenceToBlank t.bs)) && matchq then
                      some (some (acceptWindow H t (components.take n) pm newPDs))
                    else some none)
              pm (components.length + 1 - (if t.isBns then 0 else 1)) (if t.isBns then 0 else 1)
          else
            match components with
            | [] => some (false, pm)
            | c :: rest =>
                if (H.IsMatchQ c p pm).1 then
                  NonOrderlessIsMatchQ H rest remainingLhs (pm.Update (H.IsMatchQ c p pm).2)
                else some (false, pm) := by
  simp only [NonOrderlessIsMatchQ_eq_positionalMatch]
  exact positionalMatch_cons H components p remainingLhs pm

theorem NOIMQ_cons_plain (H : Helpers) (cs : List Ex) (p : Ex) (ps : List Ex) (pm : PDManager)
    (hwf : wellFormedPattern p = true) (hnw : isSeqWildcard p = false) :
    NonOrderlessIsMatchQ H cs (p :: ps) pm =
      match cs with
      | [] => some (false, pm)
      | c :: rest =>
          if (H.IsMatchQ c p pm).1 then
            NonOrderlessIsMatchQ H rest ps (pm.Update (H.IsMatchQ c p pm).2)
          else some (false, pm) := by
  obtain ⟨t, ht, h1, h2⟩ := seqTest_of_not_wildcard p hwf hnw
  rw [NOIMQ_cons]
  simp only [ht, h1, h2]
  cases cs <;> simp

theorem contextAt_zero (H : Helpers) (cs ps : List Ex) (pm : PDManager) :
    contextAt H cs ps pm 0 = pm := by
  unfold contextAt
  split
  · rename_i h; simp at h
  · rfl

theorem seqTest_short_pattern (x : Ex) :
    seqTest (.Expression [.Symbol "Pattern", x]) = none := by
  simp [seqTest, HeadAssertion, Ex.Parts]

/-- On a `Pattern` with one argument at the head of the pattern list the call
panics at `pat.Parts[2]` (line 585), whatever the components are. -/
theorem NOIMQ_short_pattern (H : Helpers) (cs : List Ex) (x : Ex) (ps : List Ex)
    (pm : PDManager) :
    NonOrderlessIsMatchQ H cs (.Expression [.Symbol "Pattern", x] :: ps) pm = none := by
  rw [NOIMQ_cons, seqTest_short_pattern]

/-! ## C1 -/

/-- C1: for a pattern list without sequence wildcard (its `Pattern` elements
well formed), `NonOrderlessIsMatchQ` returns, and it returns `true` exactly
when the two lists have the same length and `IsMatchQ` succeeds at every
position `i` under the context `pm_i`; in particular a length mismatch gives
`false`. -/
theorem NonOrderlessIsMatchQ_no_wildcard (H : Helpers) (cs ps : List Ex) (pm : PDManager)
    (hwf : ∀ p ∈ ps, wellFormedPattern p = true)
    (hnw : ∀ p ∈ ps, isSeqWildcard p = false) :
    ∃ b pm', NonOrderlessIsMatchQ H cs ps pm = some (b, pm') ∧
      (b = true ↔ cs.length = ps.length ∧
        ∀ i c p, cs.get? i = some c → ps.get? i = some p →
          (H.IsMatchQ c p (contextAt H cs ps pm i)).1 = true) ∧
      (cs.length ≠ ps.length → b = false) := by
  induction ps generalizing cs pm with
  | nil =>
    refine ⟨cs.isEmpty, pm, NOIMQ_nil H cs pm, ?_, ?_⟩
    · cases cs <;> simp
    · cases cs <;> simp
  | cons p ps ih =>
    have hp := hwf p (List.mem_cons_self _ _)
    have hq := hnw p (List.mem_cons_self _ _)
    rw [NOIMQ_cons_plain H cs p ps pm hp hq]
    cases cs with
    | nil => exact ⟨false, pm, rfl, by simp, by simp⟩
    | cons c rest =>
      by_cases hm : (H.IsMatchQ c p pm).1 = true
      · obtain ⟨b, pm', hr, hiff, hlen⟩ :=
          ih rest (pm.Update (H.IsMatchQ c p pm).2)
            (fun q hq => hwf q (List.mem_cons_of_mem _ hq))
            (fun q hq => hnw q (List.mem_cons_of_mem _ hq))
        refine ⟨b, pm', by simp [hm, hr], ?_, ?_⟩
        · rw [hiff]
          constructor
          · rintro ⟨h1, h2⟩
            refine ⟨by simp [h1], ?_⟩
            intro i c' p' hc hp'
            cases i with
            | zero =>
              simp only [List.get?_cons_zero, Option.some.injEq] at hc hp'
              subst hc; subst hp'
              rw [contextAt_zero]; exact hm
            | succ i =>
              simp only [List.get?_cons_succ] at hc hp'
              exact h2 i c' p' hc hp'
          · rintro ⟨h1, h2⟩
            refine ⟨by simpa using h1, ?_⟩
            intro i c' p' hc hp'
            exact h2 (i + 1) c' p' (by simpa using hc) (by simpa using hp')
        · intro hne
          exact hlen (by simpa using hne)
      · refine ⟨false, pm, by simp [hm], ?_, by simp⟩
        simp only [Bool.false_eq_true, false_iff, not_and]
        intro _ h2
        exact hm (by simpa [contextAt_zero] using h2 0 c p rfl rfl)

/-- The instance of C1 at `{a, b, c}` against `{b, c}`. -/
theorem NonOrderlessIsMatchQ_no_wildcard_witness :
    (∀ p ∈ [Ex.Symbol "b", Ex.Symbol "c"], wellFormedPattern p = true) ∧
    (∀ p ∈ [Ex.Symbol "b", Ex.Symbol "c"], isSeqWildcard p = false) ∧
    ∃ b pm', NonOrderlessIsMatchQ (specHelpers 0)
        [Ex.Symbol "a", Ex.Symbol "b", Ex.Symbol "c"] [Ex.Symbol "b", Ex.Symbol "c"] EmptyPD
        = some (b, pm') ∧
      (b = true ↔ [Ex.Symbol "a", Ex.Symbol "b", Ex.Symbol "c"].length
            = [Ex.Symbol "b", Ex.Symbol "c"].length ∧
        ∀ i c p, [Ex.Symbol "a", Ex.Symbol "b", Ex.Symbol "c"].get? i = some c →
          [Ex.Symbol "b", Ex.Symbol "c"].get? i = some p →
          ((specHelpers 0).IsMatchQ c p
            (contextAt (specHelpers 0) [Ex.Symbol "a", Ex.Symbol "b", Ex.Symbol "c"]
              [Ex.Symbol "b", Ex.Symbol "c"] EmptyPD i)).1 = true) ∧
      ([Ex.Symbol "a", Ex.Symbol "b", Ex.Symbol "c"].length
          ≠ [Ex.Symbol "b", Ex.Symbol "c"].length → b = false) :=
  ⟨by decide, by decide,
    NonOrderlessIsMatchQ_no_wildcard (specHelpers 0) _ _ EmptyPD (by decide) (by decide)⟩

/-- C1, as stated, fails: the pattern list `{Pattern[x]}` has no sequence
wildcard and its length is not that of `{a, b}`, and yet the call does not
return `false`: it panics at `pat.Parts[2]` (line 585), for every `IsMatchQ`
and every context. -/
theorem NonOrderlessIsMatchQ_no_wildcard_counterexample :
    (∀ p ∈ [Ex.Expression [.Symbol "Pattern", .Symbol "x"]], isSeqWildcard p = false) ∧
    [Ex.Symbol "a", Ex.Symbol "b"].length
      ≠ [Ex.Expression [.Symbol "Pattern", .Symbol "x"]].length ∧
    NonOrderlessIsMatchQ (specHelpers 0) [.Symbol "a", .Symbol "b"]
      [.Expression [.Symbol "Pattern", .Symbol "x"]] EmptyPD = none ∧
    (∀ (H : Helpers) (pm : PDManager),
      NonOrderlessIsMatchQ H [.Symbol "a", .Symbol "b"]
        [.Expression [.Symbol "Pattern", .Symbol "x"]] pm = none) :=
  ⟨by decide, by decide, NOIMQ_short_pattern _ _ _ _ _,
    fun H pm => NOIMQ_short_pattern H _ _ _ pm⟩

/-! ## The window search -/

theorem seqTest_of_wellFormed (p : Ex) (hwf : wellFormedPattern p = true) :
    ∃ t, seqTest p = some t := by
  unfold seqTest
  unfold wellFormedPattern at hwf
  by_cases hp : (HeadAssertion p "Pattern").2 = true
  · have hfst := HeadAssertion_fst p "Pattern" hp
    simp only [hp, Bool.not_true, Bool.false_or, decide_eq_true_eq] at hwf
    have hlt : 2 < p.Parts.length := by omega
    simp only [hp, hfst, if_true]
    rw [List.get?_eq_get hlt]
    exact ⟨_, rfl⟩
  · simp only [hp]
    exact ⟨_, rfl⟩

theorem seqTest_of_wildcard (W : Ex) (h : isSeqWildcard W = true) :
    ∃ t, seqTest W = some t ∧ (t.isBns || t.isBs) = true := by
  unfold isSeqWildcard at h
  unfold seqTest
  by_cases hp : (HeadAssertion W "Pattern").2 = true
  · have hfst := HeadAssertion_fst W "Pattern" hp
    have hb1 : (HeadAssertion W "BlankSequence").2 = false := by
      unfold HeadAssertion at hp ⊢
      split
      · rename_i name rest
        simp only at hp
        split at hp
        · rename_i hname; subst hname; simp
        · simp at hp
      · rfl
    have hb2 : (HeadAssertion W "BlankNullSequence").2 = false := by
      unfold HeadAssertion at hp ⊢
      split
      · rename_i name rest
        simp only at hp
        split at hp
        · rename_i hname; subst hname; simp
        · simp at hp
      · rfl
    simp only [hb1, hb2, hp, Bool.or_self, Bool.false_or, Bool.true_and] at h
    simp only [hp, hfst, if_true, List.get?_eq_getElem?]
    rw [List.get?_eq_getElem?] at h
    cases hq : W.Parts[2]? with
    | none => rw [hq] at h; simp at h
    | some q =>
      rw [hq] at h
      refine ⟨_, rfl, ?_⟩
      simp only
      rw [Bool.or_comm]
      exact h
  · simp only [hp, Bool.false_and, Bool.or_false] at h
    simp only [hp]
    refine ⟨_, rfl, ?_⟩
    simp only
    rw [Bool.or_comm]
    exact h

theorem windowLoop_total (body : Nat → Option (Option (Bool × PDManager))) (pm : PDManager)
    (hbody : ∀ n, ∃ r, body n = some r) (todo n0 : Nat) :
    ∃ r, windowLoop body pm todo n0 = some r := by
  induction todo generalizing n0 with
  | zero => exact ⟨_, rfl⟩
  | succ todo ih =>
    obtain ⟨r, hr⟩ := hbody n0
    unfold windowLoop
    rw [hr]
    cases r with
    | none => exact ih (n0 + 1)
    | some r => exact ⟨r, rfl⟩

theorem windowLoop_first (body : Nat → Option (Option (Bool × PDManager))) (pm : PDManager)
    (todo n0 k : Nat) (r : Bool × PDManager) (hk : k < todo)
    (hr : body (n0 + k) = some (some r)) (hskip : ∀ j, j < k → body (n0 + j) = some none) :
    windowLoop body pm todo n0 = some r := by
  induction k generalizing todo n0 with
  | zero =>
    cases todo with
    | zero => omega
    | succ todo =>
      unfold windowLoop
      rw [Nat.add_zero] at hr
      rw [hr]
  | succ k ih =>
    cases todo with
    | zero => omega
    | succ todo =>
      unfold windowLoop
      have h0 := hskip 0 (Nat.succ_pos k)
      rw [Nat.add_zero] at h0
      rw [h0]
      refine ih todo (n0 + 1) (by omega) ?_ ?_
      · rw [← hr]; congr 1; omega
      · intro j hj
        rw [← hskip (j + 1) (by omega)]; congr 1; omega

theorem windowLoop_none (body : Nat → Option (Option (Bool × PDManager))) (pm : PDManager)
    (todo n0 : Nat) (hskip : ∀ j, j < todo → body (n0 + j) = some none) :
    windowLoop body pm todo n0 = some (false, pm) := by
  induction todo generalizing n0 with
  | zero => rfl
  | succ todo ih =>
    unfold windowLoop
    have h0 := hskip 0 (Nat.succ_pos todo)
    rw [Nat.add_zero] at h0
    rw [h0]
    refine ih (n0 + 1) ?_
    intro j hj
    rw [← hskip (j + 1) (by omega)]; congr 1; omega

theorem windowLoop_result (body : Nat → Option (Option (Bool × PDManager))) (pm : PDManager)
    (todo n0 : Nat) (r : Bool × PDManager) (h : windowLoop body pm todo n0 = some r) :
    (∃ k, k < todo ∧ body (n0 + k) = some (some r) ∧ ∀ j, j < k → body (n0 + j) = some none) ∨
    (r = (false, pm) ∧ ∀ j, j < todo → body (n0 + j) = some none) := by
  induction todo generalizing n0 with
  | zero =>
    right
    unfold windowLoop at h
    exact ⟨by simpa using h.symm, by intro j hj; omega⟩
  | succ todo ih =>
    unfold windowLoop at h
    cases hb : body n0 with
    | none => rw [hb] at h; simp at h
    | some o =>
      rw [hb] at h
      cases o with
      | some r0 =>
        left
        simp only [Option.some.injEq] at h
        subst h
        exact ⟨0, by omega, by simpa using hb, by intro j hj; omega⟩
      | none =>
        simp only at h
        have hshift : ∀ j, n0 + 1 + j = n0 + (j + 1) := by intro j; omega
        rcases ih (n0 + 1) h with ⟨k, hk, hr, hs⟩ | ⟨hr, hs⟩
        · left
          refine ⟨k + 1, by omega, by rw [← hshift]; exact hr, ?_⟩
          intro j hj
          cases j with
          | zero => simpa using hb
          | succ j => rw [← hshift]; exact hs j (by omega)
        · right
          refine ⟨hr, ?_⟩
          intro j hj
          cases j with
          | zero => simpa using hb
          | succ j => rw [← hshift]; exact hs j (by omega)

theorem NOIMQ_cons_wildcard (H : Helpers) (cs : List Ex) (W : Ex) (R : List Ex)
    (pm : PDManager) (t : SeqTest) (ht : seqTest W = some t)
    (hw : (t.isBns || t.isBs) = true) :
    NonOrderlessIsMatchQ H cs (W :: R) pm =
      windowLoop
        (fun n =>
          match NonOrderlessIsMatchQ H (cs.drop n) R pm with
          | none => none
          | some (matchq, newPDs) =>
              if elementTest H t (cs.take n) && matchq then
                some (some (acceptWindow H t (cs.take n) pm newPDs))
              else some none)
        pm (cs.length + 1 - minWindow t) (minWindow t) := by
  rw [NOIMQ_cons]
  simp only [ht, hw, if_true]
  rfl

theorem NOIMQ_total (H : Helpers) (cs ps : List Ex) (pm : PDManager)
    (hwf : ∀ p ∈ ps, wellFormedPattern p = true) :
    ∃ r, NonOrderlessIsMatchQ H cs ps pm = some r := by
  induction ps generalizing cs pm with
  | nil => exact ⟨_, NOIMQ_nil H cs pm⟩
  | cons p ps ih =>
    have ih2 := fun cs pm => ih cs pm (fun q hq => hwf q (List.mem_cons_of_mem _ hq))
    obtain ⟨t, ht⟩ := seqTest_of_wellFormed p (hwf p (List.mem_cons_self _ _))
    by_cases hw : (t.isBns || t.isBs) = true
    · rw [NOIMQ_cons_wildcard H cs p ps pm t ht hw]
      apply windowLoop_total
      intro n
      obtain ⟨⟨b, pm2⟩, hr⟩ := ih2 (cs.drop n) pm
      simp only [hr]
      split <;> exact ⟨_, rfl⟩
    · rw [NOIMQ_cons]
      simp only [ht, hw]
      cases cs with
      | nil => exact ⟨_, rfl⟩
      | cons c rest =>
        simp only [Bool.false_eq_true, if_false]
        split
        · exact ih2 _ _
        · exact ⟨_, rfl⟩

theorem windowBody_skip (H : Helpers) (cs R : List Ex) (pm : PDManager) (t : SeqTest)
    (hwf : ∀ p ∈ R, wellFormedPattern p = true) (m : Nat)
    (hm : ¬ windowAccepted H t cs R pm m) :
    (match NonOrderlessIsMatchQ H (cs.drop m) R pm with
      | none => none
      | some (matchq, newPDs) =>
          if elementTest H t (cs.take m) && matchq then
            some (some (acceptWindow H t (cs.take m) pm newPDs))
          else some none) = some none := by
  obtain ⟨⟨b, pm2⟩, hr⟩ := NOIMQ_total H (cs.drop m) R pm hwf
  simp only [hr]
  have : (elementTest H t (cs.take m) && b) = false := by
    cases he : elementTest H t (cs.take m)
    · rfl
    · cases b
      · rfl
      · exact absurd ⟨he, pm2, hr⟩ hm
  simp [this]

theorem acceptWindow_fresh (H : Helpers) (t : SeqTest) (w : List Ex) (pm newPDs : PDManager)
    (x : String) (hx : wildcardName t = some x)
    (hun : (pm.Update newPDs).patternDefined x = none)
    (hrefl : H.IsSameQ (Sequence w) (Sequence w) = true) :
    acceptWindow H t w pm newPDs = (true, (pm.Update newPDs).set x (Sequence w)) := by
  unfold wildcardName at hx
  unfold acceptWindow
  by_cases hp : t.isPat = true
  · simp only [hp, if_true] at hx ⊢
    split at hx
    · rename_i name hname
      simp only [Option.some.injEq] at hx
      subst hx
      simp only [hname, hun]
      unfold Sequence at hrefl
      simp [hrefl, Sequence]
    · simp at hx
  · simp [hp] at hx

theorem wellFormed_of_seqTest (p : Ex) (t : SeqTest) (ht : seqTest p = some t) :
    wellFormedPattern p = true := by
  unfold wellFormedPattern
  by_cases hp : (HeadAssertion p "Pattern").2 = true
  · have hfst := HeadAssertion_fst p "Pattern" hp
    unfold seqTest at ht
    simp only [hp, hfst, if_true] at ht
    cases hq : p.Parts.get? 2 with
    | none => rw [hq] at ht; cases ht
    | some q =>
      have hlt : 2 < p.Parts.length := by
        rw [List.get?_eq_getElem?] at hq
        exact (List.getElem?_eq_some_iff.mp hq).1
      simp only [hp, Bool.not_true, Bool.false_or, decide_eq_true_eq]
      omega
  · simp [hp]

/-- A match that succeeds has gone through every element of the pattern list,
so every `Pattern` element has its two arguments. -/
theorem NOIMQ_true_wellFormed (H : Helpers) (cs ps : List Ex) (pm pm1 : PDManager)
    (h : NonOrderlessIsMatchQ H cs ps pm = some (true, pm1)) :
    ∀ p ∈ ps, wellFormedPattern p = true := by
  induction ps generalizing cs pm pm1 with
  | nil => intro p hp; cases hp
  | cons p ps ih =>
    rw [NOIMQ_cons] at h
    cases hs : seqTest p with
    | none => rw [hs] at h; cases h
    | some t =>
      rw [hs] at h
      have hp := wellFormed_of_seqTest p t hs
      have htail : ∀ q ∈ ps, wellFormedPattern q = true := by
        by_cases hw : (t.isBns || t.isBs) = true
        · simp only [hw, if_true] at h
          rcases windowLoop_result _ _ _ _ _ h with ⟨k, _, hbody, _⟩ | ⟨hr, _⟩
          · cases hrec : NonOrderlessIsMatchQ H
                (cs.drop ((if t.isBns = true then 0 else 1) + k)) ps pm with
            | none => rw [hrec] at hbody; cases hbody
            | some r =>
              obtain ⟨matchq, newPDs⟩ := r
              rw [hrec] at hbody
              simp only at hbody
              cases matchq with
              | false => simp at hbody
              | true => exact ih _ _ _ hrec
          · cases hr
        · simp only [hw] at h
          cases cs with
          | nil => simp at h
          | cons c rest =>
            simp only [Bool.false_eq_true, if_false] at h
            by_cases hm : (H.IsMatchQ c p pm).1 = true
            · rw [if_pos hm] at h
              exact ih _ _ _ h
            · rw [if_neg hm] at h
              simp at h
      intro q hq
      rcases List.mem_cons.mp hq with rfl | hq
      · exact hp
      · exact htail q hq

/-! ## C2 -/

/-- C2: for a pattern list `W :: R` whose first element is a sequence wildcard
the match is decided on the shortest accepted window: if `n` is the smallest
window length, from the wildcard's minimum on, whose elements pass the element
test and after which `R` matches the remaining components (with context
`newPDs`), the result is what lines 623-641 compute for that window, whatever
longer windows would give, and a named wildcard that is not bound yet is bound
to `Sequence[cs[0..n)]`; if no window is accepted and the `Pattern` elements
of `R` have their two arguments, the result is `false`. -/
theorem NonOrderlessIsMatchQ_shortest_window (H : Helpers) (cs : List Ex) (W : Ex)
    (R : List Ex) (pm : PDManager) (t : SeqTest)
    (ht : seqTest W = some t) (hw : (t.isBns || t.isBs) = true) :
    (∀ n newPDs, minWindow t ≤ n → n ≤ cs.length →
        elementTest H t (cs.take n) = true →
        NonOrderlessIsMatchQ H (cs.drop n) R pm = some (true, newPDs) →
        (∀ m, minWindow t ≤ m → m < n → ¬ windowAccepted H t cs R pm m) →
        NonOrderlessIsMatchQ H cs (W :: R) pm = some (acceptWindow H t (cs.take n) pm newPDs) ∧
        (∀ x, wildcardName t = some x → (pm.Update newPDs).patternDefined x = none →
          H.IsSameQ (Sequence (cs.take n)) (Sequence (cs.take n)) = true →
          NonOrderlessIsMatchQ H cs (W :: R) pm
            = some (true, (pm.Update newPDs).set x (Sequence (cs.take n))))) ∧
    ((∀ p ∈ R, wellFormedPattern p = true) →
      (∀ n, minWindow t ≤ n → n ≤ cs.length → ¬ windowAccepted H t cs R pm n) →
      NonOrderlessIsMatchQ H cs (W :: R) pm = some (false, pm)) := by
  rw [NOIMQ_cons_wildcard H cs W R pm t ht hw]
  constructor
  · intro n newPDs hmin hlen helem hrest hfirst
    have hwf : ∀ p ∈ R, wellFormedPattern p = true :=
      NOIMQ_true_wellFormed H _ R pm newPDs hrest
    have hmain : windowLoop
        (fun n =>
          match NonOrderlessIsMatchQ H (cs.drop n) R pm with
          | none => none
          | some (matchq, newPDs) =>
              if elementTest H t (cs.take n) && matchq then
                some (some (acceptWindow H t (cs.take n) pm newPDs))
              else some none)
        pm (cs.length + 1 - minWindow t) (minWindow t)
        = some (acceptWindow H t (cs.take n) pm newPDs) := by
      apply windowLoop_first _ pm _ _ (n - minWindow t)
      · omega
      · have : minWindow t + (n - minWindow t) = n := by omega
        simp only [this, hrest, helem, Bool.and_self, if_true]
      · intro j hj
        exact windowBody_skip H cs R pm t hwf _ (hfirst _ (by omega) (by omega))
    refine ⟨hmain, ?_⟩
    intro x hx hun hrefl
    rw [hmain, acceptWindow_fresh H t _ pm newPDs x hx hun hrefl]
  · intro hwf hnone
    apply windowLoop_none
    intro j hj
    exact windowBody_skip H cs R pm t hwf _ (hnone _ (by omega) (by omega))

/-- The instance of C2 at `{a, b, c}` against `{x__, c}`: the window `{a}` is
not accepted, the window `{a, b}` is, and `x` is bound to `Sequence[a, b]`. -/
theorem NonOrderlessIsMatchQ_shortest_window_witness :
    seqTest (.Expression [.Symbol "Pattern", .Symbol "x", .Expression [.Symbol "BlankSequence"]])
      = some ⟨.Expression [.Symbol "Pattern", .Symbol "x", .Expression [.Symbol "BlankSequence"]],
          true, NewEmptyExpression, false, .Expression [.Symbol "BlankSequence"], true⟩ ∧
    (∀ p ∈ [Ex.Symbol "c"], wellFormedPattern p = true) ∧
    NonOrderlessIsMatchQ (specHelpers 0) [.Symbol "a", .Symbol "b", .Symbol "c"]
      [.Expression [.Symbol "Pattern", .Symbol "x", .Expression [.Symbol "BlankSequence"]],
        .Symbol "c"] EmptyPD
      = some (true, ((EmptyPD.Update (EmptyPD.Update EmptyPD)).set "x"
          (Sequence [.Symbol "a", .Symbol "b"]))) :=
  ⟨rfl, by decide,
    ((NonOrderlessIsMatchQ_shortest_window (specHelpers 0)
        [.Symbol "a", .Symbol "b", .Symbol "c"]
        (.Expression [.Symbol "Pattern", .Symbol "x", .Expression [.Symbol "BlankSequence"]])
        [.Symbol "c"] EmptyPD
        ⟨.Expression [.Symbol "Pattern", .Symbol "x", .Expression [.Symbol "BlankSequence"]],
          true, NewEmptyExpression, false, .Expression [.Symbol "BlankSequence"], true⟩
        rfl rfl).1 2 (EmptyPD.Update EmptyPD) (by decide) (by decide) (by decide) rfl
        (by
          intro m h1 h2 hacc
          have hm : m = 1 := by
            have : minWindow ⟨.Expression [.Symbol "Pattern", .Symbol "x",
                .Expression [.Symbol "BlankSequence"]], true, NewEmptyExpression, false,
                .Expression [.Symbol "BlankSequence"], true⟩ = 1 := rfl
            omega
          subst hm
          obtain ⟨_, npd, h⟩ := hacc
          have e : (NonOrderlessIsMatchQ (specHelpers 0)
              (List.drop 1 [Ex.Symbol "a", Ex.Symbol "b", Ex.Symbol "c"]) [Ex.Symbol "c"]
              EmptyPD).map Prod.fst = some false := by decide
          rw [h] at e
          simp at e)).2 "x" rfl rfl (by decide)⟩

/-- C2, as stated, fails: against `{x__, Pattern[x]}` no window of `{a}` is
accepted, since the match of the remainder against `{Pattern[x]}` never
succeeds, and yet the call does not return `false`: the match of the
remainder panics at `pat.Parts[2]` (line 585), and so does the call. -/
theorem NonOrderlessIsMatchQ_shortest_window_counterexample :
    isSeqWildcard
      (.Expression [.Symbol "Pattern", .Symbol "x", .Expression [.Symbol "BlankSequence"]])
      = true ∧
    (∀ (n : Nat) (newPDs : PDManager),
      NonOrderlessIsMatchQ (specHelpers 0) ([Ex.Symbol "a"].drop n)
        [.Expression [.Symbol "Pattern", .Symbol "x"]] EmptyPD ≠ some (true, newPDs)) ∧
    NonOrderlessIsMatchQ (specHelpers 0) [.Symbol "a"]
      [.Expression [.Symbol "Pattern", .Symbol "x", .Expression [.Symbol "BlankSequence"]],
        .Expression [.Symbol "Pattern", .Symbol "x"]] EmptyPD = none := by
  refine ⟨by decide, ?_, ?_⟩
  · intro n newPDs h
    rw [NOIMQ_short_pattern] at h
    cases h
  · rw [NOIMQ_cons_wildcard (specHelpers 0) [.Symbol "a"]
      (.Expression [.Symbol "Pattern", .Symbol "x", .Expression [.Symbol "BlankSequence"]])
      [.Expression [.Symbol "Pattern", .Symbol "x"]] EmptyPD
      ⟨.Expression [.Symbol "Pattern", .Symbol "x", .Expression [.Symbol "BlankSequence"]],
        true, NewEmptyExpression, false, .Expression [.Symbol "BlankSequence"], true⟩ rfl rfl]
    simp only [NOIMQ_short_pattern]
    rfl

theorem PDManager_set_same (pm : PDManager) (x : String) (v : Ex) :
    (pm.set x v).patternDefined x = some v := by
  simp [PDManager.set]

theorem PDManager_set_other (pm : PDManager) (x k : String) (v : Ex) (h : k ≠ x) :
    (pm.set x v).patternDefined k = pm.patternDefined k := by
  simp [PDManager.set, h]

theorem acceptWindow_true (H : Helpers) (t : SeqTest) (w : List Ex) (pm newPDs pm' : PDManager)
    (h : acceptWindow H t w pm newPDs = (true, pm')) :
    (pm.Update newPDs).extendedBy pm' ∧
    (∀ x, wildcardName t = some x →
      ∃ v, pm'.patternDefined x = some v ∧ H.IsSameQ v (Sequence w) = true) := by
  unfold acceptWindow at h
  unfold wildcardName
  by_cases hp : t.isPat = true
  · simp only [hp, if_true] at h ⊢
    split at h
    · rename_i name hname
      split at h
      · rename_i hnone
        split at h
        · rename_i hsame
          simp only [Prod.mk.injEq, true_and] at h
          subst h
          refine ⟨?_, ?_⟩
          · intro k v hk
            by_cases hkx : k = name
            · subst hkx; rw [hnone] at hk; simp at hk
            · rw [PDManager_set_other _ _ _ _ hkx]; exact hk
          · intro x hx
            simp only [Option.some.injEq] at hx
            subst hx
            exact ⟨_, PDManager_set_same _ _ _, hsame⟩
        · simp at h
      · rename_i v hv
        split at h
        · rename_i hsame
          simp only [Prod.mk.injEq, true_and] at h
          subst h
          refine ⟨fun k v hk => hk, ?_⟩
          intro x hx
          simp only [Option.some.injEq] at hx
          subst hx
          exact ⟨v, hv, hsame⟩
        · simp at h
    · rename_i hname
      simp only [Prod.mk.injEq, true_and] at h
      subst h
      refine ⟨fun k v hk => hk, ?_⟩
      intro x hx
      simp at hx
  · simp only [hp] at h ⊢
    simp only [Bool.false_eq_true, if_false, Prod.mk.injEq, true_and] at h
    subst h
    exact ⟨fun k v hk => hk, by intro x hx; simp at hx⟩

theorem acceptWindow_bound (H : Helpers) (t : SeqTest) (w : List Ex) (pm newPDs : PDManager)
    (x : String) (v : Ex) (hx : wildcardName t = some x)
    (hv : (pm.Update newPDs).patternDefined x = some v) :
    acceptWindow H t w pm newPDs = (H.IsSameQ v (Sequence w), pm.Update newPDs) := by
  unfold wildcardName at hx
  unfold acceptWindow
  by_cases hp : t.isPat = true
  · simp only [hp, if_true] at hx ⊢
    split at hx
    · rename_i name hname
      simp only [Option.some.injEq] at hx
      subst hx
      simp only [hname, hv]
      unfold Sequence
      cases H.IsSameQ v (Ex.Expression (Ex.Symbol "Sequence" :: w)) <;> rfl
    · simp at hx
  · simp [hp] at hx

theorem acceptWindow_unnamed (H : Helpers) (t : SeqTest) (w : List Ex) (pm newPDs : PDManager)
    (hx : wildcardName t = none) :
    acceptWindow H t w pm newPDs = (true, pm.Update newPDs) := by
  unfold wildcardName at hx
  unfold acceptWindow
  by_cases hp : t.isPat = true
  · simp only [hp, if_true] at hx ⊢
    split at hx
    · simp at hx
    · rfl
  · simp [hp]

/-! ## C3 -/

/-- C3, as amended: when `R` matches `cs` (with context `newPDs`) and the
element test of a `BlankNullSequence` wildcard `W` accepts the empty window,
`W :: R` matches `cs` as well, with `W` taking the empty window, provided `W`
is unnamed or its name is, after the match of `R`, unbound or bound to a value
`IsSameQ` to `Sequence[]`; a name that was unbound ends up bound to
`Sequence[]`. -/
theorem BlankNullSequence_empty_window (H : Helpers) (cs : List Ex) (W : Ex) (R : List Ex)
    (pm newPDs : PDManager) (t : SeqTest)
    (ht : seqTest W = some t) (hbns : t.isBns = true)
    (hR : NonOrderlessIsMatchQ H cs R pm = some (true, newPDs))
    (helem : elementTest H t [] = true)
    (hrefl : H.IsSameQ (Sequence []) (Sequence []) = true)
    (hname : ∀ x v, wildcardName t = some x →
      (pm.Update newPDs).patternDefined x = some v → H.IsSameQ v (Sequence []) = true) :
    NonOrderlessIsMatchQ H cs (W :: R) pm = some (acceptWindow H t [] pm newPDs) ∧
    (∃ pm', NonOrderlessIsMatchQ H cs (W :: R) pm = some (true, pm')) ∧
    (∀ x, wildcardName t = some x → (pm.Update newPDs).patternDefined x = none →
      NonOrderlessIsMatchQ H cs (W :: R) pm
        = some (true, (pm.Update newPDs).set x (Sequence []))) := by
  have hmain : NonOrderlessIsMatchQ H cs (W :: R) pm = some (acceptWindow H t [] pm newPDs) := by
    rw [NOIMQ_cons_wildcard H cs W R pm t ht (by simp [hbns])]
    have hmin : minWindow t = 0 := by simp [minWindow, hbns]
    apply windowLoop_first _ pm _ _ 0
    · omega
    · simp only [hmin, Nat.add_zero, List.drop_zero, List.take_zero, hR, helem, Bool.and_self,
        if_true]
    · intro j hj; omega
  refine ⟨hmain, ?_, ?_⟩
  · rw [hmain]
    cases hn : wildcardName t with
    | none => exact ⟨_, by rw [acceptWindow_unnamed H t [] pm newPDs hn]⟩
    | some x =>
      cases hv : (pm.Update newPDs).patternDefined x with
      | none => exact ⟨_, by rw [acceptWindow_fresh H t [] pm newPDs x hn hv hrefl]⟩
      | some v =>
        exact ⟨_, by rw [acceptWindow_bound H t [] pm newPDs x v hn hv, hname x v hn hv]⟩
  · intro x hx hun
    rw [hmain, acceptWindow_fresh H t [] pm newPDs x hx hun hrefl]

/-- The instance of C3 (amended) at `{}` against `{x___}`: the match succeeds
and binds `x` to `Sequence[]`. -/
theorem BlankNullSequence_empty_window_witness :
    seqTest (.Expression [.Symbol "Pattern", .Symbol "x",
        .Expression [.Symbol "BlankNullSequence"]])
      = some ⟨.Expression [.Symbol "Pattern", .Symbol "x",
          .Expression [.Symbol "BlankNullSequence"]],
          true, .Expression [.Symbol "BlankNullSequence"], true, NewEmptyExpression, false⟩ ∧
    NonOrderlessIsMatchQ (specHelpers 0) [] [] EmptyPD = some (true, CopyPD EmptyPD) ∧
    NonOrderlessIsMatchQ (specHelpers 0) []
      [.Expression [.Symbol "Pattern", .Symbol "x", .Expression [.Symbol "BlankNullSequence"]]]
      EmptyPD
      = some (true, (EmptyPD.Update (CopyPD EmptyPD)).set "x" (Sequence [])) :=
  ⟨rfl, rfl,
    (BlankNullSequence_empty_window (specHelpers 0) []
      (.Expression [.Symbol "Pattern", .Symbol "x", .Expression [.Symbol "BlankNullSequence"]])
      [] EmptyPD (CopyPD EmptyPD)
      ⟨.Expression [.Symbol "Pattern", .Symbol "x", .Expression [.Symbol "BlankNullSequence"]],
        true, .Expression [.Symbol "BlankNullSequence"], true, NewEmptyExpression, false⟩
      rfl rfl rfl (by decide) (by decide)
      (by intro x v _ hv; exact absurd hv (by simp [PDManager.Update, CopyPD, EmptyPD]))).2.2
      "x" rfl rfl⟩

/-- C3, as stated, fails: with `x` bound to `a` in the ambient context, `{}`
matches the empty pattern list, but it does not match `{x___}`: the empty
window gives `Sequence[]`, which is not `IsSameQ` to `a`. -/
theorem BlankNullSequence_empty_window_counterexample :
    (NonOrderlessIsMatchQ (specHelpers 0) [] [] (EmptyPD.set "x" (.Symbol "a"))).map Prod.fst
      = some true ∧
    (NonOrderlessIsMatchQ (specHelpers 0) []
      [.Expression [.Symbol "Pattern", .Symbol "x", .Expression [.Symbol "BlankNullSequence"]]]
      (EmptyPD.set "x" (.Symbol "a"))).map Prod.fst = some false := by
  constructor <;> decide

theorem seqTest_exclusive (W : Ex) (t : SeqTest) (ht : seqTest W = some t)
    (hbs : t.isBs = true) : t.isBns = false := by
  have hex : ∀ q : Ex, (HeadAssertion q "BlankSequence").2 = true →
      (HeadAssertion q "BlankNullSequence").2 = false := by
    intro q hq
    unfold HeadAssertion at hq ⊢
    split
    · rename_i name rest
      simp only at hq
      split at hq
      · rename_i hname
        subst hname
        simp
      · simp at hq
    · rfl
  unfold seqTest at ht
  simp only at ht
  split at ht
  · split at ht
    · simp at ht
    · rename_i q hq
      simp only [Option.some.injEq] at ht
      subst ht
      exact hex q hbs
  · simp only [Option.some.injEq] at ht
    subst ht
    exact hex W hbs

theorem IsSameQList_length (as bs : List Ex) (h : IsSameQList as bs = true) :
    as.length = bs.length := by
  induction as generalizing bs with
  | nil =>
    cases bs with
    | nil => rfl
    | cons b bs => simp [IsSameQList] at h
  | cons a as ih =>
    cases bs with
    | nil => simp [IsSameQList] at h
    | cons b bs =>
      simp only [IsSameQList, Bool.and_eq_true] at h
      simp [ih bs h.2]

theorem IsSameQ_Sequence (a : Ex) (u : List Ex) (h : IsSameQ a (Sequence u) = true) :
    ∃ u', a = Sequence u' ∧ u'.length = u.length := by
  unfold Sequence at h
  cases a with
  | Expression as =>
    cases as with
    | nil => simp [IsSameQ, IsSameQList] at h
    | cons hd tl =>
      simp only [IsSameQ, IsSameQList, Bool.and_eq_true] at h
      obtain ⟨h1, h2⟩ := h
      cases hd with
      | Symbol s =>
        simp only [IsSameQ, beq_iff_eq] at h1
        subst h1
        exact ⟨tl, rfl, IsSameQList_length tl u h2⟩
      | _ => simp [IsSameQ] at h1
  | _ => simp [IsSameQ] at h

theorem NOIMQ_blankSequence_binding (H : Helpers) (W : Ex) (t : SeqTest)
    (ht : seqTest W = some t) (hbs : t.isBs = true)
    (cs ps : List Ex) (pm pm' : PDManager) (x : String)
    (hres : NonOrderlessIsMatchQ H cs ps pm = some (true, pm')) (hmem : W ∈ ps)
    (hx : wildcardName t = some x) :
    ∃ v w, w ≠ [] ∧ pm'.patternDefined x = some v ∧ H.IsSameQ v (Sequence w) = true := by
  have hbns := seqTest_exclusive W t ht hbs
  have hmin : minWindow t = 1 := by simp [minWindow, hbns]
  induction ps generalizing cs pm pm' with
  | nil => simp at hmem
  | cons p ps ih =>
    cases htp : seqTest p with
    | none =>
      rw [NOIMQ_cons] at hres
      simp [htp] at hres
    | some tp =>
      by_cases hw : (tp.isBns || tp.isBs) = true
      · rw [NOIMQ_cons_wildcard H cs p ps pm tp htp hw] at hres
        rcases windowLoop_result _ pm _ _ _ hres with ⟨k, hk, hbody, _⟩ | ⟨hr, _⟩
        · cases hrec : NonOrderlessIsMatchQ H (List.drop (minWindow tp + k) cs) ps pm with
          | none => simp [hrec] at hbody
          | some r =>
            obtain ⟨matchq, newPDs⟩ := r
            simp only [hrec] at hbody
            cases hcond : (elementTest H tp (List.take (minWindow tp + k) cs) && matchq) with
            | false => simp [hcond] at hbody
            | true =>
              simp only [hcond, if_true, Option.some.injEq] at hbody
              have hmq : matchq = true := by
                simp only [Bool.and_eq_true] at hcond
                exact hcond.2
              subst hmq
              obtain ⟨hext, hbind⟩ := acceptWindow_true H tp _ pm newPDs pm' hbody
              by_cases hWp : W = p
              · subst hWp
                rw [ht] at htp
                simp only [Option.some.injEq] at htp
                subst htp
                obtain ⟨v, hv, hsame⟩ := hbind x hx
                refine ⟨v, _, ?_, hv, hsame⟩
                intro hnil
                have hlen := congrArg List.length hnil
                simp only [List.length_take, List.length_nil] at hlen
                omega
              · have hmem2 : W ∈ ps := by
                  rcases List.mem_cons.mp hmem with h | h
                  · exact absurd h hWp
                  · exact h
                obtain ⟨v, w, hw0, hv, hsame⟩ := ih _ pm newPDs hrec hmem2
                refine ⟨v, w, hw0, hext x v ?_, hsame⟩
                simp [PDManager.Update, hv]
        · simp at hr
      · rw [NOIMQ_cons] at hres
        simp only [htp, hw] at hres
        have hmem2 : W ∈ ps := by
          rcases List.mem_cons.mp hmem with h | h
          · subst h
            rw [ht] at htp
            simp only [Option.some.injEq] at htp
            subst htp
            simp [hbs] at hw
          · exact h
        cases cs with
        | nil => simp at hres
        | cons c rest =>
          simp only [Bool.false_eq_true, if_false] at hres
          split at hres
          · exact ih rest _ pm' hres hmem2
          · simp at hres

/-! ## C4 -/

/-- C4: a `BlankSequence` wildcard never matches zero elements.  The empty
component list does not match `W :: R` when `W` is a `BlankSequence` wildcard;
and whenever a positional match succeeds on a pattern list that holds a named
`BlankSequence` wildcard `x`, the returned context binds `x` to a value that
is `IsSameQ` to `Sequence[w...]` for a window `w` of at least one element, so
that, `IsSameQ` identifying with `Sequence[w...]` only a `Sequence` of as many
elements, the bound value is a `Sequence` with at least one element. -/
theorem BlankSequence_takes_an_element (H : Helpers) (W : Ex) (t : SeqTest)
    (ht : seqTest W = some t) (hbs : t.isBs = true) :
    (∀ R pm, NonOrderlessIsMatchQ H [] (W :: R) pm = some (false, pm)) ∧
    (∀ cs ps pm pm' x, NonOrderlessIsMatchQ H cs ps pm = some (true, pm') → W ∈ ps →
      wildcardName t = some x →
      ∃ v w, w ≠ [] ∧ pm'.patternDefined x = some v ∧ H.IsSameQ v (Sequence w) = true ∧
        ((∀ a u, H.IsSameQ a (Sequence u) = true →
            ∃ u', a = Sequence u' ∧ u'.length = u.length) →
          ∃ w', w' ≠ [] ∧ v = Sequence w')) := by
  have hbns := seqTest_exclusive W t ht hbs
  have hmin : minWindow t = 1 := by simp [minWindow, hbns]
  constructor
  · intro R pm
    rw [NOIMQ_cons_wildcard H [] W R pm t ht (by simp [hbs])]
    simp only [hmin, List.length_nil]
    rfl
  · intro cs ps pm pm' x hres hmem hx
    obtain ⟨v, w, hw0, hv, hsame⟩ :=
      NOIMQ_blankSequence_binding H W t ht hbs cs ps pm pm' x hres hmem hx
    refine ⟨v, w, hw0, hv, hsame, ?_⟩
    intro hS
    obtain ⟨u', hu, hl⟩ := hS v w hsame
    refine ⟨u', ?_, hu⟩
    intro hnil
    subst hnil
    exact hw0 (List.length_eq_zero.mp hl.symm)

theorem abc_matches_xseq_c :
    NonOrderlessIsMatchQ (specHelpers 0) [.Symbol "a", .Symbol "b", .Symbol "c"]
      [.Expression [.Symbol "Pattern", .Symbol "x", .Expression [.Symbol "BlankSequence"]],
        .Symbol "c"] EmptyPD
      = some (true, ((EmptyPD.Update (EmptyPD.Update EmptyPD)).set "x"
          (Sequence [.Symbol "a", .Symbol "b"]))) := rfl

/-- The instance of C4 at the named wildcard `x__`: `{}` does not match
`{x__}`, and a successful match binds `x` to a non-empty `Sequence`. -/
theorem BlankSequence_takes_an_element_witness :
    seqTest (.Expression [.Symbol "Pattern", .Symbol "x", .Expression [.Symbol "BlankSequence"]])
      = some ⟨.Expression [.Symbol "Pattern", .Symbol "x", .Expression [.Symbol "BlankSequence"]],
          true, NewEmptyExpression, false, .Expression [.Symbol "BlankSequence"], true⟩ ∧
    NonOrderlessIsMatchQ (specHelpers 0) []
      [.Expression [.Symbol "Pattern", .Symbol "x", .Expression [.Symbol "BlankSequence"]]]
      EmptyPD = some (false, EmptyPD) ∧
    ∃ w', w' ≠ [] ∧
      ((EmptyPD.Update (EmptyPD.Update EmptyPD)).set "x"
        (Sequence [.Symbol "a", .Symbol "b"])).patternDefined "x" = some (Sequence w') :=
  ⟨rfl,
    (BlankSequence_takes_an_element (specHelpers 0)
      (.Expression [.Symbol "Pattern", .Symbol "x", .Expression [.Symbol "BlankSequence"]])
      ⟨.Expression [.Symbol "Pattern", .Symbol "x", .Expression [.Symbol "BlankSequence"]],
        true, NewEmptyExpression, false, .Expression [.Symbol "BlankSequence"], true⟩
      rfl rfl).1 [] EmptyPD,
    match (BlankSequence_takes_an_element (specHelpers 0)
      (.Expression [.Symbol "Pattern", .Symbol "x", .Expression [.Symbol "BlankSequence"]])
      ⟨.Expression [.Symbol "Pattern", .Symbol "x", .Expression [.Symbol "BlankSequence"]],
        true, NewEmptyExpression, false, .Expression [.Symbol "BlankSequence"], true⟩
      rfl rfl).2 [.Symbol "a", .Symbol "b", .Symbol "c"]
      [.Expression [.Symbol "Pattern", .Symbol "x", .Expression [.Symbol "BlankSequence"]],
        .Symbol "c"] EmptyPD _ "x"
      abc_matches_xseq_c (by simp) rfl with
    | ⟨_, _, _, hv, _, hseq⟩ =>
      match hseq IsSameQ_Sequence with
      | ⟨w', hne, hw'⟩ => ⟨w', hne, hw' ▸ hv⟩⟩

/-! ## C5 -/

theorem specHelpers_namedBlank (fuel : Nat) (x : String) :
    NamedBlankContract (specHelpers fuel) x := by
  constructor
  · intro e pm hx
    cases fuel <;>
      simp [specHelpers, helpersOf, IsMatchQ, matchBlank, blankTest, hx, PDManager.Update,
        PDManager.set]
  · intro e v pm hx
    cases fuel <;>
      simp [specHelpers, helpersOf, IsMatchQ, matchBlank, blankTest, hx]

/-- C6: against `{Pattern[x, Blank[]], Pattern[x, Blank[]]}` under the empty
context, `{e1, e2}` matches exactly when `e1` and `e2` are `IsSameQ`, for every
single-element matcher that keeps the spec's contract for a named blank: the
binding made at position 0 is in the context passed to `IsMatchQ` at
position 1. -/
theorem NonOrderlessIsMatchQ_same_variable_twice (H : Helpers) (x : String) (e1 e2 : Ex)
    (hc : NamedBlankContract H x) :
    ∃ pm', NonOrderlessIsMatchQ H [e1, e2]
        [.Expression [.Symbol "Pattern", .Symbol x, .Expression [.Symbol "Blank"]],
         .Expression [.Symbol "Pattern", .Symbol x, .Expression [.Symbol "Blank"]]] EmptyPD
      = some (H.IsSameQ e1 e2, pm') := by
  obtain ⟨hbind, hcheck⟩ := hc
  obtain ⟨h1, h2⟩ := hbind e1 EmptyPD rfl
  have h3 := hcheck e2 e1 _ h2
  have hwf : wellFormedPattern
      (.Expression [.Symbol "Pattern", .Symbol x, .Expression [.Symbol "Blank"]]) = true := rfl
  have hnw : isSeqWildcard
      (.Expression [.Symbol "Pattern", .Symbol x, .Expression [.Symbol "Blank"]]) = false := rfl
  rw [NOIMQ_cons_plain H _ _ _ _ hwf hnw]
  simp only [h1, if_true]
  rw [NOIMQ_cons_plain H _ _ _ _ hwf hnw]
  simp only [h3]
  cases H.IsSameQ e1 e2
  · exact ⟨_, rfl⟩
  · simp only [if_true, NOIMQ_nil]
    exact ⟨_, rfl⟩

/-- The instances of C6 at `{a, a}`, which matches, and `{a, b}`, which does
not. -/
theorem NonOrderlessIsMatchQ_same_variable_twice_witness :
    NamedBlankContract (specHelpers 0) "x" ∧
    (∃ pm', NonOrderlessIsMatchQ (specHelpers 0) [.Symbol "a", .Symbol "a"]
        [.Expression [.Symbol "Pattern", .Symbol "x", .Expression [.Symbol "Blank"]],
         .Expression [.Symbol "Pattern", .Symbol "x", .Expression [.Symbol "Blank"]]] EmptyPD
      = some (true, pm')) ∧
    (∃ pm', NonOrderlessIsMatchQ (specHelpers 0) [.Symbol "a", .Symbol "b"]
        [.Expression [.Symbol "Pattern", .Symbol "x", .Expression [.Symbol "Blank"]],
         .Expression [.Symbol "Pattern", .Symbol "x", .Expression [.Symbol "Blank"]]] EmptyPD
      = some (false, pm')) :=
  ⟨specHelpers_namedBlank 0 "x",
    NonOrderlessIsMatchQ_same_variable_twice (specHelpers 0) "x" (.Symbol "a") (.Symbol "a")
      (specHelpers_namedBlank 0 "x"),
    NonOrderlessIsMatchQ_same_variable_twice (specHelpers 0) "x" (.Symbol "a") (.Symbol "b")
      (specHelpers_namedBlank 0 "x")⟩

/-! ## C7 -/

theorem extendedBy_refl (pm : PDManager) : pm.extendedBy pm := fun _ _ h => h

theorem extendedBy_trans (a b c : PDManager) (h1 : a.extendedBy b) (h2 : b.extendedBy c) :
    a.extendedBy c := fun k v h => h2 k v (h1 k v h)

theorem extendedBy_Update (pm toAdd : PDManager) (h : pm.extendedBy toAdd) :
    pm.extendedBy (pm.Update toAdd) := by
  intro k v hk
  simp [PDManager.Update, h k v hk]

theorem NOIMQ_extends (H : Helpers)
    (hM : ∀ e p pm toAdd, H.IsMatchQ e p pm = (true, toAdd) → pm.extendedBy toAdd)
    (cs ps : List Ex) (pm pm' : PDManager)
    (hres : NonOrderlessIsMatchQ H cs ps pm = some (true, pm')) : pm.extendedBy pm' := by
  induction ps generalizing cs pm pm' with
  | nil =>
    rw [NOIMQ_nil] at hres
    simp only [Option.some.injEq, Prod.mk.injEq] at hres
    rw [← hres.2]
    exact extendedBy_refl pm
  | cons p ps ih =>
    cases htp : seqTest p with
    | none =>
      rw [NOIMQ_cons] at hres
      simp [htp] at hres
    | some tp =>
      by_cases hw : (tp.isBns || tp.isBs) = true
      · rw [NOIMQ_cons_wildcard H cs p ps pm tp htp hw] at hres
        rcases windowLoop_result _ pm _ _ _ hres with ⟨k, _, hbody, _⟩ | ⟨hr, _⟩
        · cases hrec : NonOrderlessIsMatchQ H (List.drop (minWindow tp + k) cs) ps pm with
          | none => simp [hrec] at hbody
          | some r =>
            obtain ⟨matchq, newPDs⟩ := r
            simp only [hrec] at hbody
            cases hcond : (elementTest H tp (List.take (minWindow tp + k) cs) && matchq) with
            | false => simp [hcond] at hbody
            | true =>
              simp only [hcond, if_true, Option.some.injEq] at hbody
              simp only [Bool.and_eq_true] at hcond
              obtain ⟨_, hmq⟩ := hcond
              subst hmq
              obtain ⟨hext, _⟩ := acceptWindow_true H tp _ pm newPDs pm' hbody
              exact extendedBy_trans _ _ _
                (extendedBy_Update pm newPDs (ih _ pm newPDs hrec)) hext
        · simp at hr
      · rw [NOIMQ_cons] at hres
        simp only [htp, hw] at hres
        cases cs with
        | nil => simp at hres
        | cons c rest =>
          simp only [Bool.false_eq_true, if_false] at hres
          split at hres
          · rename_i hm
            have hpair : H.IsMatchQ c p pm = (true, (H.IsMatchQ c p pm).2) := by
              rw [← hm]
            exact extendedBy_trans _ _ _
              (extendedBy_Update pm _ (hM c p pm _ hpair)) (ih rest _ pm' hres)
          · simp at hres

theorem permLoop_extends (H : Helpers)
    (hM : ∀ e p pm toAdd, H.IsMatchQ e p pm = (true, toAdd) → pm.extendedBy toAdd)
    (components lhs : List Ex) (pm pm' : PDManager) (perms : List (List Nat))
    (h : permLoop H components lhs pm perms = some (true, pm')) : pm.extendedBy pm' := by
  induction perms with
  | nil => simp [permLoop] at h
  | cons perm later ih =>
    unfold permLoop at h
    cases ho : orderComponents components perm with
    | none => simp [ho] at h
    | some ordered =>
      simp only [ho] at h
      cases hr : NonOrderlessIsMatchQ H ordered lhs pm with
      | none => simp [hr] at h
      | some r =>
        obtain ⟨b, newPm⟩ := r
        simp only [hr] at h
        cases b with
        | true =>
          simp only [if_true, Option.some.injEq, Prod.mk.injEq, true_and] at h
          subst h
          exact NOIMQ_extends H hM _ _ _ _ hr
        | false =>
          simp only [Bool.false_eq_true, if_false] at h
          exact ih h

theorem OIMQ_extends (H : Helpers)
    (hM : ∀ e p pm toAdd, H.IsMatchQ e p pm = (true, toAdd) → pm.extendedBy toAdd)
    (cs ps : List Ex) (pm pm' : PDManager)
    (h : OrderlessIsMatchQ H cs ps pm = some (true, pm')) : pm.extendedBy pm' := by
  unfold OrderlessIsMatchQ at h
  simp only [CopyPD_eq] at h
  cases he : ExtractBlankSequences ps with
  | none => simp [he] at h
  | some r =>
    obtain ⟨nonBS, bs⟩ := r
    simp only [he] at h
    split at h
    · simp at h
    · split at h
      · simp at h
      · split at h
        · simp at h
        · exact permLoop_extends H hM cs (nonBS ++ bs) pm pm' _ h

theorem matchBlank_extends (other : Ex → Ex → PDManager → Bool × PDManager)
    (ho : ∀ e p pm toAdd, other e p pm = (true, toAdd) → pm.extendedBy toAdd)
    (e p : Ex) (pm toAdd : PDManager)
    (h : matchBlank other e p pm = (true, toAdd)) : pm.extendedBy toAdd := by
  unfold matchBlank at h
  split at h
  · simp only [Prod.mk.injEq] at h
    rw [← h.2]; exact extendedBy_refl pm
  · split at h
    · rename_i x q _
      split at h
      · split at h
        · rename_i hnone
          simp only [Prod.mk.injEq, true_and] at h
          subst h
          intro k v hk
          by_cases hkx : k = x
          · subst hkx; rw [hnone] at hk; simp at hk
          · rw [PDManager_set_other _ _ _ _ hkx]; exact hk
        · simp only [Prod.mk.injEq] at h
          rw [← h.2]; exact extendedBy_refl pm
      · simp at h
    · exact ho e p pm toAdd h

theorem IsMatchQ_extends (fuel : Nat) (e p : Ex) (pm toAdd : PDManager)
    (h : IsMatchQ fuel e p pm = (true, toAdd)) : pm.extendedBy toAdd := by
  induction fuel generalizing e p pm toAdd with
  | zero =>
    refine matchBlank_extends _ ?_ e p pm toAdd h
    intro e p pm toAdd ho
    simp only [Prod.mk.injEq] at ho
    rw [← ho.2]; exact extendedBy_refl pm
  | succ fuel ih =>
    refine matchBlank_extends _ ?_ e p pm toAdd h
    intro e p pm toAdd ho
    split at ho
    · rename_i as bs
      cases hr : NonOrderlessIsMatchQ (helpersOf (IsMatchQ fuel)) as bs pm with
      | none =>
        simp [hr] at ho
      | some r =>
        simp only [hr] at ho
        subst ho
        exact NOIMQ_extends (helpersOf (IsMatchQ fuel)) (fun e p pm toAdd h => ih e p pm toAdd h)
          _ _ _ _ hr
    · simp only [Prod.mk.injEq] at ho
      rw [← ho.2]; exact extendedBy_refl pm

/-- C7: when the single-element matcher returns, on success, a context that
extends the one it was given, so do the positional and the orderless matcher:
every name bound in the input context is bound to the same value in the
context returned with `true`. -/
theorem IsMatchQ_result_extends_context (H : Helpers)
    (hM : ∀ e p pm toAdd, H.IsMatchQ e p pm = (true, toAdd) → pm.extendedBy toAdd) :
    (∀ cs ps pm pm', NonOrderlessIsMatchQ H cs ps pm = some (true, pm') →
      pm.extendedBy pm') ∧
    (∀ cs ps pm pm', OrderlessIsMatchQ H cs ps pm = some (true, pm') →
      pm.extendedBy pm') :=
  ⟨NOIMQ_extends H hM, OIMQ_extends H hM⟩

/-- The instance of C7 for the reference matcher, whose single-element matcher
only adds bindings. -/
theorem IsMatchQ_result_extends_context_witness :
    (∀ e p pm toAdd, (specHelpers 1).IsMatchQ e p pm = (true, toAdd) → pm.extendedBy toAdd) ∧
    (∀ cs ps pm pm', NonOrderlessIsMatchQ (specHelpers 1) cs ps pm = some (true, pm') →
      pm.extendedBy pm') ∧
    (∀ cs ps pm pm', OrderlessIsMatchQ (specHelpers 1) cs ps pm = some (true, pm') →
      pm.extendedBy pm') :=
  ⟨IsMatchQ_extends 1, IsMatchQ_result_extends_context (specHelpers 1) (IsMatchQ_extends 1)⟩

/-! ## C10 -/

theorem ExtractBlankSequences_no_wildcard (ps : List Ex)
    (hwf : ∀ p ∈ ps, wellFormedPattern p = true)
    (hnw : ∀ p ∈ ps, isSeqWildcard p = false) :
    ExtractBlankSequences ps = some (ps, []) := by
  induction ps with
  | nil => rfl
  | cons p ps ih =>
    obtain ⟨t, ht, h1, h2⟩ := seqTest_of_not_wildcard p
      (hwf p (List.mem_cons_self _ _)) (hnw p (List.mem_cons_self _ _))
    unfold ExtractBlankSequences
    rw [ih (fun q hq => hwf q (List.mem_cons_of_mem _ hq))
      (fun q hq => hnw q (List.mem_cons_of_mem _ hq)), ht]
    simp [h1, h2]

/-- On a pattern list with a `Pattern` of one argument `ExtractBlankSequences`
panics at `pat.Parts[2]` (line 452). -/
theorem ExtractBlankSequences_short_pattern (ps : List Ex) (x : Ex)
    (h : Ex.Expression [.Symbol "Pattern", x] ∈ ps) : ExtractBlankSequences ps = none := by
  induction ps with
  | nil => cases h
  | cons p ps ih =>
    unfold ExtractBlankSequences
    rcases List.mem_cons.mp h with rfl | h
    · rw [seqTest_short_pattern]
    · rw [ih h]
      cases seqTest p <;> rfl

theorem OIMQ_short_pattern (H : Helpers) (cs ps : List Ex) (pm : PDManager) (x : Ex)
    (h : Ex.Expression [.Symbol "Pattern", x] ∈ ps) : OrderlessIsMatchQ H cs ps pm = none := by
  unfold OrderlessIsMatchQ
  simp only [ExtractBlankSequences_short_pattern ps x h]

/-- C10: for a pattern list without sequence wildcard (its `Pattern` elements
well formed) and a component list of another length, `OrderlessIsMatchQ`
returns `false` with the ambient context, whatever `MemberQ` and the
permutation stepper are: the permutation search is not reached. -/
theorem OrderlessIsMatchQ_length_mismatch (H : Helpers) (cs ps : List Ex) (pm : PDManager)
    (hwf : ∀ p ∈ ps, wellFormedPattern p = true)
    (hnw : ∀ p ∈ ps, isSeqWildcard p = false)
    (hlen : cs.length ≠ ps.length) :
    OrderlessIsMatchQ H cs ps pm = some (false, pm) := by
  unfold OrderlessIsMatchQ
  simp only [CopyPD_eq, ExtractBlankSequences_no_wildcard ps hwf hnw]
  simp [hlen]

/-- The instance of C10 at `MatchQ[a + b + c, b + c]`. -/
theorem OrderlessIsMatchQ_length_mismatch_witness :
    (∀ p ∈ [Ex.Symbol "b", Ex.Symbol "c"], wellFormedPattern p = true) ∧
    (∀ p ∈ [Ex.Symbol "b", Ex.Symbol "c"], isSeqWildcard p = false) ∧
    [Ex.Symbol "a", Ex.Symbol "b", Ex.Symbol "c"].length
      ≠ [Ex.Symbol "b", Ex.Symbol "c"].length ∧
    OrderlessIsMatchQ (specHelpers 1) [.Symbol "a", .Symbol "b", .Symbol "c"]
      [.Symbol "b", .Symbol "c"] EmptyPD = some (false, EmptyPD) :=
  ⟨by decide, by decide, by decide,
    OrderlessIsMatchQ_length_mismatch (specHelpers 1) _ _ EmptyPD (by decide) (by decide)
      (by decide)⟩

/-- C10, as stated, fails: the pattern list `{Pattern[x]}` has no sequence
wildcard and its length is not that of `{a, b}`, and yet the call does not
return `false`: `ExtractBlankSequences` panics at `pat.Parts[2]` (line 452),
before the guard on the lengths. -/
theorem OrderlessIsMatchQ_length_mismatch_counterexample :
    (∀ p ∈ [Ex.Expression [.Symbol "Pattern", .Symbol "x"]], isSeqWildcard p = false) ∧
    [Ex.Symbol "a", Ex.Symbol "b"].length
      ≠ [Ex.Expression [.Symbol "Pattern", .Symbol "x"]].length ∧
    OrderlessIsMatchQ (specHelpers 1) [.Symbol "a", .Symbol "b"]
      [.Expression [.Symbol "Pattern", .Symbol "x"]] EmptyPD = none ∧
    (∀ (H : Helpers) (pm : PDManager),
      OrderlessIsMatchQ H [.Symbol "a", .Symbol "b"]
        [.Expression [.Symbol "Pattern", .Symbol "x"]] pm = none) :=
  ⟨by decide, by decide, OIMQ_short_pattern _ _ _ _ (.Symbol "x") (by simp),
    fun H pm => OIMQ_short_pattern H _ _ pm (.Symbol "x") (by simp)⟩

/-! ## C9 -/

theorem orderComponents_some (cs : List Ex) (perm : List Nat)
    (hr : ∀ i ∈ perm, i < cs.length) :
    ∃ ordered, orderComponents cs perm = some ordered ∧ ordered.length = perm.length ∧
      (∀ i, perm.head? = some i → ordered.head? = cs.get? i) := by
  induction perm with
  | nil => exact ⟨[], rfl, rfl, by intro i hi; simp at hi⟩
  | cons ci perm ih =>
    obtain ⟨ordered, ho, hl, _⟩ := ih (fun i hi => hr i (List.mem_cons_of_mem _ hi))
    have hci : ci < cs.length := hr ci (List.mem_cons_self _ _)
    refine ⟨cs.get ⟨ci, hci⟩ :: ordered, ?_, by simp [hl], ?_⟩
    · unfold orderComponents
      rw [ho, List.get?_eq_get hci]
    · intro i hi
      simp only [List.head?_cons, Option.some.injEq] at hi
      subst hi
      simp [List.get?_eq_get hci]

theorem NOIMQ_trailing_blankSequence (H : Helpers) (tail : List Ex) (pm : PDManager)
    (hne : tail ≠ [])
    (helem : ∀ w, H.ExArrayTestRepeatingMatch w
      (H.BlankSequenceToBlank (.Expression [.Symbol "BlankSequence"])) = true) :
    NonOrderlessIsMatchQ H tail [.Expression [.Symbol "BlankSequence"]] pm
      = some (true, pm.Update pm) := by
  have ht : seqTest (.Expression [.Symbol "BlankSequence"])
      = some ⟨NewEmptyExpression, false, NewEmptyExpression, false,
          .Expression [.Symbol "BlankSequence"], true⟩ := rfl
  rw [NOIMQ_cons_wildcard H tail _ [] pm _ ht rfl]
  have hpos : 0 < tail.length := List.length_pos.mpr hne
  have hmin : minWindow ⟨NewEmptyExpression, false, NewEmptyExpression, false,
      .Expression [.Symbol "BlankSequence"], true⟩ = 1 := rfl
  have hacc : acceptWindow H ⟨NewEmptyExpression, false, NewEmptyExpression, false,
      .Expression [.Symbol "BlankSequence"], true⟩ (tail.take (1 + (tail.length - 1))) pm pm
      = (true, pm.Update pm) := rfl
  rw [← hacc]
  apply windowLoop_first _ pm _ _ (tail.length - 1)
  · rw [hmin]; omega
  · rw [hmin]
    have hd : List.drop (1 + (tail.length - 1)) tail = [] := by
      apply List.drop_eq_nil_of_le; omega
    simp only [hd, NOIMQ_nil, List.isEmpty_nil]
    have he := helem (List.take (1 + (tail.length - 1)) tail)
    simp [elementTest, he]
  · intro j hj
    rw [hmin]
    rw [NOIMQ_nil]
    have hd : (List.drop (1 + j) tail).isEmpty = false := by
      cases hdj : List.drop (1 + j) tail with
      | nil =>
        have := congrArg List.length hdj
        simp only [List.length_drop, List.length_nil] at this
        omega
      | cons _ _ => rfl
    simp [hd]

theorem NOIMQ_symbol_then_blankSequence (H : Helpers) (e : Ex) (tail : List Ex)
    (name : String) (pm : PDManager) (hne : tail ≠ [])
    (helem : ∀ w, H.ExArrayTestRepeatingMatch w
      (H.BlankSequenceToBlank (.Expression [.Symbol "BlankSequence"])) = true) :
    ∃ pm', NonOrderlessIsMatchQ H (e :: tail)
        [.Symbol name, .Expression [.Symbol "BlankSequence"]] pm
      = some ((H.IsMatchQ e (.Symbol name) pm).1, pm') := by
  have hwf : wellFormedPattern (.Symbol name) = true := rfl
  have hnw : isSeqWildcard (.Symbol name) = false := rfl
  rw [NOIMQ_cons_plain H _ _ _ _ hwf hnw]
  simp only
  by_cases hm : (H.IsMatchQ e (.Symbol name) pm).1 = true
  · rw [if_pos hm, hm]
    exact ⟨_, NOIMQ_trailing_blankSequence H tail _ hne helem⟩
  · rw [if_neg hm]
    simp only [Bool.not_eq_true] at hm
    rw [hm]
    exact ⟨pm, rfl⟩

theorem permLoop_found (H : Helpers) (cs lhs : List Ex) (pm : PDManager)
    (perms : List (List Nat))
    (hall : ∀ p ∈ perms, ∃ o b pm', orderComponents cs p = some o ∧
      NonOrderlessIsMatchQ H o lhs pm = some (b, pm'))
    (hex : ∃ p ∈ perms, ∃ o pm', orderComponents cs p = some o ∧
      NonOrderlessIsMatchQ H o lhs pm = some (true, pm')) :
    ∃ pm', permLoop H cs lhs pm perms = some (true, pm') := by
  induction perms with
  | nil => obtain ⟨p, hp, _⟩ := hex; simp at hp
  | cons perm later ih =>
    obtain ⟨o, b, pm1, ho, hr⟩ := hall perm (List.mem_cons_self _ _)
    unfold permLoop
    simp only [ho, hr]
    cases b with
    | true => exact ⟨pm1, by simp⟩
    | false =>
      simp only [Bool.false_eq_true, if_false]
      apply ih (fun p hp => hall p (List.mem_cons_of_mem _ hp))
      obtain ⟨p, hp, o2, pm2, ho2, hr2⟩ := hex
      rcases List.mem_cons.mp hp with h | h
      · subst h
        rw [ho] at ho2
        simp only [Option.some.injEq] at ho2
        subst ho2
        rw [hr] at hr2
        simp at hr2
      · exact ⟨p, h, o2, pm2, ho2, hr2⟩

/-- C9: orderless matching of `{c, BlankSequence[]}`, `c` a symbol, against a
component list with at least two children, one of which is `c`, returns
`true`, wherever `c` stands.  The callees that are not in the source are
assumed to do what the spec says of them: the pre-filter `MemberQ` finds `c`
and the wildcard among the children, `IsMatchQ` matches the symbol `c` against
itself under the empty context, the element test of `BlankSequence[]` accepts
every window, and the permutation stepper with `k = 1` yields arrays of the
`n` indices in which every index comes first once. -/
theorem OrderlessIsMatchQ_literal_and_blankSequence (H : Helpers) (cs : List Ex)
    (name : String)
    (h2 : 2 ≤ cs.length) (hc : Ex.Symbol name ∈ cs)
    (hmem1 : H.MemberQ cs (.Symbol name) = true)
    (hmem2 : H.MemberQ cs (.Expression [.Symbol "BlankSequence"]) = true)
    (hself : (H.IsMatchQ (.Symbol name) (.Symbol name) EmptyPD).1 = true)
    (helem : ∀ w, H.ExArrayTestRepeatingMatch w
      (H.BlankSequenceToBlank (.Expression [.Symbol "BlankSequence"])) = true)
    (hperm : ∀ p ∈ H.kPermutations cs.length 1, p.length = cs.length ∧ ∀ i ∈ p, i < cs.length)
    (hfirst : ∀ i, i < cs.length →
      ∃ p ∈ List.range cs.length :: H.kPermutations cs.length 1, p.head? = some i) :
    ∃ pm', OrderlessIsMatchQ H cs [.Symbol name, .Expression [.Symbol "BlankSequence"]] EmptyPD
      = some (true, pm') := by
  have hext : ExtractBlankSequences [.Symbol name, .Expression [.Symbol "BlankSequence"]]
      = some ([.Symbol name], [.Expression [.Symbol "BlankSequence"]]) := rfl
  unfold OrderlessIsMatchQ
  simp only [CopyPD_eq, hext]
  have hg1 : ¬ ([Ex.Expression [Ex.Symbol "BlankSequence"]].length = 0 ∧
      cs.length ≠ [Ex.Symbol name, Ex.Expression [Ex.Symbol "BlankSequence"]].length) := by
    simp
  have hg2 : ¬ ([Ex.Symbol name].length > cs.length) := by
    simp only [List.length_singleton]; omega
  have hg3 : ¬ ([Ex.Symbol name, Ex.Expression [Ex.Symbol "BlankSequence"]].any
      (fun mustContain => !H.MemberQ cs mustContain) = true) := by
    simp [hmem1, hmem2]
  rw [if_neg hg1, if_neg hg2, if_neg hg3]
  have hk : (if [Ex.Expression [Ex.Symbol "BlankSequence"]].length = 1 then
      [Ex.Symbol name].length else cs.length) = 1 := by simp
  rw [hk]
  have hvalid : ∀ p ∈ List.range cs.length :: H.kPermutations cs.length 1,
      p.length = cs.length ∧ ∀ i ∈ p, i < cs.length := by
    intro p hp
    rcases List.mem_cons.mp hp with h | h
    · subst h
      exact ⟨List.length_range _, fun i hi => List.mem_range.mp hi⟩
    · exact hperm p h
  have hstep : ∀ p ∈ List.range cs.length :: H.kPermutations cs.length 1,
      ∃ o pm', orderComponents cs p = some o ∧ o.head?.isSome ∧
        (∀ i, p.head? = some i → o.head? = cs.get? i) ∧
        NonOrderlessIsMatchQ H o ([.Symbol name] ++ [.Expression [.Symbol "BlankSequence"]])
          EmptyPD
          = some ((o.head?.map (fun e => (H.IsMatchQ e (.Symbol name) EmptyPD).1)).getD false,
              pm') := by
    intro p hp
    obtain ⟨hl, hr⟩ := hvalid p hp
    obtain ⟨o, ho, hlen, hhead⟩ := orderComponents_some cs p hr
    cases o with
    | nil => simp only [List.length_nil] at hlen; omega
    | cons e tail =>
      have hne : tail ≠ [] := by
        intro h
        subst h
        simp only [List.length_singleton] at hlen
        omega
      obtain ⟨pm', hres⟩ := NOIMQ_symbol_then_blankSequence H e tail name EmptyPD hne helem
      exact ⟨e :: tail, pm', ho, rfl, hhead, by simpa using hres⟩
  apply permLoop_found
  · intro p hp
    obtain ⟨o, pm', ho, _, _, hres⟩ := hstep p hp
    exact ⟨o, _, pm', ho, hres⟩
  · obtain ⟨i, hi⟩ := List.mem_iff_get.mp hc
    obtain ⟨p, hp, hpi⟩ := hfirst i.1 i.2
    obtain ⟨o, pm', ho, _, hhead, hres⟩ := hstep p hp
    refine ⟨p, hp, o, pm', ho, ?_⟩
    rw [hres]
    have h1 := hhead i.1 hpi
    rw [List.get?_eq_get i.2] at h1
    rw [h1, hi]
    simp [hself]

theorem IsMatchQ_blank (fuel : Nat) (e : Ex) (pm : PDManager) :
    IsMatchQ fuel e (.Expression [.Symbol "Blank"]) pm = (true, pm) := by
  cases fuel <;> rfl

theorem specHelpers_blank_window (fuel : Nat) (w : List Ex) :
    (specHelpers fuel).ExArrayTestRepeatingMatch w
      ((specHelpers fuel).BlankSequenceToBlank (.Expression [.Symbol "BlankSequence"]))
      = true := by
  simp only [specHelpers, helpersOf, toBlank, List.all_eq_true]
  intro e _
  rw [IsMatchQ_blank]

/-- The instance of C9 at `MatchQ[a + b + c, c + __]`, with the reference
callees. -/
theorem OrderlessIsMatchQ_literal_and_blankSequence_witness :
    (specHelpers 1).MemberQ [.Symbol "a", .Symbol "b", .Symbol "c"] (.Symbol "c") = true ∧
    (specHelpers 1).MemberQ [.Symbol "a", .Symbol "b", .Symbol "c"]
      (.Expression [.Symbol "BlankSequence"]) = true ∧
    (specHelpers 1).kPermutations 3 1 = [[1, 0, 2], [2, 0, 1]] ∧
    ∃ pm', OrderlessIsMatchQ (specHelpers 1) [.Symbol "a", .Symbol "b", .Symbol "c"]
        [.Symbol "c", .Expression [.Symbol "BlankSequence"]] EmptyPD = some (true, pm') :=
  ⟨by decide, by decide, by decide,
    OrderlessIsMatchQ_literal_and_blankSequence (specHelpers 1)
      [.Symbol "a", .Symbol "b", .Symbol "c"] "c" (by decide) (by simp) (by decide) (by decide)
      rfl (specHelpers_blank_window 1) (by decide) (by decide)⟩

/-! ## C8 -/

/-- C8 fails on `OrderlessIsMatchQ`: with the single sequence wildcard `x__`
the search fixes `k = 1` and leaves the other children in their given order,
so `{f[a, b], a, b}` matches `{f[x__], x__}` (both occurrences of `x` are
`Sequence[a, b]`) while its permutation `{f[a, b], b, a}` does not (the tail
is only tried as `Sequence[b, a]`). -/
theorem OrderlessIsMatchQ_depends_on_order :
    (OrderlessIsMatchQ (specHelpers 1)
      [.Expression [.Symbol "f", .Symbol "a", .Symbol "b"], .Symbol "a", .Symbol "b"]
      [.Expression [.Symbol "f",
          .Expression [.Symbol "Pattern", .Symbol "x", .Expression [.Symbol "BlankSequence"]]],
        .Expression [.Symbol "Pattern", .Symbol "x", .Expression [.Symbol "BlankSequence"]]]
      EmptyPD).map Prod.fst = some true ∧
    (OrderlessIsMatchQ (specHelpers 1)
      [.Expression [.Symbol "f", .Symbol "a", .Symbol "b"], .Symbol "b", .Symbol "a"]
      [.Expression [.Symbol "f",
          .Expression [.Symbol "Pattern", .Symbol "x", .Expression [.Symbol "BlankSequence"]]],
        .Expression [.Symbol "Pattern", .Symbol "x", .Expression [.Symbol "BlankSequence"]]]
      EmptyPD).map Prod.fst = some false := by
  constructor <;> decide

/-! ## C11 -/

theorem ExtractBlankSequences_total (ps : List Ex)
    (hwf : ∀ p ∈ ps, wellFormedPattern p = true) :
    ∃ r, ExtractBlankSequences ps = some r := by
  induction ps with
  | nil => exact ⟨_, rfl⟩
  | cons p ps ih =>
    obtain ⟨t, ht⟩ := seqTest_of_wellFormed p (hwf p (List.mem_cons_self _ _))
    obtain ⟨⟨nonBS, bs⟩, hr⟩ := ih (fun q hq => hwf q (List.mem_cons_of_mem _ hq))
    unfold ExtractBlankSequences
    rw [ht, hr]
    simp only
    split <;> exact ⟨_, rfl⟩

/-- C11: the pre-filter of `OrderlessIsMatchQ`.  If `MemberQ` finds no
counterpart among the components for some element of the pattern list (its
`Pattern` elements well formed), the call returns `false` with the ambient
context.  The code sends every element through the pre-filter, a sequence
wildcard or not; the claim is the case of an element that is none. -/
theorem OrderlessIsMatchQ_prefilter (H : Helpers) (cs ps : List Ex) (pm : PDManager) (p : Ex)
    (hwf : ∀ q ∈ ps, wellFormedPattern q = true)
    (hp : p ∈ ps) (hmem : H.MemberQ cs p = false) :
    OrderlessIsMatchQ H cs ps pm = some (false, pm) := by
  obtain ⟨⟨nonBS, bs⟩, hr⟩ := ExtractBlankSequences_total ps hwf
  unfold OrderlessIsMatchQ
  simp only [CopyPD_eq, hr]
  have hany : ps.any (fun mustContain => !H.MemberQ cs mustContain) = true := by
    rw [List.any_eq_true]
    exact ⟨p, hp, by simp [hmem]⟩
  split
  · rfl
  · split
    · rfl
    · rfl

/-- The instance of C11 at the components `{a, b}` and the pattern list
`{a, c}`: the reference `MemberQ` finds no `c`. -/
theorem OrderlessIsMatchQ_prefilter_witness :
    (∀ q ∈ [Ex.Symbol "a", Ex.Symbol "c"], wellFormedPattern q = true) ∧
    isSeqWildcard (.Symbol "c") = false ∧
    (specHelpers 1).MemberQ [.Symbol "a", .Symbol "b"] (.Symbol "c") = false ∧
    OrderlessIsMatchQ (specHelpers 1) [.Symbol "a", .Symbol "b"] [.Symbol "a", .Symbol "c"]
      EmptyPD = some (false, EmptyPD) :=
  ⟨by decide, by decide, by decide,
    OrderlessIsMatchQ_prefilter (specHelpers 1) _ _ EmptyPD (.Symbol "c") (by decide)
      (by simp) (by decide)⟩

/-- C11, as stated, fails: in the pattern list `{c, Pattern[x]}` the element
`c` is no sequence wildcard and has no counterpart among `{a, b}`, and yet the
call does not return `false`: `ExtractBlankSequences` panics at
`pat.Parts[2]` (line 452), before the pre-filter. -/
theorem OrderlessIsMatchQ_prefilter_counterexample :
    Ex.Symbol "c" ∈ [Ex.Symbol "c", .Expression [.Symbol "Pattern", .Symbol "x"]] ∧
    isSeqWildcard (.Symbol "c") = false ∧
    (specHelpers 1).MemberQ [.Symbol "a", .Symbol "b"] (.Symbol "c") = false ∧
    OrderlessIsMatchQ (specHelpers 1) [.Symbol "a", .Symbol "b"]
      [.Symbol "c", .Expression [.Symbol "Pattern", .Symbol "x"]] EmptyPD = none ∧
    (∀ (H : Helpers) (pm : PDManager),
      OrderlessIsMatchQ H [.Symbol "a", .Symbol "b"]
        [.Symbol "c", .Expression [.Symbol "Pattern", .Symbol "x"]] pm = none) :=
  ⟨by simp, by decide, by decide, OIMQ_short_pattern _ _ _ _ (.Symbol "x") (by simp),
    fun H pm => OIMQ_short_pattern H _ _ pm (.Symbol "x") (by simp)⟩

/-! ## C12 -/

/-- C12 fails on `OrderlessIsMatchQ`: the pre-filter of lines 493-497 also asks
`MemberQ` for a counterpart of the sequence wildcard, so a `BlankNullSequence`
that should take no child makes the call return `false`.  The empty list does
not match `{x___}` and `{a, b}` does not match `{a, b, x___Plus}`, although the
positional matcher accepts both with the empty window. -/
theorem OrderlessIsMatchQ_blankNullSequence_zero_children :
    (OrderlessIsMatchQ (specHelpers 1) []
      [.Expression [.Symbol "Pattern", .Symbol "x", .Expression [.Symbol "BlankNullSequence"]]]
      EmptyPD).map Prod.fst = some false ∧
    (OrderlessIsMatchQ (specHelpers 1) [.Symbol "a", .Symbol "b"]
      [.Symbol "a", .Symbol "b",
        .Expression [.Symbol "Pattern", .Symbol "x",
          .Expression [.Symbol "BlankNullSequence", .Symbol "Plus"]]]
      EmptyPD).map Prod.fst = some false ∧
    (NonOrderlessIsMatchQ (specHelpers 1) []
      [.Expression [.Symbol "Pattern", .Symbol "x", .Expression [.Symbol "BlankNullSequence"]]]
      EmptyPD).map Prod.fst = some true ∧
    (NonOrderlessIsMatchQ (specHelpers 1) [.Symbol "a", .Symbol "b"]
      [.Symbol "a", .Symbol "b",
        .Expression [.Symbol "Pattern", .Symbol "x",
          .Expression [.Symbol "BlankNullSequence", .Symbol "Plus"]]]
      EmptyPD).map Prod.fst = some true := by
  refine ⟨?_, ?_, ?_, ?_⟩ <;> decide

/-! ## The definition store: basic facts -/

theorem setDefined_same (this : EvalState) (name : String) (d : Def) :
    (this.setDefined name d).defined name = some d := by
  simp [EvalState.setDefined]

theorem setDefined_other (this : EvalState) (name k : String) (d : Def) (h : k ≠ name) :
    (this.setDefined name d).defined k = this.defined k := by
  simp [EvalState.setDefined, h]

theorem setDefined_twice (this : EvalState) (name : String) (d1 d2 : Def) :
    (this.setDefined name d1).setDefined name d2 = this.setDefined name d2 := by
  simp only [EvalState.setDefined]
  congr 1
  funext k
  by_cases h : k = name <;> simp [h]

theorem redefineLoop_miss (S : StoreHelpers) (lhs rhs : Ex) :
    ∀ dvs : List Ex, (∀ r ∈ dvs, patternSameQ S lhs r false) →
      redefineLoop S lhs rhs dvs = some none := by
  intro dvs
  induction dvs with
  | nil => intro _; rfl
  | cons r rest ih =>
    intro h
    obtain ⟨pat, hpat, hs⟩ := h r (List.mem_cons_self _ _)
    have hrest := ih (fun q hq => h q (List.mem_cons_of_mem _ hq))
    simp [redefineLoop, ← List.get?_eq_getElem?, hpat, hs, hrest]

theorem redefineLoop_hit (S : StoreHelpers) (lhs rhs r : Ex) (post : List Ex)
    (hr : patternSameQ S lhs r true) (hlen : 2 < r.Parts.length) :
    ∀ pre : List Ex, (∀ q ∈ pre, patternSameQ S lhs q false) →
      redefineLoop S lhs rhs (pre ++ r :: post) =
        some (some (pre ++ .Expression (r.Parts.set 2 rhs) :: post)) := by
  intro pre
  induction pre with
  | nil =>
    intro _
    obtain ⟨pat, hpat, hs⟩ := hr
    simp [redefineLoop, ← List.get?_eq_getElem?, hpat, hs, hlen]
  | cons q pre ih =>
    intro h
    obtain ⟨pat, hpat, hs⟩ := h q (List.mem_cons_self _ _)
    have hrest := ih (fun q hq => h q (List.mem_cons_of_mem _ hq))
    simp [redefineLoop, ← List.get?_eq_getElem?, hpat, hs, hrest]

theorem redefineLoop_none_inv (S : StoreHelpers) (lhs rhs : Ex) :
    ∀ dvs : List Ex, redefineLoop S lhs rhs dvs = some none →
      ∀ r ∈ dvs, patternSameQ S lhs r false := by
  intro dvs
  induction dvs with
  | nil => intro _ r hr; cases hr
  | cons r rest ih =>
    intro h
    cases hpat : r.Parts.get? 1 with
    | none => simp [redefineLoop, ← List.get?_eq_getElem?, hpat] at h
    | some pat =>
      by_cases hs : S.IsSameQ pat lhs = true
      · by_cases hl : 2 < r.Parts.length <;> simp [redefineLoop, ← List.get?_eq_getElem?, hpat, hs, hl] at h
      · cases hrest : redefineLoop S lhs rhs rest with
        | none => simp [redefineLoop, ← List.get?_eq_getElem?, hpat, hs, hrest] at h
        | some res =>
          cases res with
          | some l => simp [redefineLoop, ← List.get?_eq_getElem?, hpat, hs, hrest] at h
          | none =>
            intro q hq
            rcases List.mem_cons.1 hq with rfl | hq
            · exact ⟨pat, hpat, by simpa using hs⟩
            · exact ih hrest q hq

theorem redefineLoop_some_inv (S : StoreHelpers) (lhs rhs : Ex) :
    ∀ dvs dvs1 : List Ex, redefineLoop S lhs rhs dvs = some (some dvs1) →
      ∃ pre r post, dvs = pre ++ r :: post ∧ (∀ q ∈ pre, patternSameQ S lhs q false) ∧
        patternSameQ S lhs r true ∧ 2 < r.Parts.length ∧
        dvs1 = pre ++ .Expression (r.Parts.set 2 rhs) :: post := by
  intro dvs
  induction dvs with
  | nil => intro dvs1 h; simp [redefineLoop] at h
  | cons r rest ih =>
    intro dvs1 h
    cases hpat : r.Parts.get? 1 with
    | none => simp [redefineLoop, ← List.get?_eq_getElem?, hpat] at h
    | some pat =>
      by_cases hs : S.IsSameQ pat lhs = true
      · by_cases hl : 2 < r.Parts.length
        · simp [redefineLoop, ← List.get?_eq_getElem?, hpat, hs, hl] at h
          exact ⟨[], r, rest, rfl, (fun q hq => by cases hq), ⟨pat, hpat, hs⟩, hl, by simp [← h]⟩
        · simp [redefineLoop, ← List.get?_eq_getElem?, hpat, hs, hl] at h
      · cases hrest : redefineLoop S lhs rhs rest with
        | none => simp [redefineLoop, ← List.get?_eq_getElem?, hpat, hs, hrest] at h
        | some res =>
          cases res with
          | none => simp [redefineLoop, ← List.get?_eq_getElem?, hpat, hs, hrest] at h
          | some l =>
            simp [redefineLoop, ← List.get?_eq_getElem?, hpat, hs, hrest] at h
            obtain ⟨pre, r1, post, hsplit, hpre, hr1, hl1, hres⟩ := ih l hrest
            refine ⟨r :: pre, r1, post, by simp [hsplit], ?_, hr1, hl1, by simp [← h, hres]⟩
            intro q hq
            rcases List.mem_cons.1 hq with rfl | hq
            · exact ⟨pat, hpat, by simpa using hs⟩
            · exact hpre q hq

theorem redefineLoop_total (S : StoreHelpers) (lhs rhs : Ex) :
    ∀ dvs : List Ex, (∀ r ∈ dvs, 2 < r.Parts.length) →
      ∃ res, redefineLoop S lhs rhs dvs = some res := by
  intro dvs
  induction dvs with
  | nil => intro _; exact ⟨_, rfl⟩
  | cons r rest ih =>
    intro h
    have hl : 2 < r.Parts.length := h r (List.mem_cons_self _ _)
    obtain ⟨pat, hpat⟩ : ∃ pat, r.Parts.get? 1 = some pat :=
      ⟨_, List.get?_eq_get (by omega)⟩
    obtain ⟨res, hres⟩ := ih (fun q hq => h q (List.mem_cons_of_mem _ hq))
    cases hs : S.IsSameQ pat lhs with
    | true =>
      exact ⟨some (.Expression (r.Parts.set 2 rhs) :: rest),
        by simp only [redefineLoop, hpat, hs, hl, if_true]⟩
    | false =>
      cases res with
      | none =>
        exact ⟨none, by simp [redefineLoop, ← List.get?_eq_getElem?, hpat, hs, hres]⟩
      | some l =>
        exact ⟨some (r :: l), by simp [redefineLoop, ← List.get?_eq_getElem?, hpat, hs, hres]⟩

theorem insertLoop_spec (S : StoreHelpers) (n : Nat) (rule : Ex) :
    ∀ dvs res : List Ex, insertLoop S n rule dvs = some res →
      ∃ pre post, dvs = pre ++ post ∧ res = pre ++ rule :: post ∧
        (∀ q ∈ pre, n ≤ storedLen S q) ∧ (∀ q, post.head? = some q → storedLen S q < n) := by
  intro dvs
  induction dvs with
  | nil =>
    intro res h
    simp [insertLoop] at h
    exact ⟨[], [], rfl, by simp [← h], (fun q hq => by cases hq), fun q hq => by cases hq⟩
  | cons r rest ih =>
    intro res h
    cases hpat : r.Parts.get? 1 with
    | none => simp [insertLoop, ← List.get?_eq_getElem?, hpat] at h
    | some pat =>
      by_cases hlt : len (S.ExString pat) < n
      · simp [insertLoop, ← List.get?_eq_getElem?, hpat, hlt] at h
        refine ⟨[], r :: rest, rfl, by simp [← h], (fun q hq => by cases hq), ?_⟩
        intro q hq
        simp at hq
        subst hq
        simpa [storedLen, ← List.get?_eq_getElem?, hpat] using hlt
      · cases hrest : insertLoop S n rule rest with
        | none => simp [insertLoop, ← List.get?_eq_getElem?, hpat, hlt, hrest] at h
        | some l =>
          simp [insertLoop, ← List.get?_eq_getElem?, hpat, hlt, hrest] at h
          obtain ⟨pre, post, hsplit, hres, hpre, hpost⟩ := ih l hrest
          refine ⟨r :: pre, post, by simp [hsplit], by simp [← h, hres], ?_, hpost⟩
          intro q hq
          rcases List.mem_cons.1 hq with rfl | hq
          · simpa [storedLen, ← List.get?_eq_getElem?, hpat] using hlt
          · exact hpre q hq

theorem insertLoop_total (S : StoreHelpers) (n : Nat) (rule : Ex) :
    ∀ dvs : List Ex, (∀ r ∈ dvs, ∃ pat, r.Parts.get? 1 = some pat) →
      ∃ res, insertLoop S n rule dvs = some res := by
  intro dvs
  induction dvs with
  | nil => intro _; exact ⟨_, rfl⟩
  | cons r rest ih =>
    intro h
    obtain ⟨pat, hpat⟩ := h r (List.mem_cons_self _ _)
    obtain ⟨res, hres⟩ := ih (fun q hq => h q (List.mem_cons_of_mem _ hq))
    by_cases hlt : len (S.ExString pat) < n
    · exact ⟨rule :: r :: rest, by simp only [insertLoop, hpat, hlt, if_true]⟩
    · exact ⟨r :: res, by simp [insertLoop, ← List.get?_eq_getElem?, hpat, hlt, hres]⟩

theorem sorted_tail_below (f : Ex → Nat) (n : Nat) :
    ∀ post : List Ex, List.Pairwise (fun a b => f b ≤ f a) post →
      (∀ q, post.head? = some q → f q < n) → ∀ q ∈ post, f q < n := by
  intro post hs hh q hq
  cases post with
  | nil => cases hq
  | cons a rest =>
    have ha : f a < n := hh a rfl
    rcases List.mem_cons.1 hq with rfl | hq
    · exact ha
    · exact lt_of_le_of_lt (List.rel_of_pairwise_cons hs hq) ha

theorem redefineLoop_panic (S : StoreHelpers) (lhs rhs1 rhs2 : Ex) :
    ∀ dvs : List Ex, redefineLoop S lhs rhs1 dvs = none →
      redefineLoop S lhs rhs2 dvs = none := by
  intro dvs
  induction dvs with
  | nil => intro h; simp [redefineLoop] at h
  | cons r rest ih =>
    intro h
    cases hpat : r.Parts.get? 1 with
    | none => simp [redefineLoop, ← List.get?_eq_getElem?, hpat]
    | some pat =>
      cases hs : S.IsSameQ pat lhs with
      | true =>
        by_cases hl : 2 < r.Parts.length
        · simp [redefineLoop, ← List.get?_eq_getElem?, hpat, hs, hl] at h
        · simp [redefineLoop, ← List.get?_eq_getElem?, hpat, hs, hl]
      | false =>
        cases hrest : redefineLoop S lhs rhs1 rest with
        | none => simp [redefineLoop, ← List.get?_eq_getElem?, hpat, hs, ih hrest]
        | some res =>
          cases res <;> simp [redefineLoop, ← List.get?_eq_getElem?, hpat, hs, hrest] at h

theorem insertLoop_uniform (S : StoreHelpers) (n : Nat) :
    ∀ dvs : List Ex, (∀ rule, insertLoop S n rule dvs = none) ∨
      ∃ pre post, dvs = pre ++ post ∧
        ∀ rule, insertLoop S n rule dvs = some (pre ++ rule :: post) := by
  intro dvs
  induction dvs with
  | nil => exact Or.inr ⟨[], [], rfl, fun _ => rfl⟩
  | cons r rest ih =>
    cases hpat : r.Parts.get? 1 with
    | none => exact Or.inl (fun rule => by simp [insertLoop, ← List.get?_eq_getElem?, hpat])
    | some pat =>
      by_cases hlt : len (S.ExString pat) < n
      · exact Or.inr ⟨[], r :: rest, rfl, fun rule => by
          simp [insertLoop, ← List.get?_eq_getElem?, hpat, hlt]⟩
      · rcases ih with hnone | ⟨pre, post, hsplit, hall⟩
        · exact Or.inl (fun rule => by
            simp [insertLoop, ← List.get?_eq_getElem?, hpat, hlt, hnone rule])
        · exact Or.inr ⟨r :: pre, post, by simp [hsplit], fun rule => by
            simp [insertLoop, ← List.get?_eq_getElem?, hpat, hlt, hall rule]⟩

theorem Define_fresh (S : StoreHelpers) (this : EvalState) (name : String) (lhs rhs : Ex)
    (h : this.defined name = none) :
    this.Define S name lhs rhs =
      some (this.setDefined name ⟨[ruleExpression lhs rhs], [], none⟩) := by
  simp only [EvalState.Define, h]

theorem Define_existing (S : StoreHelpers) (this : EvalState) (name : String) (lhs rhs : Ex)
    (d : Def) (h : this.defined name = some d) :
    this.Define S name lhs rhs =
      match redefineLoop S lhs rhs d.downvalues with
      | none => none
      | some (some dvs) => some (this.setDefined name { d with downvalues := dvs })
      | some none =>
          match insertLoop S (len (S.StringForm lhs "InputForm")) (ruleExpression lhs rhs)
              d.downvalues with
          | none => none
          | some dvs => some (this.setDefined name { d with downvalues := dvs }) := by
  simp only [EvalState.Define, h]

theorem Define_NoInit (S : StoreHelpers) (this s : EvalState) (name : String) (lhs rhs : Ex)
    (h : this.Define S name lhs rhs = some s) : s.NoInit = this.NoInit := by
  cases hd : this.defined name with
  | none =>
    rw [Define_fresh S this name lhs rhs hd] at h
    cases h
    rfl
  | some d =>
    rw [Define_existing S this name lhs rhs d hd] at h
    split at h
    · cases h
    · cases h; rfl
    · split at h
      · cases h
      · cases h; rfl

theorem runDefines_NoInit (S : StoreHelpers) :
    ∀ (calls : List (String × Ex × Ex)) (this s : EvalState),
      runDefines S this calls = some s → s.NoInit = this.NoInit := by
  intro calls
  induction calls with
  | nil => intro this s h; simp [runDefines] at h; rw [h]
  | cons c calls ih =>
    intro this s h
    obtain ⟨name, lhs, rhs⟩ := c
    cases hd : this.Define S name lhs rhs with
    | none => simp [runDefines, hd] at h
    | some s1 =>
      simp [runDefines, hd] at h
      rw [ih s1 s h, Define_NoInit S this s1 name lhs rhs hd]

theorem set_rhs_pattern (r rhs : Ex) :
    (Ex.Expression (r.Parts.set 2 rhs)).Parts.get? 1 = r.Parts.get? 1 := by
  simp [Ex.Parts, List.getElem?_set]

theorem set_rhs_length (r rhs : Ex) :
    (Ex.Expression (r.Parts.set 2 rhs)).Parts.length = r.Parts.length := by
  simp [Ex.Parts]

theorem specificity_congr (S : StoreHelpers) (a b : Ex) (h : a.Parts.get? 1 = b.Parts.get? 1) :
    specificity S a = specificity S b := by
  unfold specificity
  rw [h]

theorem storedLen_eq_specificity (S : StoreHelpers)
    (hlen : ∀ e, len (S.ExString e) = len (S.StringForm e "InputForm")) (r : Ex) :
    storedLen S r = specificity S r := by
  unfold storedLen specificity
  cases r.Parts.get? 1 with
  | none => rfl
  | some pat => exact hlen pat

theorem specificity_ruleExpression (S : StoreHelpers) (lhs rhs : Ex) :
    specificity S (ruleExpression lhs rhs) = len (S.StringForm lhs "InputForm") := rfl

theorem StoreInvariant_setDefined (S : StoreHelpers) (s : EvalState) (name : String) (d : Def)
    (hinv : StoreInvariant S s) (hwf : rulesWellFormed d.downvalues)
    (hsorted : sortedBySpecificity S d.downvalues) :
    StoreInvariant S (s.setDefined name d) := by
  intro k d1 hk
  by_cases hkn : k = name
  · subst hkn
    rw [setDefined_same] at hk
    cases hk
    exact ⟨hwf, hsorted⟩
  · rw [setDefined_other _ _ _ _ hkn] at hk
    exact hinv k d1 hk

theorem Define_preserves_invariant (S : StoreHelpers)
    (hlen : ∀ e, len (S.ExString e) = len (S.StringForm e "InputForm"))
    (s : EvalState) (name : String) (lhs rhs : Ex) (hinv : StoreInvariant S s) :
    ∃ s1, s.Define S name lhs rhs = some s1 ∧ StoreInvariant S s1 := by
  cases hd : s.defined name with
  | none =>
    refine ⟨_, Define_fresh S s name lhs rhs hd, ?_⟩
    apply StoreInvariant_setDefined S s name _ hinv
    · intro r hr
      simp at hr
      subst hr
      simp [ruleExpression, Ex.Parts]
    · exact List.pairwise_singleton _ _
  | some d =>
    obtain ⟨hwf, hsorted⟩ := hinv name d hd
    obtain ⟨res, hres⟩ := redefineLoop_total S lhs rhs d.downvalues hwf
    rw [Define_existing S s name lhs rhs d hd, hres]
    cases res with
    | some dvs1 =>
      obtain ⟨pre, r, post, hsplit, _, _, _, hdvs1⟩ :=
        redefineLoop_some_inv S lhs rhs d.downvalues dvs1 hres
      refine ⟨_, rfl, ?_⟩
      apply StoreInvariant_setDefined S s name _ hinv
      · intro q hq
        have hq1 : q ∈ pre ++ Ex.Expression (r.Parts.set 2 rhs) :: post := by
          rw [← hdvs1]; exact hq
        rcases List.mem_append.1 hq1 with hq2 | hq2
        · exact hwf q (by rw [hsplit]; exact List.mem_append_left _ hq2)
        · rcases List.mem_cons.1 hq2 with rfl | hq3
          · rw [set_rhs_length]
            exact hwf r (by rw [hsplit]; simp)
          · exact hwf q (by rw [hsplit]; simp [hq3])
      · have hmap : dvs1.map (specificity S) = d.downvalues.map (specificity S) := by
          rw [hdvs1, hsplit]
          simp [specificity_congr S _ _ (set_rhs_pattern r rhs)]
        have h1 : List.Pairwise (fun a b : Nat => b ≤ a) (d.downvalues.map (specificity S)) :=
          List.pairwise_map.2 hsorted
        rw [← hmap] at h1
        exact List.pairwise_map.1 h1
    | none =>
      have hpat : ∀ r ∈ d.downvalues, ∃ pat, r.Parts.get? 1 = some pat := fun r hr =>
        ⟨_, List.get?_eq_get (by have := hwf r hr; omega)⟩
      obtain ⟨dvs1, hins⟩ := insertLoop_total S (len (S.StringForm lhs "InputForm"))
        (ruleExpression lhs rhs) d.downvalues hpat
      obtain ⟨pre, post, hsplit, hres1, hpre, hpost⟩ :=
        insertLoop_spec S _ _ d.downvalues dvs1 hins
      simp only [hins]
      refine ⟨_, rfl, ?_⟩
      apply StoreInvariant_setDefined S s name _ hinv
      · intro q hq
        have hq1 : q ∈ pre ++ ruleExpression lhs rhs :: post := by
          rw [← hres1]; exact hq
        rcases List.mem_append.1 hq1 with hq2 | hq2
        · exact hwf q (by rw [hsplit]; exact List.mem_append_left _ hq2)
        · rcases List.mem_cons.1 hq2 with rfl | hq3
          · simp [ruleExpression, Ex.Parts]
          · exact hwf q (by rw [hsplit]; exact List.mem_append_right _ hq3)
      · have hs0 : List.Pairwise (fun a b => specificity S b ≤ specificity S a) (pre ++ post) := by
          rw [← hsplit]; exact hsorted
        obtain ⟨hs1, hs2, hs3⟩ := List.pairwise_append.1 hs0
        have hbelow : ∀ q ∈ post, specificity S q < len (S.StringForm lhs "InputForm") :=
          sorted_tail_below (specificity S) _ post hs2 (fun q hq => by
            rw [← storedLen_eq_specificity S hlen]; exact hpost q hq)
        show List.Pairwise _ dvs1
        rw [hres1]
        refine List.pairwise_append.2 ⟨hs1, List.pairwise_cons.2 ⟨?_, hs2⟩, ?_⟩
        · intro q hq
          rw [specificity_ruleExpression]
          exact le_of_lt (hbelow q hq)
        · intro a ha b hb
          rcases List.mem_cons.1 hb with rfl | hb1
          · rw [specificity_ruleExpression, ← storedLen_eq_specificity S hlen]
            exact hpre a ha
          · exact hs3 a ha b hb1

theorem StoreInvariant_emptyStore (S : StoreHelpers) (noInit : Bool) :
    StoreInvariant S (emptyStore noInit) := by
  intro name d h
  cases h

theorem runDefines_invariant (S : StoreHelpers)
    (hlen : ∀ e, len (S.ExString e) = len (S.StringForm e "InputForm")) :
    ∀ (calls : List (String × Ex × Ex)) (s : EvalState), StoreInvariant S s →
      ∃ s1, runDefines S s calls = some s1 ∧ StoreInvariant S s1 := by
  intro calls
  induction calls with
  | nil => intro s h; exact ⟨s, rfl, h⟩
  | cons c calls ih =>
    intro s h
    obtain ⟨name, lhs, rhs⟩ := c
    obtain ⟨s1, hs1, hinv1⟩ := Define_preserves_invariant S hlen s name lhs rhs h
    obtain ⟨s2, hs2, hinv2⟩ := ih s1 hinv1
    exact ⟨s2, by simp [runDefines, hs1, hs2], hinv2⟩

/-! ## C13 -/

/-- C13: the store invariant.  From an empty store every sequence of `Define`
calls returns, and in the store it reaches the rule list of each symbol is in
non-increasing order of specificity (the length of the pattern's printed
`InputForm`).  `Define` measures a stored pattern by `String()` and the new one
by `StringForm("InputForm")`; the hypothesis is that the two printers give
strings of one length, as `String()` is defined to be the `InputForm`. -/
theorem Define_keeps_specificity_order (S : StoreHelpers)
    (hlen : ∀ e, len (S.ExString e) = len (S.StringForm e "InputForm"))
    (noInit : Bool) (calls : List (String × Ex × Ex)) :
    ∃ s, runDefines S (emptyStore noInit) calls = some s ∧
      ∀ name d, s.defined name = some d → sortedBySpecificity S d.downvalues := by
  obtain ⟨s, hs, hinv⟩ :=
    runDefines_invariant S hlen calls (emptyStore noInit) (StoreInvariant_emptyStore S noInit)
  exact ⟨s, hs, fun name d h => (hinv name d h).2⟩

/-- The instance of C13 at the reference printers and the calls
`f[x_] -> 2`, `f[x_Integer] -> 1`. -/
theorem Define_keeps_specificity_order_witness :
    (∀ e, len ((specStoreHelpers 1).ExString e) =
      len ((specStoreHelpers 1).StringForm e "InputForm")) ∧
    ∃ s, runDefines (specStoreHelpers 1) (emptyStore true)
        [("f", .Expression [.Symbol "f",
            .Expression [.Symbol "Pattern", .Symbol "x", .Expression [.Symbol "Blank"]]],
          .Integer 2),
         ("f", .Expression [.Symbol "f",
            .Expression [.Symbol "Pattern", .Symbol "x",
              .Expression [.Symbol "Blank", .Symbol "Integer"]]],
          .Integer 1)] = some s ∧
      ∀ name d, s.defined name = some d →
        sortedBySpecificity (specStoreHelpers 1) d.downvalues :=
  ⟨fun _ => rfl, Define_keeps_specificity_order (specStoreHelpers 1) (fun _ => rfl) true _⟩

/-! ## C14 -/

/-- C14: stable insertion.  When `name` has a Definition `d` and no stored
pattern is `IsSameQ` to `lhs`, `Define` returns, and the new rule list is the
old one, split as `pre ++ post`, with `Rule[lhs, rhs]` put between the two
halves: no rule of `pre` prints strictly shorter than `lhs`, the first rule of
`post` (if any) does, so the new rule stands immediately before the first
strictly shorter rule, or at the end.  The count grows by one, the old rules
keep their order, and when the old list is in non-increasing order of printed
length every rule after the new one is strictly shorter, so the rules of at
least the length of `lhs` all stand before it. -/
theorem Define_stable_insertion (S : StoreHelpers) (this : EvalState) (name : String)
    (lhs rhs : Ex) (d : Def)
    (hd : this.defined name = some d)
    (hno : ∀ r ∈ d.downvalues, patternSameQ S lhs r false) :
    ∃ pre post, d.downvalues = pre ++ post ∧
      (∀ q ∈ pre, len (S.StringForm lhs "InputForm") ≤ storedLen S q) ∧
      (∀ q, post.head? = some q → storedLen S q < len (S.StringForm lhs "InputForm")) ∧
      this.Define S name lhs rhs =
        some (this.setDefined name
          { d with downvalues := pre ++ ruleExpression lhs rhs :: post }) ∧
      (pre ++ ruleExpression lhs rhs :: post).length = d.downvalues.length + 1 ∧
      (List.Pairwise (fun a b => storedLen S b ≤ storedLen S a) d.downvalues →
        ∀ q ∈ post, storedLen S q < len (S.StringForm lhs "InputForm")) := by
  have hpat : ∀ r ∈ d.downvalues, ∃ pat, r.Parts.get? 1 = some pat := fun r hr => by
    obtain ⟨pat, hp, _⟩ := hno r hr
    exact ⟨pat, hp⟩
  obtain ⟨dvs1, hins⟩ := insertLoop_total S (len (S.StringForm lhs "InputForm"))
    (ruleExpression lhs rhs) d.downvalues hpat
  obtain ⟨pre, post, hsplit, hres1, hpre, hpost⟩ :=
    insertLoop_spec S _ _ d.downvalues dvs1 hins
  refine ⟨pre, post, hsplit, hpre, hpost, ?_, ?_, ?_⟩
  · rw [Define_existing S this name lhs rhs d hd,
      redefineLoop_miss S lhs rhs d.downvalues hno]
    simp only [hins, hres1]
  · rw [hsplit]
    simp
    omega
  · intro hsorted
    rw [hsplit] at hsorted
    exact sorted_tail_below (storedLen S) _ post (List.pairwise_append.1 hsorted).2.1 hpost

/-- The instance of C14 at the store that holds `f[x_] -> 2` and the new rule
`f[x_Integer] -> 1`. -/
theorem Define_stable_insertion_witness :
    storeFBlank.defined "f" = some defFBlank ∧
    (∀ r ∈ defFBlank.downvalues, patternSameQ (specStoreHelpers 1) fBlankInteger r false) ∧
    ∃ pre post, defFBlank.downvalues = pre ++ post ∧
      (∀ q ∈ pre, len ((specStoreHelpers 1).StringForm fBlankInteger "InputForm") ≤
        storedLen (specStoreHelpers 1) q) ∧
      (∀ q, post.head? = some q → storedLen (specStoreHelpers 1) q <
        len ((specStoreHelpers 1).StringForm fBlankInteger "InputForm")) ∧
      storeFBlank.Define (specStoreHelpers 1) "f" fBlankInteger (.Integer 1) =
        some (storeFBlank.setDefined "f"
          { defFBlank with
            downvalues := pre ++ ruleExpression fBlankInteger (.Integer 1) :: post }) ∧
      (pre ++ ruleExpression fBlankInteger (.Integer 1) :: post).length =
        defFBlank.downvalues.length + 1 ∧
      (List.Pairwise (fun a b => storedLen (specStoreHelpers 1) b ≤
          storedLen (specStoreHelpers 1) a) defFBlank.downvalues →
        ∀ q ∈ post, storedLen (specStoreHelpers 1) q <
          len ((specStoreHelpers 1).StringForm fBlankInteger "InputForm")) :=
  have hno : ∀ r ∈ defFBlank.downvalues,
      patternSameQ (specStoreHelpers 1) fBlankInteger r false := fun r hr => by
    simp only [defFBlank, List.mem_singleton] at hr
    subst hr
    exact ⟨fBlank, rfl, by decide⟩
  ⟨rfl, hno, Define_stable_insertion (specStoreHelpers 1) storeFBlank "f" fBlankInteger
    (.Integer 1) defFBlank rfl hno⟩

/-! ## C16 -/

/-- C16: `Define` on a name without a Definition.  The call returns, the store
then maps `name` to a Definition whose rule list is the single rule
`Rule[lhs, rhs]`, the Definition of every other name is the one it was, and so
is the flag `NoInit`. -/
theorem Define_new_symbol (S : StoreHelpers) (this : EvalState) (name : String)
    (lhs rhs : Ex) (h : this.defined name = none) :
    ∃ s d, this.Define S name lhs rhs = some s ∧ s.defined name = some d ∧
      d.downvalues = [ruleExpression lhs rhs] ∧
      (∀ k, k ≠ name → s.defined k = this.defined k) ∧ s.NoInit = this.NoInit :=
  ⟨_, _, Define_fresh S this name lhs rhs h, setDefined_same _ _ _, rfl,
    fun _ hk => setDefined_other _ _ _ _ hk, rfl⟩

/-- The instance of C16 at the store `storeFBlank`, which defines `f` only, and
the new name `g`. -/
theorem Define_new_symbol_witness :
    storeFBlank.defined "g" = none ∧
    ∃ s d, storeFBlank.Define (specStoreHelpers 1) "g" fBlank (.Integer 3) = some s ∧
      s.defined "g" = some d ∧ d.downvalues = [ruleExpression fBlank (.Integer 3)] ∧
      (∀ k, k ≠ "g" → s.defined k = storeFBlank.defined k) ∧ s.NoInit = storeFBlank.NoInit :=
  ⟨rfl, Define_new_symbol (specStoreHelpers 1) storeFBlank "g" fBlank (.Integer 3) rfl⟩

/-! ## C15 -/

theorem Define_hit (S : StoreHelpers) (this : EvalState) (name : String) (lhs rhs : Ex)
    (d : Def) (pre : List Ex) (r : Ex) (post : List Ex)
    (hd : this.defined name = some d) (hsplit : d.downvalues = pre ++ r :: post)
    (hpre : ∀ q ∈ pre, patternSameQ S lhs q false) (hr : patternSameQ S lhs r true)
    (hl : 2 < r.Parts.length) :
    this.Define S name lhs rhs =
      some (this.setDefined name
        { d with downvalues := pre ++ .Expression (r.Parts.set 2 rhs) :: post }) := by
  rw [Define_existing S this name lhs rhs d hd, hsplit,
    redefineLoop_hit S lhs rhs r post hr hl pre hpre]

theorem Define_twice (S : StoreHelpers) (this : EvalState) (name : String)
    (lhs rhs1 rhs2 : Ex) (hrefl : S.IsSameQ lhs lhs = true) :
    (this.Define S name lhs rhs1).bind (fun s => s.Define S name lhs rhs2) =
      this.Define S name lhs rhs2 := by
  have hrule : patternSameQ S lhs (ruleExpression lhs rhs1) true := ⟨lhs, rfl, hrefl⟩
  have hrl : 2 < (ruleExpression lhs rhs1).Parts.length := by
    simp [ruleExpression, Ex.Parts]
  cases hd : this.defined name with
  | none =>
    rw [Define_fresh S this name lhs rhs1 hd, Define_fresh S this name lhs rhs2 hd,
      Option.some_bind,
      Define_hit S _ name lhs rhs2 _ [] (ruleExpression lhs rhs1) []
        (setDefined_same _ _ _) rfl (fun q hq => by cases hq) hrule hrl,
      setDefined_twice]
    rfl
  | some d =>
    cases h1 : redefineLoop S lhs rhs1 d.downvalues with
    | none =>
      rw [Define_existing S this name lhs rhs1 d hd, Define_existing S this name lhs rhs2 d hd,
        h1, redefineLoop_panic S lhs rhs1 rhs2 _ h1]
      rfl
    | some res =>
      cases res with
      | none =>
        have hmiss := redefineLoop_none_inv S lhs rhs1 _ h1
        rw [Define_existing S this name lhs rhs1 d hd,
          Define_existing S this name lhs rhs2 d hd, h1,
          redefineLoop_miss S lhs rhs2 _ hmiss]
        rcases insertLoop_uniform S (len (S.StringForm lhs "InputForm")) d.downvalues with
          hnone | ⟨pre, post, hsplit, hall⟩
        · simp only [hnone]
          rfl
        · have hpre : ∀ q ∈ pre, patternSameQ S lhs q false := fun q hq =>
            hmiss q (by rw [hsplit]; exact List.mem_append_left _ hq)
          simp only [hall, Option.some_bind]
          rw [Define_hit S _ name lhs rhs2 _ pre (ruleExpression lhs rhs1) post
              (setDefined_same _ _ _) rfl hpre hrule hrl,
            setDefined_twice]
          rfl
      | some dvs1 =>
        obtain ⟨pre, r, post, hsplit, hpre, hr, hl, hdvs1⟩ :=
          redefineLoop_some_inv S lhs rhs1 _ _ h1
        have hr1 : patternSameQ S lhs (.Expression (r.Parts.set 2 rhs1)) true := by
          obtain ⟨pat, hp, hs⟩ := hr
          exact ⟨pat, by rw [set_rhs_pattern]; exact hp, hs⟩
        have hl1 : 2 < (Ex.Expression (r.Parts.set 2 rhs1)).Parts.length := by
          rw [set_rhs_length]; exact hl
        rw [Define_hit S this name lhs rhs1 d pre r post hd hsplit hpre hr hl,
          Define_hit S this name lhs rhs2 d pre r post hd hsplit hpre hr hl,
          Option.some_bind,
          Define_hit S _ name lhs rhs2 _ pre (.Expression (r.Parts.set 2 rhs1)) post
            (setDefined_same _ _ _) rfl hpre hr1 hl1,
          setDefined_twice]
        simp [Ex.Parts]

/-- C15: redefinition overwrite.  First part: when the rule list of `name` is
`pre ++ r :: post`, no pattern of `pre` is `IsSameQ` to `lhs` and the pattern
of `r` is, `Define` returns and the new list is the old one with the
replacement `Parts[2]` of `r` set to `rhs`: as many rules, the head and the
pattern of that rule and every other rule untouched.  Second part, for a
pattern that is `IsSameQ` to itself: `Define` with `rhs1` and then with `rhs`
leaves the store that the one `Define` with `rhs` leaves, and on a name
without a Definition that store holds the single rule `Rule[lhs, rhs]`, which
is the rule `GetDef` applies to an expression that matches `lhs`. -/
theorem Define_overwrite (S : StoreHelpers) (this : EvalState) (name : String)
    (lhs rhs : Ex) :
    (∀ (d : Def) (pre : List Ex) (r : Ex) (post : List Ex),
      this.defined name = some d → d.downvalues = pre ++ r :: post →
      (∀ q ∈ pre, patternSameQ S lhs q false) → patternSameQ S lhs r true →
      2 < r.Parts.length →
        this.Define S name lhs rhs =
          some (this.setDefined name
            { d with downvalues := pre ++ .Expression (r.Parts.set 2 rhs) :: post }) ∧
        (pre ++ Ex.Expression (r.Parts.set 2 rhs) :: post).length = d.downvalues.length ∧
        (Ex.Expression (r.Parts.set 2 rhs)).Parts.get? 0 = r.Parts.get? 0 ∧
        (Ex.Expression (r.Parts.set 2 rhs)).Parts.get? 1 = r.Parts.get? 1 ∧
        (Ex.Expression (r.Parts.set 2 rhs)).Parts.get? 2 = some rhs) ∧
    (S.IsSameQ lhs lhs = true → ∀ rhs1,
      (this.Define S name lhs rhs1).bind (fun s => s.Define S name lhs rhs) =
        this.Define S name lhs rhs) ∧
    (S.IsSameQ lhs lhs = true → this.defined name = none → ∀ rhs1,
      ∃ s d, (this.Define S name lhs rhs1).bind (fun s => s.Define S name lhs rhs) = some s ∧
        s.defined name = some d ∧ d.downvalues = [ruleExpression lhs rhs] ∧
        ∀ e, (S.IsMatchQ e lhs EmptyPD).1 = true →
          s.GetDef S name e =
            some ((some (S.ReplaceAll e (ruleExpression lhs rhs) EmptyPD), true), s)) := by
  refine ⟨?_, ?_, ?_⟩
  · intro d pre r post hd hsplit hpre hr hl
    refine ⟨Define_hit S this name lhs rhs d pre r post hd hsplit hpre hr hl, ?_, ?_,
      set_rhs_pattern r rhs, ?_⟩
    · rw [hsplit]; simp
    · show (r.Parts.set 2 rhs).get? 0 = r.Parts.get? 0
      simp [List.getElem?_set]
    · show (r.Parts.set 2 rhs).get? 2 = some rhs
      simp [List.getElem?_set, hl]
  · intro hrefl rhs1
    exact Define_twice S this name lhs rhs1 rhs hrefl
  · intro hrefl hd rhs1
    refine ⟨_, _, ?_, setDefined_same this name ⟨[ruleExpression lhs rhs], [], none⟩, rfl, ?_⟩
    · rw [Define_twice S this name lhs rhs1 rhs hrefl, Define_fresh S this name lhs rhs hd]
    · intro e he
      simp only [EvalState.GetDef, setDefined_same, getDefLoop, ruleExpression, Ex.Parts,
        List.get?, he, if_true]

/-- The instance of C15 at the store that holds `f[x_] -> 2`: `Define` of
`f[x_]` with the replacement `7` overwrites the one rule. -/
theorem Define_overwrite_witness :
    storeFBlank.defined "f" = some defFBlank ∧
    defFBlank.downvalues = [] ++ ruleExpression fBlank (.Integer 2) :: [] ∧
    patternSameQ (specStoreHelpers 1) fBlank (ruleExpression fBlank (.Integer 2)) true ∧
    2 < (ruleExpression fBlank (.Integer 2)).Parts.length ∧
    storeFBlank.Define (specStoreHelpers 1) "f" fBlank (.Integer 7) =
      some (storeFBlank.setDefined "f"
        { defFBlank with downvalues := [] ++ ruleExpression fBlank (.Integer 7) :: [] }) :=
  ⟨rfl, rfl, ⟨fBlank, rfl, by decide⟩, by decide,
    ((Define_overwrite (specStoreHelpers 1) storeFBlank "f" fBlank (.Integer 7)).1
      defFBlank [] (ruleExpression fBlank (.Integer 2)) [] rfl rfl
      (fun q hq => by cases hq) ⟨fBlank, rfl, by decide⟩ (by decide)).1⟩

/-! ## C17 -/

theorem Define_two_fresh (S : StoreHelpers) (this : EvalState) (f : String) (p q r1 r2 : Ex)
    (hf : this.defined f = none) (hpq : S.IsSameQ p q = false) :
    (this.Define S f p r1).bind (fun s => s.Define S f q r2) =
      some (this.setDefined f
        ⟨if len (S.ExString p) < len (S.StringForm q "InputForm")
          then [ruleExpression q r2, ruleExpression p r1]
          else [ruleExpression p r1, ruleExpression q r2], [], none⟩) := by
  have hmiss : ∀ r ∈ [ruleExpression p r1], patternSameQ S q r false := by
    intro r hr
    simp only [List.mem_singleton] at hr
    subst hr
    exact ⟨p, rfl, hpq⟩
  rw [Define_fresh S this f p r1 hf, Option.some_bind,
    Define_existing S _ f q r2 _ (setDefined_same _ _ _),
    redefineLoop_miss S q r2 _ hmiss]
  by_cases hlt : len (S.ExString p) < len (S.StringForm q "InputForm")
  · simp only [insertLoop, ruleExpression, Ex.Parts, List.get?, hlt, if_true]
    rw [setDefined_twice]
  · simp only [insertLoop, ruleExpression, Ex.Parts, List.get?, hlt, if_false]
    rw [setDefined_twice]

/-- C17: the order of two definitions of different specificity does not matter.
For a name `f` without a Definition and two patterns `p`, `q` that are not
`IsSameQ` (in either order of the arguments), whose printed forms have
different lengths and are of one length under `String()` and under
`StringForm("InputForm")`, the calls `Define(f, p, r1); Define(f, q, r2)` and
`Define(f, q, r2); Define(f, p, r1)` return the same store, and its rule list
for `f` has the rule of the longer pattern first. -/
theorem Define_order_irrelevant (S : StoreHelpers) (this : EvalState) (f : String)
    (p q r1 r2 : Ex)
    (hf : this.defined f = none)
    (hpq : S.IsSameQ p q = false) (hqp : S.IsSameQ q p = false)
    (hp : len (S.ExString p) = len (S.StringForm p "InputForm"))
    (hq : len (S.ExString q) = len (S.StringForm q "InputForm"))
    (hne : len (S.StringForm p "InputForm") ≠ len (S.StringForm q "InputForm")) :
    (this.Define S f p r1).bind (fun s => s.Define S f q r2) =
      (this.Define S f q r2).bind (fun s => s.Define S f p r1) ∧
    (this.Define S f p r1).bind (fun s => s.Define S f q r2) =
      some (this.setDefined f
        ⟨if len (S.StringForm q "InputForm") < len (S.StringForm p "InputForm")
          then [ruleExpression p r1, ruleExpression q r2]
          else [ruleExpression q r2, ruleExpression p r1], [], none⟩) := by
  rw [Define_two_fresh S this f p q r1 r2 hf hpq, Define_two_fresh S this f q p r2 r1 hf hqp,
    hp, hq]
  by_cases h1 : len (S.StringForm p "InputForm") < len (S.StringForm q "InputForm")
  · have h2 : ¬ len (S.StringForm q "InputForm") < len (S.StringForm p "InputForm") := by
      omega
    simp only [h1, h2, if_true, if_false, and_self]
  · have h2 : len (S.StringForm q "InputForm") < len (S.StringForm p "InputForm") := by
      omega
    simp only [h1, h2, if_true, if_false, and_self]

/-- The instance of C17 at `f[x_Integer] -> 1` and `f[x_] -> 2` on the empty
store, with what `GetDef` then answers for `f[5]` and `f["s"]` after either
order of the two definitions. -/
theorem Define_order_irrelevant_witness :
    (emptyStore true).defined "f" = none ∧
    (specStoreHelpers 1).IsSameQ fBlankInteger fBlank = false ∧
    (specStoreHelpers 1).IsSameQ fBlank fBlankInteger = false ∧
    len ((specStoreHelpers 1).StringForm fBlankInteger "InputForm") ≠
      len ((specStoreHelpers 1).StringForm fBlank "InputForm") ∧
    (((emptyStore true).Define (specStoreHelpers 1) "f" fBlankInteger (.Integer 1)).bind
        (fun s => s.Define (specStoreHelpers 1) "f" fBlank (.Integer 2)) =
      ((emptyStore true).Define (specStoreHelpers 1) "f" fBlank (.Integer 2)).bind
        (fun s => s.Define (specStoreHelpers 1) "f" fBlankInteger (.Integer 1)) ∧
     ((emptyStore true).Define (specStoreHelpers 1) "f" fBlankInteger (.Integer 1)).bind
        (fun s => s.Define (specStoreHelpers 1) "f" fBlank (.Integer 2)) =
      some ((emptyStore true).setDefined "f"
        ⟨if len ((specStoreHelpers 1).StringForm fBlank "InputForm") <
            len ((specStoreHelpers 1).StringForm fBlankInteger "InputForm")
          then [ruleExpression fBlankInteger (.Integer 1), ruleExpression fBlank (.Integer 2)]
          else [ruleExpression fBlank (.Integer 2), ruleExpression fBlankInteger (.Integer 1)],
          [], none⟩)) ∧
    ((((emptyStore true).Define (specStoreHelpers 1) "f" fBlankInteger (.Integer 1)).bind
        (fun s => s.Define (specStoreHelpers 1) "f" fBlank (.Integer 2))).bind
      (fun s => (s.GetDef (specStoreHelpers 1) "f"
        (.Expression [.Symbol "f", .Integer 5])).map Prod.fst)) =
      some (some (.Integer 1), true) ∧
    ((((emptyStore true).Define (specStoreHelpers 1) "f" fBlank (.Integer 2)).bind
        (fun s => s.Define (specStoreHelpers 1) "f" fBlankInteger (.Integer 1))).bind
      (fun s => (s.GetDef (specStoreHelpers 1) "f"
        (.Expression [.Symbol "f", .String "s"])).map Prod.fst)) =
      some (some (.Integer 2), true) :=
  ⟨rfl, by decide, by decide, by decide,
    Define_order_irrelevant (specStoreHelpers 1) (emptyStore true) "f" fBlankInteger fBlank
      (.Integer 1) (.Integer 2) rfl (by decide) (by decide) rfl rfl (by decide),
    rfl, rfl⟩

/-! ## C18 -/

theorem getDefLoop_miss (S : StoreHelpers) (e : Ex) :
    ∀ dvs : List Ex, (∀ r ∈ dvs, patternMatches S e r false) →
      getDefLoop S e dvs = some (none, false) := by
  intro dvs
  induction dvs with
  | nil => intro _; rfl
  | cons r rest ih =>
    intro h
    obtain ⟨pat, hpat, hm⟩ := h r (List.mem_cons_self _ _)
    have hrest := ih (fun q hq => h q (List.mem_cons_of_mem _ hq))
    simp [getDefLoop, ← List.get?_eq_getElem?, hpat, hm, hrest]

theorem getDefLoop_hit (S : StoreHelpers) (e r : Ex) (post : List Ex)
    (hr : patternMatches S e r true) :
    ∀ pre : List Ex, (∀ q ∈ pre, patternMatches S e q false) →
      getDefLoop S e (pre ++ r :: post) = some (some (S.ReplaceAll e r EmptyPD), true) := by
  intro pre
  induction pre with
  | nil =>
    intro _
    obtain ⟨pat, hpat, hm⟩ := hr
    simp [getDefLoop, ← List.get?_eq_getElem?, hpat, hm]
  | cons q pre ih =>
    intro h
    obtain ⟨pat, hpat, hm⟩ := h q (List.mem_cons_self _ _)
    have hrest := ih (fun q hq => h q (List.mem_cons_of_mem _ hq))
    simp [getDefLoop, ← List.get?_eq_getElem?, hpat, hm, hrest]

theorem getDefLoop_false_inv (S : StoreHelpers) (e : Ex) :
    ∀ (dvs : List Ex) (res : Option Ex), getDefLoop S e dvs = some (res, false) →
      res = none ∧ ∀ r ∈ dvs, patternMatches S e r false := by
  intro dvs
  induction dvs with
  | nil =>
    intro res h
    simp [getDefLoop] at h
    exact ⟨h.symm, fun r hr => by cases hr⟩
  | cons r rest ih =>
    intro res h
    cases hpat : r.Parts.get? 1 with
    | none => simp [getDefLoop, ← List.get?_eq_getElem?, hpat] at h
    | some pat =>
      cases hm : (S.IsMatchQ e pat EmptyPD).1 with
      | true => simp [getDefLoop, ← List.get?_eq_getElem?, hpat, hm] at h
      | false =>
        simp [getDefLoop, ← List.get?_eq_getElem?, hpat, hm] at h
        obtain ⟨hres, hall⟩ := ih res h
        refine ⟨hres, ?_⟩
        intro q hq
        rcases List.mem_cons.1 hq with rfl | hq
        · exact ⟨pat, hpat, hm⟩
        · exact hall q hq

/-- C18: `GetDef` uses the first matching rule in stored order.  On a name
without a Definition it reports `(nil, false)`.  When the rule list is
`pre ++ r :: post`, no pattern of `pre` matches `e` under the empty context
and the pattern of `r` does, it returns `ReplaceAll(e, r)` and `true`.  When
no stored pattern matches it reports `(nil, false)`, and on a name with a
Definition a `false` is reported in that case only.  Every return leaves the
store as it was. -/
theorem GetDef_first_match (S : StoreHelpers) (this : EvalState) (name : String) (e : Ex) :
    (this.defined name = none → this.GetDef S name e = some ((none, false), this)) ∧
    (∀ (d : Def) (pre : List Ex) (r : Ex) (post : List Ex),
      this.defined name = some d → d.downvalues = pre ++ r :: post →
      (∀ q ∈ pre, patternMatches S e q false) → patternMatches S e r true →
        this.GetDef S name e = some ((some (S.ReplaceAll e r EmptyPD), true), this)) ∧
    (∀ d : Def, this.defined name = some d →
      (∀ q ∈ d.downvalues, patternMatches S e q false) →
        this.GetDef S name e = some ((none, false), this)) ∧
    (∀ (d : Def) (res : Option Ex) (s : EvalState), this.defined name = some d →
      this.GetDef S name e = some ((res, false), s) →
        res = none ∧ ∀ q ∈ d.downvalues, patternMatches S e q false) ∧
    (∀ (out : Option Ex × Bool) (s : EvalState),
      this.GetDef S name e = some (out, s) → s = this) := by
  refine ⟨?_, ?_, ?_, ?_, ?_⟩
  · intro hd
    simp only [EvalState.GetDef, hd]
  · intro d pre r post hd hsplit hpre hr
    simp only [EvalState.GetDef, hd, hsplit, getDefLoop_hit S e r post hr pre hpre]
  · intro d hd hall
    simp only [EvalState.GetDef, hd, getDefLoop_miss S e d.downvalues hall]
  · intro d res s hd h
    simp only [EvalState.GetDef, hd] at h
    cases hl : getDefLoop S e d.downvalues with
    | none => simp [hl] at h
    | some out =>
      simp [hl] at h
      exact getDefLoop_false_inv S e d.downvalues res (by rw [hl, h.1])
  · intro out s h
    cases hd : this.defined name with
    | none =>
      simp [EvalState.GetDef, hd] at h
      exact h.2.symm
    | some d =>
      simp only [EvalState.GetDef, hd] at h
      cases hl : getDefLoop S e d.downvalues with
      | none => simp [hl] at h
      | some out1 =>
        simp [hl] at h
        exact h.2.symm

/-- The instance of C18 at the store that holds `f[x_] -> 2` and the
expression `f[5]`: the one rule matches and is applied. -/
theorem GetDef_first_match_witness :
    storeFBlank.defined "f" = some defFBlank ∧
    defFBlank.downvalues = [] ++ ruleExpression fBlank (.Integer 2) :: [] ∧
    patternMatches (specStoreHelpers 1) (.Expression [.Symbol "f", .Integer 5])
      (ruleExpression fBlank (.Integer 2)) true ∧
    storeFBlank.GetDef (specStoreHelpers 1) "f" (.Expression [.Symbol "f", .Integer 5]) =
      some ((some ((specStoreHelpers 1).ReplaceAll (.Expression [.Symbol "f", .Integer 5])
        (ruleExpression fBlank (.Integer 2)) EmptyPD), true), storeFBlank) ∧
    (specStoreHelpers 1).ReplaceAll (.Expression [.Symbol "f", .Integer 5])
        (ruleExpression fBlank (.Integer 2)) EmptyPD = .Integer 2 :=
  ⟨rfl, rfl, ⟨fBlank, rfl, by decide⟩,
    (GetDef_first_match (specStoreHelpers 1) storeFBlank "f"
      (.Expression [.Symbol "f", .Integer 5])).2.1 defFBlank []
      (ruleExpression fBlank (.Integer 2)) [] rfl rfl (fun q hq => by cases hq)
      ⟨fBlank, rfl, by decide⟩,
    rfl⟩

/-! ## C19 -/

theorem Clear_undefined (this : EvalState) (name : String) (h : this.defined name = none) :
    this.Clear name = this := by
  simp only [EvalState.Clear, h]

theorem Clear_defined_name (this : EvalState) (name : String) :
    (this.Clear name).defined name = none := by
  cases h : this.defined name with
  | none => rw [Clear_undefined this name h]; exact h
  | some d => simp [EvalState.Clear, h]

/-- C19: the effect of `Clear`.  After `Clear(name)` the store has no
Definition for `name`, so `GetDef(name, e)` reports `(nil, false)` for every
`e`; the Definition of every other name and the flag `NoInit` are unchanged;
on a name without a Definition `Clear` returns the store it was given; and a
second `Clear(name)` changes nothing. -/
theorem Clear_removes_definition (S : StoreHelpers) (this : EvalState) (name : String) :
    (this.Clear name).defined name = none ∧
    (∀ e, (this.Clear name).GetDef S name e = some ((none, false), this.Clear name)) ∧
    (∀ k, k ≠ name → (this.Clear name).defined k = this.defined k) ∧
    (this.Clear name).NoInit = this.NoInit ∧
    (this.defined name = none → this.Clear name = this) ∧
    (this.Clear name).Clear name = this.Clear name := by
  refine ⟨Clear_defined_name this name, ?_, ?_, ?_, Clear_undefined this name,
    Clear_undefined _ name (Clear_defined_name this name)⟩
  · intro e
    simp only [EvalState.GetDef, Clear_defined_name this name]
  · intro k hk
    cases h : this.defined name with
    | none => rw [Clear_undefined this name h]
    | some d => simp [EvalState.Clear, h, hk]
  · cases h : this.defined name with
    | none => rw [Clear_undefined this name h]
    | some d => simp [EvalState.Clear, h]

/-- The instance of C19 at the store that holds `f[x_] -> 2`: after
`Clear("f")` the name `f` has no Definition, and `Clear("g")` changes
nothing. -/
theorem Clear_removes_definition_witness :
    storeFBlank.defined "g" = none ∧
    (storeFBlank.Clear "f").defined "f" = none ∧
    storeFBlank.Clear "g" = storeFBlank :=
  ⟨rfl, (Clear_removes_definition (specStoreHelpers 1) storeFBlank "f").1,
    (Clear_removes_definition (specStoreHelpers 1) storeFBlank "g").2.2.2.2.1 rfl⟩

/-! ## C20 -/

/-- C20: the effect of `ClearAll`, for every loader `loadAll` of the built-in
definitions.  The result is that of `Init` on a store without contents, so it
does not depend on the Definitions the store held.  With `NoInit` true it is
the store without any Definition and `NoInit` true, whatever `Define` calls
made the store; with `NoInit` false it is what the loader makes of the empty
store.  When the loader keeps `NoInit`, so does `ClearAll`. -/
theorem ClearAll_resets_store (loadAll : EvalState → Option EvalState) (this : EvalState) :
    (∀ b, this.ClearAll loadAll = (emptyStore b).Init loadAll (!this.NoInit)) ∧
    (this.NoInit = true → this.ClearAll loadAll = some (emptyStore true)) ∧
    (∀ (S : StoreHelpers) (calls : List (String × Ex × Ex)) (s : EvalState),
      runDefines S (emptyStore true) calls = some s →
        s.ClearAll loadAll = some (emptyStore true) ∧
        ∀ name, (emptyStore true).defined name = none) ∧
    (this.NoInit = false → this.ClearAll loadAll = loadAll (emptyStore false)) ∧
    ((∀ s s1, loadAll s = some s1 → s1.NoInit = s.NoInit) →
      ∀ s1, this.ClearAll loadAll = some s1 → s1.NoInit = this.NoInit) := by
  have htrue : ∀ s : EvalState, s.NoInit = true → s.ClearAll loadAll = some (emptyStore true) := by
    intro s h
    simp [EvalState.ClearAll, EvalState.Init, emptyStore, h]
  have hfalse : this.NoInit = false → this.ClearAll loadAll = loadAll (emptyStore false) := by
    intro h
    simp [EvalState.ClearAll, EvalState.Init, emptyStore, h]
  refine ⟨?_, htrue this, ?_, hfalse, ?_⟩
  · intro b
    rfl
  · intro S calls s h
    exact ⟨htrue s (by rw [runDefines_NoInit S calls _ s h]; rfl), fun _ => rfl⟩
  · intro hload s1 h
    cases hn : this.NoInit with
    | true =>
      rw [htrue this hn] at h
      cases h
      rfl
    | false =>
      rw [hfalse hn] at h
      exact hload _ s1 h

/-- The instance of C20 at the store that holds `f[x_] -> 2`, made without the
built-in definitions: `ClearAll` leaves the empty store. -/
theorem ClearAll_resets_store_witness :
    storeFBlank.NoInit = true ∧
    storeFBlank.ClearAll (fun s => some s) = some (emptyStore true) :=
  ⟨rfl, (ClearAll_resets_store (fun s => some s) storeFBlank).2.1 rfl⟩

/-! ## Rational numbers: the result of `Eval` -/

theorem Rational_Eval_den_zero (r : Rational) (h : r.Den = 0) :
    r.Eval = some (if r.Num = 0 then NewSymbol "System`Indeterminate"
      else NewSymbol "System`ComplexInfinity") := by
  unfold Rational.Eval
  by_cases hn : r.Num = 0
  · simp [hn, h]
  · simp [hn, h]

theorem Rational_Eval_num_zero (r : Rational) (hn : r.Num = 0) (hd : r.Den ≠ 0) :
    r.Eval = some (NewInteger 0) := by
  unfold Rational.Eval
  simp [hn, hd]

theorem bigDiv_natCast (a g : Nat) (hg : g ≠ 0) :
    bigDiv (a : Int) (g : Int) = some ((a / g : Nat) : Int) := by
  unfold bigDiv
  rw [if_neg (by exact_mod_cast hg)]
  simp

theorem gcd_natAbs_ne_zero (r : Rational) (hn : r.Num ≠ 0) :
    Nat.gcd r.Num.natAbs r.Den.natAbs ≠ 0 := by
  intro h0
  rw [Nat.gcd_eq_zero_iff] at h0
  exact hn (Int.natAbs_eq_zero.1 h0.1)

theorem Rational_Eval_nonzero (r : Rational) (hn : r.Num ≠ 0) (hd : r.Den ≠ 0) :
    r.Eval = some
      (if reducedDen r = 1 then NewInteger (signedNum r)
       else .Rational (signedNum r) (reducedDen r : Int) false) := by
  have hg := gcd_natAbs_ne_zero r hn
  have hgcd : bigGCD (bigAbs r.Num) (bigAbs r.Den) =
      ((Nat.gcd r.Num.natAbs r.Den.natAbs : Nat) : Int) := by
    simp only [bigGCD, bigAbs, Int.gcd, Int.natAbs_ofNat]
  unfold Rational.Eval signedNum oneNegative reducedNum reducedDen
  rw [if_neg (fun h => hn h.1), if_neg hd, if_neg hn]
  simp only [hgcd]
  rw [show bigAbs r.Num = ((r.Num.natAbs : Nat) : Int) from rfl,
    show bigAbs r.Den = ((r.Den.natAbs : Nat) : Int) from rfl,
    bigDiv_natCast _ _ hg, bigDiv_natCast _ _ hg]
  simp only
  by_cases h1 : r.Den.natAbs / Nat.gcd r.Num.natAbs r.Den.natAbs = 1
  · have h1c : ((r.Den.natAbs / Nat.gcd r.Num.natAbs r.Den.natAbs : Nat) : Int) = 1 := by
      exact_mod_cast h1
    rw [if_pos h1c, if_pos h1]
    cases hs : (decide (r.Num < 0) != decide (r.Den < 0)) <;> simp
  · have h1c : ¬ ((r.Den.natAbs / Nat.gcd r.Num.natAbs r.Den.natAbs : Nat) : Int) = 1 := by
      exact_mod_cast h1
    rw [if_neg h1c, if_neg h1]
    cases hs : (decide (r.Num < 0) != decide (r.Den < 0)) <;> simp

theorem reducedNum_mul_gcd (r : Rational) :
    reducedNum r * Nat.gcd r.Num.natAbs r.Den.natAbs = r.Num.natAbs :=
  Nat.div_mul_cancel (Nat.gcd_dvd_left _ _)

theorem reducedDen_mul_gcd (r : Rational) :
    reducedDen r * Nat.gcd r.Num.natAbs r.Den.natAbs = r.Den.natAbs :=
  Nat.div_mul_cancel (Nat.gcd_dvd_right _ _)

theorem reducedNum_pos (r : Rational) (hn : r.Num ≠ 0) : 0 < reducedNum r := by
  have h := reducedNum_mul_gcd r
  have hA : 0 < r.Num.natAbs := Int.natAbs_pos.2 hn
  rcases Nat.eq_zero_or_pos (reducedNum r) with h0 | h0
  · rw [h0, Nat.zero_mul] at h
    omega
  · exact h0

theorem reducedDen_pos (r : Rational) (hd : r.Den ≠ 0) : 0 < reducedDen r := by
  have h := reducedDen_mul_gcd r
  have hA : 0 < r.Den.natAbs := Int.natAbs_pos.2 hd
  rcases Nat.eq_zero_or_pos (reducedDen r) with h0 | h0
  · rw [h0, Nat.zero_mul] at h
    omega
  · exact h0

theorem reduced_coprime (r : Rational) (hn : r.Num ≠ 0) :
    Nat.gcd (reducedNum r) (reducedDen r) = 1 :=
  Nat.coprime_div_gcd_div_gcd (Nat.pos_of_ne_zero (gcd_natAbs_ne_zero r hn))

theorem signedNum_natAbs (r : Rational) : (signedNum r).natAbs = reducedNum r := by
  unfold signedNum
  split <;> simp

theorem signedNum_mul_den (r : Rational) :
    signedNum r * r.Den = r.Num * (reducedDen r : Int) := by
  have hA := reducedNum_mul_gcd r
  have hC := reducedDen_mul_gcd r
  have hAi : (r.Num.natAbs : Int) =
      (reducedNum r : Int) * (Nat.gcd r.Num.natAbs r.Den.natAbs : Int) := by
    exact_mod_cast hA.symm
  have hCi : (r.Den.natAbs : Int) =
      (reducedDen r : Int) * (Nat.gcd r.Num.natAbs r.Den.natAbs : Int) := by
    exact_mod_cast hC.symm
  unfold signedNum oneNegative
  rcases lt_or_le r.Num 0 with h1 | h1 <;> rcases lt_or_le r.Den 0 with h2 | h2
  · have e1 : r.Num = -(r.Num.natAbs : Int) := by omega
    have e2 : r.Den = -(r.Den.natAbs : Int) := by omega
    simp only [h1, h2, decide_True, bne_self_eq_false, Bool.false_eq_true, if_false]
    rw [e1, e2, hAi, hCi]
    ring
  · have e1 : r.Num = -(r.Num.natAbs : Int) := by omega
    have e2 : r.Den = (r.Den.natAbs : Int) := by omega
    have h2n : ¬ r.Den < 0 := not_lt.2 h2
    simp only [h1, h2n, decide_True, decide_False, Bool.true_bne, Bool.not_false, if_true]
    rw [e1, e2, hAi, hCi]
    ring
  · have e1 : r.Num = (r.Num.natAbs : Int) := by omega
    have e2 : r.Den = -(r.Den.natAbs : Int) := by omega
    have h1n : ¬ r.Num < 0 := not_lt.2 h1
    simp only [h1n, h2, decide_True, decide_False, Bool.false_bne, if_true]
    rw [e1, e2, hAi, hCi]
    ring
  · have e1 : r.Num = (r.Num.natAbs : Int) := by omega
    have e2 : r.Den = (r.Den.natAbs : Int) := by omega
    have h1n : ¬ r.Num < 0 := not_lt.2 h1
    have h2n : ¬ r.Den < 0 := not_lt.2 h2
    simp only [h1n, h2n, decide_False, bne_self_eq_false, Bool.false_eq_true, if_false]
    rw [e1, e2, hAi, hCi]
    ring

theorem signedNum_neg_iff (r : Rational) (hn : r.Num ≠ 0) :
    signedNum r < 0 ↔ oneNegative r = true := by
  have hp := reducedNum_pos r hn
  unfold signedNum
  cases h : oneNegative r
  · simp
  · simp only [if_true]
    constructor
    · intro _; trivial
    · intro _; omega

theorem oneNegative_iff (r : Rational) :
    oneNegative r = true ↔ (r.Num < 0 ∧ ¬ r.Den < 0) ∨ (¬ r.Num < 0 ∧ r.Den < 0) := by
  unfold oneNegative
  by_cases h1 : r.Num < 0 <;> by_cases h2 : r.Den < 0 <;> simp [h1, h2]

theorem Rational_Eval_rational_inv (r : Rational) (n d : Int) (b : Bool)
    (h : r.Eval = some (.Rational n d b)) :
    r.Num ≠ 0 ∧ r.Den ≠ 0 ∧ reducedDen r ≠ 1 ∧ n = signedNum r ∧
      d = (reducedDen r : Int) ∧ b = false := by
  by_cases hd : r.Den = 0
  · rw [Rational_Eval_den_zero r hd] at h
    split at h <;> simp [NewSymbol] at h
  · by_cases hn : r.Num = 0
    · rw [Rational_Eval_num_zero r hn hd] at h
      simp [NewInteger] at h
    · rw [Rational_Eval_nonzero r hn hd] at h
      by_cases h1 : reducedDen r = 1
      · rw [if_pos h1] at h
        simp [NewInteger] at h
      · rw [if_neg h1] at h
        simp only [Option.some.injEq, Ex.Rational.injEq] at h
        exact ⟨hn, hd, h1, h.1.symm, h.2.1.symm, h.2.2.symm⟩

theorem Rational_Eval_integer_inv (r : Rational) (v : Int) (hd : r.Den ≠ 0)
    (h : r.Eval = some (.Integer v)) :
    (r.Num = 0 ∧ v = 0) ∨ (r.Num ≠ 0 ∧ reducedDen r = 1 ∧ v = signedNum r) := by
  by_cases hn : r.Num = 0
  · rw [Rational_Eval_num_zero r hn hd] at h
    simp only [NewInteger, Option.some.injEq, Ex.Integer.injEq] at h
    exact Or.inl ⟨hn, h.symm⟩
  · rw [Rational_Eval_nonzero r hn hd] at h
    by_cases h1 : reducedDen r = 1
    · rw [if_pos h1] at h
      simp only [NewInteger, Option.some.injEq, Ex.Integer.injEq] at h
      exact Or.inr ⟨hn, h1, h.symm⟩
    · rw [if_neg h1] at h
      simp at h

theorem reducedDen_eq_one_iff (r : Rational) (hn : r.Num ≠ 0) :
    reducedDen r = 1 ↔ r.Den ∣ r.Num := by
  have hC := reducedDen_mul_gcd r
  have hg := gcd_natAbs_ne_zero r hn
  rw [← Int.natAbs_dvd_natAbs]
  constructor
  · intro h1
    rw [h1, Nat.one_mul] at hC
    rw [← hC]
    exact Nat.gcd_dvd_left _ _
  · intro hdvd
    have hgc : Nat.gcd r.Num.natAbs r.Den.natAbs = r.Den.natAbs :=
      Nat.gcd_eq_right hdvd
    unfold reducedDen
    rw [hgc]
    exact Nat.div_self (Nat.pos_of_ne_zero (by rw [← hgc]; exact hg))

/-! ## C21 -/

/-- C21: `Eval` on a denominator zero.  For every `Rational` with `Den = 0`
the result is the symbol `Indeterminate` (of the context `System`) when
`Num = 0` and the symbol `ComplexInfinity` when `Num ≠ 0`; it is never a
`Rational` and never an `Integer`. -/
theorem Rational_Eval_zero_denominator (r : Rational) (h : r.Den = 0) :
    (r.Num = 0 → r.Eval = some (.Symbol "System`Indeterminate")) ∧
    (r.Num ≠ 0 → r.Eval = some (.Symbol "System`ComplexInfinity")) ∧
    (∀ n d b, r.Eval ≠ some (.Rational n d b)) ∧
    (∀ v, r.Eval ≠ some (.Integer v)) := by
  have he := Rational_Eval_den_zero r h
  refine ⟨fun hn => by rw [he, if_pos hn]; rfl, fun hn => by rw [he, if_neg hn]; rfl, ?_, ?_⟩
  · intro n d b hr
    rw [he] at hr
    split at hr <;> simp [NewSymbol] at hr
  · intro v hr
    rw [he] at hr
    split at hr <;> simp [NewSymbol] at hr

/-- The instances of C21 at `Rational(0, 0)` and `Rational(5, 0)`. -/
theorem Rational_Eval_zero_denominator_witness :
    (NewRational 0 0).Den = 0 ∧ (NewRational 5 0).Den = 0 ∧
    (NewRational 0 0).Eval = some (.Symbol "System`Indeterminate") ∧
    (NewRational 5 0).Eval = some (.Symbol "System`ComplexInfinity") :=
  ⟨rfl, rfl, (Rational_Eval_zero_denominator (NewRational 0 0) rfl).1 rfl,
    (Rational_Eval_zero_denominator (NewRational 5 0) rfl).2.1 (by decide)⟩

/-! ## C22 -/

/-- C22: `Eval` on a denominator other than zero returns, and the result is an
`Integer` if and only if `Den` divides `Num`; that `Integer` is the exact
quotient: its product with `Den` is `Num`, it is `Num / Den`, and it is `0`
when `Num = 0`. -/
theorem Rational_Eval_integer_iff (r : Rational) (h : r.Den ≠ 0) :
    (∃ e, r.Eval = some e) ∧
    ((∃ v, r.Eval = some (.Integer v)) ↔ r.Den ∣ r.Num) ∧
    (∀ v, r.Eval = some (.Integer v) → v * r.Den = r.Num ∧ v = r.Num / r.Den) ∧
    (r.Num = 0 → r.Eval = some (.Integer 0)) := by
  have hval : ∀ v, r.Eval = some (.Integer v) → v * r.Den = r.Num := by
    intro v hv
    rcases Rational_Eval_integer_inv r v h hv with ⟨hn, hv0⟩ | ⟨_, h1, hvs⟩
    · rw [hv0, hn, Int.zero_mul]
    · rw [hvs, signedNum_mul_den, h1]
      simp
  refine ⟨?_, ?_, ?_, fun hn => Rational_Eval_num_zero r hn h⟩
  · by_cases hn : r.Num = 0
    · exact ⟨_, Rational_Eval_num_zero r hn h⟩
    · exact ⟨_, Rational_Eval_nonzero r hn h⟩
  · constructor
    · rintro ⟨v, hv⟩
      exact ⟨v, by rw [← hval v hv, Int.mul_comm]⟩
    · intro hdvd
      by_cases hn : r.Num = 0
      · exact ⟨0, Rational_Eval_num_zero r hn h⟩
      · refine ⟨signedNum r, ?_⟩
        rw [Rational_Eval_nonzero r hn h, if_pos ((reducedDen_eq_one_iff r hn).2 hdvd)]
        rfl
  · intro v hv
    have hm := hval v hv
    exact ⟨hm, by rw [← hm, Int.mul_ediv_cancel _ h]⟩

/-- The instance of C22 at `Rational(4, 2)`, which evaluates to `Integer 2`. -/
theorem Rational_Eval_integer_iff_witness :
    (NewRational 4 2).Den ≠ 0 ∧
    (NewRational 4 2).Eval = some (.Integer 2) ∧
    (2 : Int) * (NewRational 4 2).Den = (NewRational 4 2).Num ∧
    (2 : Int) = (NewRational 4 2).Num / (NewRational 4 2).Den :=
  ⟨by decide, rfl,
    (Rational_Eval_integer_iff (NewRational 4 2) (by decide)).2.2.1 2 rfl⟩

/-! ## C23 -/

/-- C23: the normal form.  Whenever `Eval` returns a `Rational` with the
fields `n`, `d`, `b`, it is in lowest terms (`gcd(|n|, d) = 1`), its
denominator is greater than `1`, its numerator is not `0`, and `needsEval` is
false. -/
theorem Rational_Eval_normal_form (r : Rational) (n d : Int) (b : Bool)
    (h : r.Eval = some (.Rational n d b)) :
    Int.gcd n d = 1 ∧ 1 < d ∧ n ≠ 0 ∧ b = false := by
  obtain ⟨hn, hd, h1, hn', hd', hb⟩ := Rational_Eval_rational_inv r n d b h
  have hcop := reduced_coprime r hn
  have hnp := reducedNum_pos r hn
  have hdp := reducedDen_pos r hd
  have hgcd : Nat.gcd n.natAbs d.natAbs = 1 := by
    rw [hn', hd', signedNum_natAbs, Int.natAbs_ofNat]
    exact hcop
  refine ⟨hgcd, ?_, ?_, hb⟩
  · rw [hd']
    omega
  · intro h0
    have := signedNum_natAbs r
    rw [← hn', h0] at this
    simp at this
    omega

/-- The instance of C23 at `Rational(-4, 6)`, which evaluates to
`Rational(-2, 3)`. -/
theorem Rational_Eval_normal_form_witness :
    (NewRational (-4) 6).Eval = some (.Rational (-2) 3 false) ∧
    Int.gcd (-2) 3 = 1 ∧
    (1 : Int) < 3 ∧ (-2 : Int) ≠ 0 ∧ false = false :=
  ⟨rfl, Rational_Eval_normal_form (NewRational (-4) 6) (-2) 3 false rfl⟩

/-! ## C24 -/

/-- C24: normalization keeps the value.  When `Eval` returns a `Rational` with
the fields `n`, `d` (which it only does for `Den ≠ 0`), then
`n * Den = Num * d`, and `n` is negative exactly when exactly one of `Num`,
`Den` is negative. -/
theorem Rational_Eval_preserves_value (r : Rational) (n d : Int) (b : Bool)
    (h : r.Eval = some (.Rational n d b)) :
    r.Den ≠ 0 ∧ n * r.Den = r.Num * d ∧
    (n < 0 ↔ (r.Num < 0 ∧ ¬ r.Den < 0) ∨ (¬ r.Num < 0 ∧ r.Den < 0)) := by
  obtain ⟨hn, hden, _, hn1, hd1, _⟩ := Rational_Eval_rational_inv r n d b h
  refine ⟨hden, by rw [hn1, hd1, signedNum_mul_den], ?_⟩
  rw [hn1, signedNum_neg_iff r hn, oneNegative_iff]

/-- The instance of C24 at `Rational(4, -6)`, which evaluates to
`Rational(-2, 3)`. -/
theorem Rational_Eval_preserves_value_witness :
    (NewRational 4 (-6)).Eval = some (.Rational (-2) 3 false) ∧
    (NewRational 4 (-6)).Den ≠ 0 ∧
    (-2 : Int) * (NewRational 4 (-6)).Den = (NewRational 4 (-6)).Num * 3 ∧
    ((-2 : Int) < 0 ↔ ((NewRational 4 (-6)).Num < 0 ∧ ¬ (NewRational 4 (-6)).Den < 0) ∨
      (¬ (NewRational 4 (-6)).Num < 0 ∧ (NewRational 4 (-6)).Den < 0)) :=
  ⟨rfl, Rational_Eval_preserves_value (NewRational 4 (-6)) (-2) 3 false rfl⟩

/-! ## C25 -/

theorem Rational_Eval_of_normal (n d : Int) (b : Bool)
    (hgcd : Nat.gcd n.natAbs d.natAbs = 1) (hd : 1 < d) (hn : n ≠ 0) :
    (Rational.mk n d b).Eval = some (.Rational n d false) := by
  have hd0 : d ≠ 0 := by omega
  have hdn : ¬ d < 0 := by omega
  have hdabs : (d.natAbs : Int) = d := by omega
  rw [Rational_Eval_nonzero ⟨n, d, b⟩ hn hd0]
  have hrd : reducedDen ⟨n, d, b⟩ = d.natAbs := by
    simp only [reducedDen, hgcd, Nat.div_one]
  have hrn : reducedNum ⟨n, d, b⟩ = n.natAbs := by
    simp only [reducedNum, hgcd, Nat.div_one]
  have hne : ¬ reducedDen ⟨n, d, b⟩ = 1 := by
    rw [hrd]
    omega
  have hs : signedNum ⟨n, d, b⟩ = n := by
    unfold signedNum oneNegative
    rw [hrn]
    by_cases h1 : n < 0
    · simp only [h1, hdn, decide_True, decide_False, Bool.true_bne, Bool.not_false, if_true]
      omega
    · simp only [h1, hdn, decide_False, bne_self_eq_false, Bool.false_eq_true, if_false]
      omega
  rw [if_neg hne, hs, hrd, hdabs]

/-- C25: normalization is idempotent.  When `Eval` on `r` returns a
`Rational` with the fields `n`, `d`, `b`, then `Eval` on that `Rational`
returns a `Rational` with the same `n` and `d`, with `needsEval` false, and
`IsEqual` of the one to the other is `EQUAL_TRUE`. -/
theorem Rational_Eval_idempotent (r : Rational) (n d : Int) (b : Bool)
    (h : r.Eval = some (.Rational n d b)) :
    (Rational.mk n d b).Eval = some (.Rational n d false) ∧
    (Rational.mk n d b).IsEqual (.Rational n d false) = "EQUAL_TRUE" ∧
    (Rational.mk n d false).IsEqual (.Rational n d b) = "EQUAL_TRUE" := by
  obtain ⟨hn, hd, h1, hn', hd', hb⟩ := Rational_Eval_rational_inv r n d b h
  have hcop := reduced_coprime r hn
  have hnp := reducedNum_pos r hn
  have hdp := reducedDen_pos r hd
  refine ⟨Rational_Eval_of_normal n d b ?_ ?_ ?_, by simp [Rational.IsEqual],
    by simp [Rational.IsEqual]⟩
  · rw [hn', hd', signedNum_natAbs, Int.natAbs_ofNat]
    exact hcop
  · rw [hd']
    omega
  · intro h0
    have := signedNum_natAbs r
    rw [← hn', h0] at this
    simp at this
    omega

/-- The instance of C25 at `Rational(-4, 6)`: its normal form `Rational(-2, 3)`
evaluates to itself. -/
theorem Rational_Eval_idempotent_witness :
    (NewRational (-4) 6).Eval = some (.Rational (-2) 3 false) ∧
    (Rational.mk (-2) 3 false).Eval = some (.Rational (-2) 3 false) ∧
    (Rational.mk (-2) 3 false).IsEqual (.Rational (-2) 3 false) = "EQUAL_TRUE" ∧
    (Rational.mk (-2) 3 false).IsEqual (.Rational (-2) 3 false) = "EQUAL_TRUE" :=
  ⟨rfl, Rational_Eval_idempotent (NewRational (-4) 6) (-2) 3 false rfl⟩

/-! ## Binding contexts behind pointers: the two loops -/

theorem PDManager_ext (a b : PDManager)
    (h : ∀ k, a.patternDefined k = b.patternDefined k) : a = b := by
  cases a
  cases b
  congr 1
  funext k
  exact h k

theorem Update_lookup (ctx additions : PDManager) (k : String) :
    (ctx.Update additions).patternDefined k =
      match additions.patternDefined k with
      | some v => some v
      | none => ctx.patternDefined k := rfl

theorem Update_EmptyPD (ctx : PDManager) : ctx.Update EmptyPD = ctx :=
  PDManager_ext _ _ (fun _ => rfl)

theorem Update_self (ctx : PDManager) : ctx.Update ctx = ctx := by
  apply PDManager_ext
  intro k
  rw [Update_lookup]
  cases h : ctx.patternDefined k <;> rfl

theorem Update_Update (ctx additions : PDManager) :
    (ctx.Update additions).Update additions = ctx.Update additions := by
  apply PDManager_ext
  intro k
  rw [Update_lookup, Update_lookup]
  cases h : additions.patternDefined k <;> rfl

theorem updateLoop_lookup (m : PDManager) :
    ∀ (entries : List (String × Ex)) (pm : PDManager),
      (∀ k v, (k, v) ∈ entries → m.patternDefined k = some v) →
      ∀ k, (∀ v, (k, v) ∈ entries → (updateLoop pm entries).patternDefined k = some v) ∧
        ((∀ v, (k, v) ∉ entries) →
          (updateLoop pm entries).patternDefined k = pm.patternDefined k) := by
  intro entries
  induction entries with
  | nil =>
    intro pm _ k
    exact ⟨(fun v hv => by cases hv), fun _ => rfl⟩
  | cons e rest ih =>
    intro pm hcons k
    obtain ⟨k0, v0⟩ := e
    have hrest : ∀ k v, (k, v) ∈ rest → m.patternDefined k = some v := fun k v hv =>
      hcons k v (List.mem_cons_of_mem _ hv)
    obtain ⟨ih1, ih2⟩ := ih (pm.set k0 v0) hrest k
    have hfun : ∀ v w, (k, v) ∈ (k0, v0) :: rest → (k, w) ∈ (k0, v0) :: rest → v = w := by
      intro v w hv hw
      have h1 := hcons k v hv
      have h2 := hcons k w hw
      rw [h1] at h2
      exact Option.some.inj h2
    constructor
    · intro v hv
      show (updateLoop (pm.set k0 v0) rest).patternDefined k = some v
      by_cases hin : ∃ w, (k, w) ∈ rest
      · obtain ⟨w, hw⟩ := hin
        rw [ih1 w hw, hfun v w hv (List.mem_cons_of_mem _ hw)]
      · have hnot : ∀ w, (k, w) ∉ rest := fun w hw => hin ⟨w, hw⟩
        rw [ih2 hnot]
        rcases List.mem_cons.1 hv with heq | hv1
        · cases heq
          simp [PDManager.set]
        · exact absurd hv1 (hnot v)
    · intro hnot
      show (updateLoop (pm.set k0 v0) rest).patternDefined k = pm.patternDefined k
      rw [ih2 (fun w hw => hnot w (List.mem_cons_of_mem _ hw))]
      have hk : k ≠ k0 := by
        intro heq
        subst heq
        exact hnot v0 (List.mem_cons_self _ _)
      simp [PDManager.set, hk]

theorem updateLoop_enumerates (pm additions : PDManager) (entries : List (String × Ex))
    (henum : enumerates entries additions) :
    updateLoop pm entries = pm.Update additions := by
  apply PDManager_ext
  intro k
  obtain ⟨h1, h2⟩ := updateLoop_lookup additions entries pm (fun k v hv => (henum k v).1 hv) k
  rw [Update_lookup]
  cases hk : additions.patternDefined k with
  | some v => exact h1 v ((henum k v).2 hk)
  | none =>
    apply h2
    intro v hv
    have := (henum k v).1 hv
    rw [hk] at this
    cases this

theorem enumerates_EmptyPD (entries : List (String × Ex))
    (henum : enumerates entries EmptyPD) : entries = [] := by
  cases entries with
  | nil => rfl
  | cons e rest =>
    obtain ⟨k, v⟩ := e
    have := (henum k v).1 (List.mem_cons_self _ _)
    cases this

theorem store_cell_same (h : PDHeap) (a : Nat) (pm : PDManager) :
    (h.store a pm).cell a = some pm := by
  simp [PDHeap.store]

theorem store_cell_other (h : PDHeap) (a b : Nat) (pm : PDManager) (hb : b ≠ a) :
    (h.store a pm).cell b = h.cell b := by
  simp [PDHeap.store, hb]

theorem assignAll_spec (f : Ex → Ex) (this : Nat) :
    ∀ (entries : List (String × Ex)) (h : PDHeap) (pm : PDManager),
      h.cell this = some pm →
      ∃ h1, PDHeap.assignAll f this h entries = some h1 ∧
        h1.cell this = some (updateLoop pm (entries.map (fun kv => (kv.1, f kv.2)))) ∧
        (∀ b, b ≠ this → h1.cell b = h.cell b) ∧ h1.next = h.next := by
  intro entries
  induction entries with
  | nil =>
    intro h pm hpm
    exact ⟨h, rfl, hpm, fun _ _ => rfl, rfl⟩
  | cons e rest ih =>
    intro h pm hpm
    obtain ⟨k, v⟩ := e
    obtain ⟨h1, hrun, hcell, hframe, hnext⟩ :=
      ih (h.store this (pm.set k (f v))) (pm.set k (f v)) (store_cell_same _ _ _)
    refine ⟨h1, ?_, hcell, ?_, hnext⟩
    · simp only [PDHeap.assignAll, hpm]
      exact hrun
    · intro b hb
      rw [hframe b hb, store_cell_other _ _ _ _ hb]

theorem assignAll_frame (f : Ex → Ex) (this : Nat) :
    ∀ (entries : List (String × Ex)) (h h1 : PDHeap),
      PDHeap.assignAll f this h entries = some h1 →
      ∀ b, b ≠ this → h1.cell b = h.cell b := by
  intro entries
  induction entries with
  | nil =>
    intro h h1 hrun b _
    simp only [PDHeap.assignAll, Option.some.injEq] at hrun
    rw [hrun]
  | cons e rest ih =>
    intro h h1 hrun b hb
    obtain ⟨k, v⟩ := e
    cases hpm : h.cell this with
    | none => simp [PDHeap.assignAll, hpm] at hrun
    | some pm =>
      simp only [PDHeap.assignAll, hpm] at hrun
      rw [ih _ _ hrun b hb, store_cell_other _ _ _ _ hb]

theorem PDHeap_Update_spec (h : PDHeap) (this toAdd : Nat) (ctx additions : PDManager)
    (entries : List (String × Ex))
    (hthis : h.cell this = some ctx) (hadd : h.cell toAdd = some additions)
    (henum : enumerates entries additions) :
    ∃ h1, h.Update this toAdd entries = some h1 ∧
      h1.cell this = some (ctx.Update additions) ∧
      h1.cell toAdd = some additions ∧
      (∀ b, b ≠ this → h1.cell b = h.cell b) ∧ h1.next = h.next := by
  obtain ⟨h1, hrun, hcell, hframe, hnext⟩ := assignAll_spec (fun v => v) this entries h ctx hthis
  have hmap : entries.map (fun kv => (kv.1, (fun v : Ex => v) kv.2)) = entries := by
    simp
  rw [hmap, updateLoop_enumerates ctx additions entries henum] at hcell
  refine ⟨h1, by simp only [PDHeap.Update, hadd]; exact hrun, hcell, ?_, hframe, hnext⟩
  by_cases hsame : toAdd = this
  · subst hsame
    rw [hthis] at hadd
    cases hadd
    rw [hcell, Update_self]
  · rw [hframe toAdd hsame, hadd]

/-! ## C26 -/

/-- C26: `Update` is last-write-wins.  Let the pointer `this` hold the context
`ctx` and `toAdd` hold `additions`, and let the loop meet the entries of
`additions` in any order `entries`.  Then `Update` returns, and afterwards
`this` holds the context that binds a name `k` to the value of `additions`
when `additions` binds `k` and to the value of `ctx` (or to none) otherwise;
`toAdd` holds `additions` as before, and so does every other pointer its
object.  With the empty context for `additions` the heap is unchanged, and a
second `Update` with the same arguments changes no object. -/
theorem Update_last_write_wins (h : PDHeap) (this toAdd : Nat) (ctx additions : PDManager)
    (entries : List (String × Ex))
    (hthis : h.cell this = some ctx) (hadd : h.cell toAdd = some additions)
    (henum : enumerates entries additions) :
    ∃ h1 ctx1, h.Update this toAdd entries = some h1 ∧
      h1.cell this = some ctx1 ∧
      (∀ k, ctx1.patternDefined k =
        match additions.patternDefined k with
        | some v => some v
        | none => ctx.patternDefined k) ∧
      ctx1 = ctx.Update additions ∧
      h1.cell toAdd = some additions ∧
      (∀ b, b ≠ this → h1.cell b = h.cell b) ∧
      (additions = EmptyPD → h1 = h ∧ ctx1 = ctx) ∧
      ∃ h2, h1.Update this toAdd entries = some h2 ∧ ∀ b, h2.cell b = h1.cell b := by
  obtain ⟨h1, hrun, hcell, hadd1, hframe, _⟩ :=
    PDHeap_Update_spec h this toAdd ctx additions entries hthis hadd henum
  obtain ⟨h2, hrun2, hcell2, _, hframe2, _⟩ :=
    PDHeap_Update_spec h1 this toAdd (ctx.Update additions) additions entries hcell hadd1 henum
  refine ⟨h1, ctx.Update additions, hrun, hcell, fun k => Update_lookup ctx additions k, rfl,
    hadd1, hframe, ?_, h2, hrun2, ?_⟩
  · intro hempty
    subst hempty
    have hnil := enumerates_EmptyPD entries henum
    subst hnil
    simp only [PDHeap.Update, hadd, PDHeap.assignAll, Option.some.injEq] at hrun
    exact ⟨hrun.symm, Update_EmptyPD ctx⟩
  · intro b
    by_cases hb : b = this
    · subst hb
      rw [hcell2, hcell, Update_Update]
    · exact hframe2 b hb

theorem enumerates_pdXBYC :
    enumerates [("y", Ex.Symbol "c"), ("x", Ex.Symbol "b")] pdXBYC := by
  intro k v
  by_cases hy : k = "y"
  · subst hy
    simp [pdXBYC, PDManager.set, EmptyPD, eq_comm]
  · by_cases hx : k = "x"
    · subst hx
      simp [pdXBYC, PDManager.set, EmptyPD, eq_comm]
    · simp [pdXBYC, PDManager.set, EmptyPD, hx, hy]

/-- The instance of C26 at the heap `heapTwo`: the context at the address 0,
which binds `x` to `a`, is updated with the one at the address 1, which binds
`x` to `b` and `y` to `c`. -/
theorem Update_last_write_wins_witness :
    heapTwo.cell 0 = some pdXA ∧ heapTwo.cell 1 = some pdXBYC ∧
    enumerates [("y", Ex.Symbol "c"), ("x", Ex.Symbol "b")] pdXBYC ∧
    ∃ h1 ctx1, heapTwo.Update 0 1 [("y", Ex.Symbol "c"), ("x", Ex.Symbol "b")] = some h1 ∧
      h1.cell 0 = some ctx1 ∧
      (∀ k, ctx1.patternDefined k =
        match pdXBYC.patternDefined k with
        | some v => some v
        | none => pdXA.patternDefined k) ∧
      ctx1 = pdXA.Update pdXBYC ∧
      h1.cell 1 = some pdXBYC ∧
      (∀ b, b ≠ 0 → h1.cell b = heapTwo.cell b) ∧
      (pdXBYC = EmptyPD → h1 = heapTwo ∧ ctx1 = pdXA) ∧
      ∃ h2, h1.Update 0 1 [("y", Ex.Symbol "c"), ("x", Ex.Symbol "b")] = some h2 ∧
        ∀ b, h2.cell b = h1.cell b :=
  ⟨rfl, rfl, enumerates_pdXBYC,
    Update_last_write_wins heapTwo 0 1 pdXA pdXBYC _ rfl rfl enumerates_pdXBYC⟩

/-! ## C27 -/

theorem EmptyPD_Update (ctx : PDManager) : EmptyPD.Update ctx = ctx := by
  apply PDManager_ext
  intro k
  rw [Update_lookup]
  cases h : ctx.patternDefined k <;> rfl

/-- C27: `CopyPD` makes an independent copy.  In a well-formed heap let the
pointer `orig` hold the context `ctx`, and let the loop meet its entries in
any order `entries`.  Then `CopyPD` returns a pointer `dest` that was not
allocated, so it is not `orig`; the object it holds binds exactly the names
of `ctx`, each to the value `ctx` gives it; every other pointer holds the
object it held, `orig` among them; and neither an `Update` of the copy nor an
assignment of a binding in it changes the object of `orig`. -/
theorem CopyPD_independent (h : PDHeap) (orig : Nat) (ctx : PDManager)
    (entries : List (String × Ex))
    (hwf : h.wellFormed) (horig : h.cell orig = some ctx)
    (henum : enumerates entries ctx) :
    ∃ dest h1 copy, h.CopyPD orig entries = some (dest, h1) ∧
      dest ≠ orig ∧ h.cell dest = none ∧
      h1.cell dest = some copy ∧
      (∀ k, copy.patternDefined k = ctx.patternDefined k) ∧
      copy = CopyPD ctx ∧
      (∀ b, b ≠ dest → h1.cell b = h.cell b) ∧
      h1.cell orig = some ctx ∧
      (∀ toAdd entries2 h2, h1.Update dest toAdd entries2 = some h2 →
        h2.cell orig = some ctx) ∧
      (∀ k v, (h1.store dest (copy.set k v)).cell orig = some ctx) := by
  have hfresh : h.cell h.next = none := hwf h.next (Nat.le_refl _)
  have hne : h.next ≠ orig := by
    intro heq
    rw [heq, horig] at hfresh
    cases hfresh
  have hne2 : orig ≠ h.next := fun heq => hne heq.symm
  have h0dest : (h.EmptyPD).2.cell h.next = some EmptyPD := by
    simp [PDHeap.EmptyPD]
  have h0other : ∀ b, b ≠ h.next → (h.EmptyPD).2.cell b = h.cell b := by
    intro b hb
    simp [PDHeap.EmptyPD, hb]
  obtain ⟨h1, hrun, hcell, hframe, _⟩ :=
    assignAll_spec Ex.DeepCopy h.next entries (h.EmptyPD).2 EmptyPD h0dest
  have hmap : entries.map (fun kv => (kv.1, Ex.DeepCopy kv.2)) = entries := by
    simp [Ex.DeepCopy]
  rw [hmap, updateLoop_enumerates EmptyPD ctx entries henum, EmptyPD_Update] at hcell
  have horig1 : h1.cell orig = some ctx := by
    rw [hframe orig hne2, h0other orig hne2, horig]
  refine ⟨h.next, h1, ctx, ?_, hne, hfresh, hcell, fun _ => rfl, (CopyPD_eq ctx).symm, ?_,
    horig1, ?_, ?_⟩
  · have hc : (h.EmptyPD).2.cell orig = some ctx := by
      rw [h0other orig hne2, horig]
    have hd : (h.EmptyPD).1 = h.next := rfl
    simp only [PDHeap.CopyPD, hc, hd, hrun]
  · intro b hb
    rw [hframe b hb, h0other b hb]
  · intro toAdd entries2 h2 hrun2
    unfold PDHeap.Update at hrun2
    cases hta : h1.cell toAdd with
    | none => simp [hta] at hrun2
    | some pm =>
      simp only [hta] at hrun2
      rw [assignAll_frame _ _ _ _ _ hrun2 orig hne2, horig1]
  · intro k v
    rw [store_cell_other _ _ _ _ hne2, horig1]

theorem heapTwo_wellFormed : heapTwo.wellFormed := by
  intro a ha
  have h0 : a ≠ 0 := by
    have : heapTwo.next = 2 := rfl
    omega
  have h1 : a ≠ 1 := by
    have : heapTwo.next = 2 := rfl
    omega
  simp [heapTwo, h0, h1]

/-- The instance of C27 at the heap `heapTwo` and the pointer 1, which holds the
context that binds `x` to `b` and `y` to `c`. -/
theorem CopyPD_independent_witness :
    heapTwo.wellFormed ∧ heapTwo.cell 1 = some pdXBYC ∧
    enumerates [("y", Ex.Symbol "c"), ("x", Ex.Symbol "b")] pdXBYC ∧
    ∃ dest h1 copy,
      heapTwo.CopyPD 1 [("y", Ex.Symbol "c"), ("x", Ex.Symbol "b")] = some (dest, h1) ∧
      dest ≠ 1 ∧ heapTwo.cell dest = none ∧
      h1.cell dest = some copy ∧
      (∀ k, copy.patternDefined k = pdXBYC.patternDefined k) ∧
      copy = CopyPD pdXBYC ∧
      (∀ b, b ≠ dest → h1.cell b = heapTwo.cell b) ∧
      h1.cell 1 = some pdXBYC ∧
      (∀ toAdd entries2 h2, h1.Update dest toAdd entries2 = some h2 →
        h2.cell 1 = some pdXBYC) ∧
      (∀ k v, (h1.store dest (copy.set k v)).cell 1 = some pdXBYC) :=
  ⟨heapTwo_wellFormed, rfl, enumerates_pdXBYC,
    CopyPD_independent heapTwo 1 pdXBYC _ heapTwo_wellFormed rfl enumerates_pdXBYC⟩

/-! ## The listing of the built-in definitions: the duplicate check -/

theorem checkDefs_some (ds : List Definition) :
    ∀ (definedNames : String → Option Bool),
      (ds.map (fun d => d.Name)).Nodup →
      (∀ k, k ∈ ds.map (fun d => d.Name) → definedNames k = none) →
      ∃ names1, checkDefs definedNames ds = some names1 ∧
        ∀ k, (names1 k).isSome = true ↔
          ((definedNames k).isSome = true ∨ k ∈ ds.map (fun d => d.Name)) := by
  induction ds with
  | nil =>
    intro definedNames _ _
    exact ⟨definedNames, rfl, fun k => by simp⟩
  | cons d rest ih =>
    intro definedNames hnd hfresh
    rw [List.map_cons, List.nodup_cons] at hnd
    have hd : definedNames d.Name = none := hfresh d.Name (by simp)
    obtain ⟨names1, hrun, hkeys⟩ :=
      ih (fun k => if k = d.Name then some true else definedNames k) hnd.2 (by
        intro k hk
        have hne : k ≠ d.Name := fun heq => hnd.1 (heq ▸ hk)
        simp only [if_neg hne]
        exact hfresh k (by simp [List.mem_map] at hk ⊢; exact Or.inr hk))
    refine ⟨names1, ?_, ?_⟩
    · simp only [checkDefs, hd, Option.isSome_none, Bool.false_eq_true, if_false]
      exact hrun
    · intro k
      rw [hkeys k]
      by_cases hk : k = d.Name
      · simp [hk]
      · simp [hk]

theorem checkDefs_inv (ds : List Definition) :
    ∀ (definedNames names1 : String → Option Bool),
      checkDefs definedNames ds = some names1 →
      (ds.map (fun d => d.Name)).Nodup ∧
      (∀ k, k ∈ ds.map (fun d => d.Name) → definedNames k = none) := by
  induction ds with
  | nil =>
    intro _ _ _
    exact ⟨List.nodup_nil, fun k hk => by cases hk⟩
  | cons d rest ih =>
    intro definedNames names1 hrun
    cases hd : definedNames d.Name with
    | some b => simp [checkDefs, hd] at hrun
    | none =>
      simp only [checkDefs, hd, Option.isSome_none, Bool.false_eq_true, if_false] at hrun
      obtain ⟨hnd, hfresh⟩ := ih _ _ hrun
      have hnotin : d.Name ∉ rest.map (fun d => d.Name) := by
        intro hin
        have := hfresh d.Name hin
        simp at this
      refine ⟨by rw [List.map_cons, List.nodup_cons]; exact ⟨hnotin, hnd⟩, ?_⟩
      intro k hk
      rw [List.map_cons, List.mem_cons] at hk
      rcases hk with rfl | hk
      · exact hd
      · have hne : k ≠ d.Name := fun heq => hnotin (heq ▸ hk)
        have := hfresh k hk
        simpa [hne] using this

theorem checkDefSets_some (defs : List NamedDefSet) :
    ∀ (definedNames : String → Option Bool),
      (allNames defs).Nodup →
      (∀ k, k ∈ allNames defs → definedNames k = none) →
      ∃ names1, checkDefSets definedNames defs = some names1 := by
  induction defs with
  | nil =>
    intro definedNames _ _
    exact ⟨definedNames, rfl⟩
  | cons s rest ih =>
    intro definedNames hnd hfresh
    simp only [allNames, List.flatMap_cons] at hnd hfresh
    rw [List.nodup_append] at hnd
    obtain ⟨hnd1, hnd2, hdisj⟩ := hnd
    obtain ⟨names1, hrun, hkeys⟩ := checkDefs_some s.Defs definedNames hnd1
      (fun k hk => hfresh k (List.mem_append_left _ hk))
    obtain ⟨names2, hrun2⟩ := ih names1 hnd2 (by
      intro k hk
      cases hn : names1 k with
      | none => rfl
      | some b =>
        have hsome : (names1 k).isSome = true := by rw [hn]; rfl
        rcases (hkeys k).1 hsome with h1 | h1
        · rw [hfresh k (List.mem_append_right _ hk)] at h1
          cases h1
        · exact absurd hk (fun hk2 => hdisj h1 hk2))
    exact ⟨names2, by simp only [checkDefSets, hrun]; exact hrun2⟩

theorem checkDefSets_inv (defs : List NamedDefSet) :
    ∀ (definedNames names1 : String → Option Bool),
      checkDefSets definedNames defs = some names1 →
      (allNames defs).Nodup ∧ ∀ k, k ∈ allNames defs → definedNames k = none := by
  induction defs with
  | nil =>
    intro _ _ _
    exact ⟨List.nodup_nil, fun k hk => by cases hk⟩
  | cons s rest ih =>
    intro definedNames names1 hrun
    cases hs : checkDefs definedNames s.Defs with
    | none => simp [checkDefSets, hs] at hrun
    | some names0 =>
      simp only [checkDefSets, hs] at hrun
      obtain ⟨hnd1, hfresh1⟩ := checkDefs_inv s.Defs definedNames names0 hs
      obtain ⟨_, hrun0, hkeys⟩ := checkDefs_some s.Defs definedNames hnd1 hfresh1
      rw [hs] at hrun0
      cases hrun0
      obtain ⟨hnd2, hfresh2⟩ := ih names0 names1 hrun
      have hnone : ∀ k, k ∈ allNames rest →
          definedNames k = none ∧ k ∉ s.Defs.map (fun d => d.Name) := by
        intro k hk
        have h0 := hfresh2 k hk
        have hnot : ¬ (names0 k).isSome = true := by rw [h0]; simp
        rw [hkeys k] at hnot
        constructor
        · cases hd : definedNames k with
          | none => rfl
          | some b => exact absurd (Or.inl (by rw [hd]; rfl)) hnot
        · exact fun hin => hnot (Or.inr hin)
      simp only [allNames, List.flatMap_cons]
      refine ⟨List.nodup_append.2 ⟨hnd1, hnd2, ?_⟩, ?_⟩
      · intro k hk1 hk2
        exact (hnone k hk2).2 hk1
      · intro k hk
        rcases List.mem_append.1 hk with h1 | h1
        · exact hfresh1 k h1
        · exact (hnone k h1).1

/-! ## C28 -/

/-- C28: duplicate registration is rejected.  `GetAllDefinitions` aborts if
and only if the names of all the definitions of all the sets, taken together,
hold some name twice (in two sets or twice in one set); when no name occurs
twice it returns the nineteen sets in the order of the listing. -/
theorem GetAllDefinitions_rejects_duplicates (G : DefinitionGetters) :
    (GetAllDefinitions G = none ↔ ¬ (allNames (listedDefinitions G)).Nodup) ∧
    (GetAllDefinitions G = none ↔
      ∃ name, 2 ≤ (allNames (listedDefinitions G)).count name) ∧
    ((allNames (listedDefinitions G)).Nodup →
      GetAllDefinitions G = some (listedDefinitions G)) ∧
    (listedDefinitions G).map (fun defSet => defSet.Name) =
      ["combinatorics", "calculus", "comparison", "constants", "expression", "flowcontrol",
       "list", "order", "plus", "power", "random", "replacement", "sort", "symbol", "system",
       "string", "time", "times", "pattern"] := by
  have hok : (allNames (listedDefinitions G)).Nodup →
      GetAllDefinitions G = some (listedDefinitions G) := by
    intro hnd
    obtain ⟨names1, hrun⟩ :=
      checkDefSets_some (listedDefinitions G) (fun _ => none) hnd (fun _ _ => rfl)
    simp only [GetAllDefinitions, hrun]
  have hiff : GetAllDefinitions G = none ↔ ¬ (allNames (listedDefinitions G)).Nodup := by
    constructor
    · intro hnone hnd
      rw [hok hnd] at hnone
      cases hnone
    · intro hnd
      cases hrun : checkDefSets (fun _ => none) (listedDefinitions G) with
      | none => simp only [GetAllDefinitions, hrun]
      | some names1 => exact absurd (checkDefSets_inv _ _ _ hrun).1 hnd
  refine ⟨hiff, ?_, hok, rfl⟩
  rw [hiff, List.nodup_iff_count_le_one]
  constructor
  · intro h
    by_contra hne
    apply h
    intro a
    by_contra ha
    exact hne ⟨a, by omega⟩
  · rintro ⟨name, hname⟩ h
    have := h name
    omega

/-- The instances of C28 at the getters that return `Plus` for the module
`plus` and `Plus`, `Times` for the module `times` (an abort), and `Plus` and
`Times`, one each (the listing is returned). -/
theorem GetAllDefinitions_rejects_duplicates_witness :
    (allNames (listedDefinitions
      (gettersOf [Definition.named "Plus"] [Definition.named "Times"]))).Nodup ∧
    GetAllDefinitions (gettersOf [Definition.named "Plus"] [Definition.named "Times"]) =
      some (listedDefinitions
        (gettersOf [Definition.named "Plus"] [Definition.named "Times"])) ∧
    GetAllDefinitions (gettersOf [Definition.named "Plus"]
      [Definition.named "Plus", Definition.named "Times"]) = none :=
  ⟨by decide,
    (GetAllDefinitions_rejects_duplicates
      (gettersOf [Definition.named "Plus"] [Definition.named "Times"])).2.2.1 (by decide),
    (GetAllDefinitions_rejects_duplicates (gettersOf [Definition.named "Plus"]
      [Definition.named "Plus", Definition.named "Times"])).1.2 (by decide)⟩

/-! ## C29 -/

/-- C29: the native evaluator of `Rational`.  It is the `legacyEvalFn` of the
definition named `Rational` in `getAtomsDefinitions`.  On an expression of a
head and two `Integer` arguments `n`, `d` its result is
`NewRational(n, d).Eval`; on every other input it returns the input, and it
never panics on these. -/
theorem rationalEvalFn_result (this : Ex) :
    (getAtomsDefinitions.find? (fun d => d.Name = "Rational")).map
        (fun d => d.legacyEvalFn.isSome) = some true ∧
    ((∀ head n d, this ≠ .Expression [head, .Integer n, .Integer d]) →
      rationalEvalFn this = some this) ∧
    (this.Parts.length ≠ 3 → rationalEvalFn this = some this) ∧
    (∀ head n d, this = .Expression [head, .Integer n, .Integer d] →
      rationalEvalFn this = (NewRational n d).Eval) := by
  refine ⟨rfl, ?_, ?_, ?_⟩
  · intro hne
    cases this with
    | Expression ps =>
      match ps with
      | [] => rfl
      | [_] => rfl
      | [_, _] => rfl
      | _ :: _ :: _ :: _ :: _ => rfl
      | [head, p1, p2] =>
        cases p1 <;> cases p2 <;> first | rfl | exact absurd rfl (hne _ _ _)
    | _ => rfl
  · intro hlen
    unfold rationalEvalFn
    rw [if_pos hlen]
  · intro head n d heq
    subst heq
    rfl

/-- The instances of C29 at `Rational[4, 2]`, `Rational[1, 0]`, and at
`Rational[4]`, which has one argument. -/
theorem rationalEvalFn_result_witness :
    rationalEvalFn (.Expression [.Symbol "Rational", .Integer 4, .Integer 2]) =
      (NewRational 4 2).Eval ∧
    (NewRational 4 2).Eval = some (.Integer 2) ∧
    rationalEvalFn (.Expression [.Symbol "Rational", .Integer 1, .Integer 0]) =
      some (.Symbol "System`ComplexInfinity") ∧
    rationalEvalFn (.Expression [.Symbol "Rational", .Integer 4]) =
      some (.Expression [.Symbol "Rational", .Integer 4]) :=
  ⟨(rationalEvalFn_result (.Expression [.Symbol "Rational", .Integer 4, .Integer 2])).2.2.2
      (.Symbol "Rational") 4 2 rfl,
    rfl, rfl,
    (rationalEvalFn_result (.Expression [.Symbol "Rational", .Integer 4])).2.2.1 (by decide)⟩

/-! ## C30 -/

theorem Parts_length_two (this : Ex) (h : this.Parts.length = 2) :
    ∃ head p1, this = .Expression [head, p1] := by
  cases this with
  | Expression ps =>
    match ps, h with
    | [head, p1], _ => exact ⟨head, p1, rfl⟩
  | _ => simp [Ex.Parts] at h

theorem Parts_length_three (this : Ex) (h : this.Parts.length = 3) :
    ∃ head p1 p2, this = .Expression [head, p1, p2] := by
  cases this with
  | Expression ps =>
    match ps, h with
    | [head, p1, p2], _ => exact ⟨head, p1, p2, rfl⟩
  | _ => simp [Ex.Parts] at h

/-- C30: the evaluators of the predicates.  For every predicate `fn`, the
evaluator of `singleParamQEval` and that of `singleParamQLogEval` return the
input when it does not have exactly one argument, and on an expression of a
head and one argument the symbol `True` (of the context `System`) if `fn`
holds of the argument and the symbol `False` if not; `doubleParamQLogEval` does
the same with two arguments.  None of them panics. -/
theorem paramQEval_result (fn : Ex → Bool) (fn2 : Ex → Ex → Bool) (this : Ex) :
    (this.Parts.length ≠ 2 →
      singleParamQEval fn this = some this ∧ singleParamQLogEval fn this = some this) ∧
    (∀ head p1, this = .Expression [head, p1] →
      singleParamQEval fn this =
        some (.Symbol (if fn p1 = true then "System`True" else "System`False")) ∧
      singleParamQLogEval fn this =
        some (.Symbol (if fn p1 = true then "System`True" else "System`False"))) ∧
    (this.Parts.length ≠ 3 → doubleParamQLogEval fn2 this = some this) ∧
    (∀ head p1 p2, this = .Expression [head, p1, p2] →
      doubleParamQLogEval fn2 this =
        some (.Symbol (if fn2 p1 p2 = true then "System`True" else "System`False"))) ∧
    (this.Parts.length = 2 → ∃ head p1, this = .Expression [head, p1]) ∧
    (this.Parts.length = 3 → ∃ head p1 p2, this = .Expression [head, p1, p2]) := by
  refine ⟨?_, ?_, ?_, ?_, Parts_length_two this, Parts_length_three this⟩
  · intro hlen
    unfold singleParamQEval singleParamQLogEval
    rw [if_pos hlen]
    exact ⟨rfl, rfl⟩
  · intro head p1 heq
    subst heq
    cases h : fn p1 <;> simp [singleParamQEval, singleParamQLogEval, Ex.Parts, NewSymbol, h]
  · intro hlen
    unfold doubleParamQLogEval
    rw [if_pos hlen]
  · intro head p1 p2 heq
    subst heq
    cases h : fn2 p1 p2 <;> simp [doubleParamQLogEval, Ex.Parts, NewSymbol, h]

/-- The instances of C30 at the predicate `trueQ`: on `TrueQ[True]`, on
`TrueQ[x]`, and on `TrueQ[True, True]`, which has two arguments. -/
theorem paramQEval_result_witness :
    singleParamQLogEval trueQ (.Expression [.Symbol "TrueQ", .Symbol "System`True"]) =
      some (.Symbol "System`True") ∧
    singleParamQLogEval trueQ (.Expression [.Symbol "TrueQ", .Symbol "x"]) =
      some (.Symbol "System`False") ∧
    singleParamQLogEval trueQ
        (.Expression [.Symbol "TrueQ", .Symbol "System`True", .Symbol "System`True"]) =
      some (.Expression [.Symbol "TrueQ", .Symbol "System`True", .Symbol "System`True"]) :=
  ⟨((paramQEval_result trueQ (fun _ _ => true)
      (.Expression [.Symbol "TrueQ", .Symbol "System`True"])).2.1
      (.Symbol "TrueQ") (.Symbol "System`True") rfl).2,
    rfl,
    ((paramQEval_result trueQ (fun _ _ => true)
      (.Expression [.Symbol "TrueQ", .Symbol "System`True", .Symbol "System`True"])).1
      (by decide)).2⟩

/-! ## The window search: bounds and termination -/

theorem copyFrom_length (xs : List Ex) :
    ∀ (count : Nat) (k : Int) (w : List Ex), copyFrom xs count k = some w →
      w.length = count := by
  intro count
  induction count with
  | zero =>
    intro k w h
    simp only [copyFrom, Option.some.injEq] at h
    rw [← h]
    rfl
  | succ count ih =>
    intro k w h
    unfold copyFrom at h
    by_cases hk : k < 0
    · rw [if_pos hk] at h
      cases h
    · rw [if_neg hk] at h
      cases hx : xs.get? k.toNat with
      | none =>
        rw [hx] at h
        cases h
      | some x =>
        rw [hx] at h
        cases hr : copyFrom xs count (k + 1) with
        | none =>
          rw [hr] at h
          cases h
        | some rest =>
          rw [hr] at h
          simp only [Option.some.injEq] at h
          rw [← h, List.length_cons, ih (k + 1) rest hr]

theorem copyRange_length (xs : List Ex) (lo hi : Int) (w : List Ex)
    (h : copyRange xs lo hi = some w) : 0 ≤ hi - lo ∧ (w.length : Int) = hi - lo := by
  unfold copyRange at h
  by_cases hneg : hi - lo < 0
  · rw [if_pos hneg] at h
    cases h
  · rw [if_neg hneg] at h
    have := copyFrom_length xs _ _ _ h
    omega

theorem copyRange_window (cs : List Ex) (i : Nat) (j : Int)
    (hlo : (i : Int) - 1 ≤ j) (hhi : j < cs.length) :
    0 ≤ j - i + 1 ∧ 0 ≤ (cs.length : Int) - j - 1 ∧
    (∃ w, copyRange cs i (j + 1) = some w ∧ (w.length : Int) = j - i + 1) ∧
    (∃ rem, copyRange cs (j + 1) cs.length = some rem ∧
      (rem.length : Int) = cs.length - j - 1) := by
  obtain ⟨n, hn⟩ : ∃ n : Nat, j + 1 = ((i + n : Nat) : Int) :=
    ⟨(j + 1 - i).toNat, by omega⟩
  have hle : i + n ≤ cs.length := by omega
  refine ⟨by omega, by omega, ?_, ?_⟩
  · rw [hn]
    have h := copyRange_eq cs i (i + n) (by omega) hle
    exact ⟨_, h, by have := (copyRange_length cs _ _ _ h).2; omega⟩
  · rw [hn]
    have h := copyRange_drop cs (i + n) hle
    exact ⟨_, h, by have := (copyRange_length cs _ _ _ h).2; omega⟩

theorem windowLoop_total_bounded (body : Nat → Option (Option (Bool × PDManager)))
    (pm : PDManager) :
    ∀ (todo n0 : Nat), (∀ d, d < todo → ∃ r, body (n0 + d) = some r) →
      ∃ r, windowLoop body pm todo n0 = some r := by
  intro todo
  induction todo with
  | zero => intro _ _; exact ⟨_, rfl⟩
  | succ todo ih =>
    intro n0 hbody
    obtain ⟨r, hr⟩ := hbody 0 (Nat.succ_pos _)
    unfold windowLoop
    rw [Nat.add_zero] at hr
    rw [hr]
    cases r with
    | none =>
      exact ih (n0 + 1) (fun d hd => by
        have := hbody (d + 1) (by omega)
        rwa [show n0 + (d + 1) = n0 + 1 + d by omega] at this)
    | some r => exact ⟨r, rfl⟩

theorem windowIteration_total (H : Helpers)
    (self : List Ex → List Ex → PDManager → Option (Bool × PDManager))
    (hself : ∀ cs1 ps1 pm1, ∃ r, self cs1 ps1 pm1 = some r)
    (t : SeqTest) (cs R : List Ex) (i : Nat) (pm : PDManager) (j : Int)
    (hlo : (i : Int) - 1 ≤ j) (hhi : j < cs.length) :
    ∃ r, windowIteration H self t cs R i pm j = some r := by
  obtain ⟨_, _, ⟨w, hw, _⟩, ⟨rem, hrem, _⟩⟩ := copyRange_window cs i j hlo hhi
  obtain ⟨⟨b, pm2⟩, hr⟩ := hself rem R pm
  unfold windowIteration
  simp only [hw, hrem, hr]
  split <;> split <;> exact ⟨_, rfl⟩

theorem positionLoop_total (H : Helpers)
    (self : List Ex → List Ex → PDManager → Option (Bool × PDManager))
    (hself : ∀ cs1 ps1 pm1, ∃ r, self cs1 ps1 pm1 = some r)
    (cs ps : List Ex) (hwf : ∀ p ∈ ps, wellFormedPattern p = true) :
    ∀ (todo i : Nat) (progressI : Int) (pm : PDManager), i ≤ cs.length →
      ∃ r, positionLoop H self cs ps todo i progressI pm = some r := by
  intro todo
  induction todo with
  | zero =>
    intro i progressI pm _
    unfold positionLoop
    split <;> exact ⟨_, rfl⟩
  | succ todo ih =>
    intro i progressI pm hi
    unfold positionLoop
    by_cases hip : i ≥ ps.length
    · rw [if_pos hip]
      exact ⟨_, rfl⟩
    · rw [if_neg hip]
      have hlt : i < ps.length := by omega
      rw [List.get?_eq_get hlt]
      obtain ⟨t, ht⟩ := seqTest_of_wellFormed (ps.get ⟨i, hlt⟩) (hwf _ (List.get_mem _ _ _))
      simp only [ht]
      by_cases hw : (t.isBns || t.isBs) = true
      · rw [if_pos hw]
        have hR : copyRange ps ((i : Int) + 1) ps.length = some (ps.drop (i + 1)) := by
          have := copyRange_drop ps (i + 1) (by omega)
          simpa using this
        simp only [hR]
        apply windowLoop_total_bounded
        intro d hd
        apply windowIteration_total H self hself t cs _ i pm _
        · split <;> omega
        · split at hd <;> split <;> omega
      · rw [if_neg hw]
        by_cases hic : i ≥ cs.length
        · rw [if_pos hic]
          exact ⟨_, rfl⟩
        · rw [if_neg hic]
          have hlt2 : i < cs.length := by omega
          rw [List.get?_eq_get hlt2]
          simp only
          split
          · exact ih (i + 1) i _ (by omega)
          · exact ⟨_, rfl⟩

/-! ## C31 -/

/-- C31: `NonOrderlessIsMatchQ` never indexes out of range.  In the embedding
every index into a slice and every size given to `make` is checked, and a
violation is the result `none`.  For a pattern list whose `Pattern` elements
have their two arguments the call returns a result.  The loop over `i`
returns a result from every index `i ≤ len(components)`, which is the only
way it is entered and which it keeps (a position that is not a wildcard moves
on only when `i < len(components)`).  At such an `i` and for every `j` of the
window search, from `i - 1` (which is `-1` at position 0) up to
`len(components) - 1`, the window size `j - i + 1` and the remainder size
`len(components) - j - 1` are not negative and the two copies read indices of
`components` only. -/
theorem NonOrderlessIsMatchQ_in_bounds (H : Helpers) (cs ps : List Ex) (pm : PDManager)
    (hwf : ∀ p ∈ ps, wellFormedPattern p = true) :
    (∃ r, NonOrderlessIsMatchQ H cs ps pm = some r) ∧
    (∀ (self : List Ex → List Ex → PDManager → Option (Bool × PDManager))
      (todo i : Nat) (progressI : Int) (pm1 : PDManager),
      (∀ cs1 ps1 pm2, ∃ r, self cs1 ps1 pm2 = some r) → i ≤ cs.length →
        ∃ r, positionLoop H self cs ps todo i progressI pm1 = some r) ∧
    (∀ (i : Nat) (j : Int), (i : Int) - 1 ≤ j → j < cs.length →
      i ≤ cs.length ∧ 0 ≤ j - i + 1 ∧ 0 ≤ (cs.length : Int) - j - 1 ∧
      (∃ w, copyRange cs i (j + 1) = some w ∧ (w.length : Int) = j - i + 1) ∧
      (∃ rem, copyRange cs (j + 1) cs.length = some rem ∧
        (rem.length : Int) = cs.length - j - 1)) :=
  ⟨NOIMQ_total H cs ps pm hwf,
    fun self todo i progressI pm1 hself hi =>
      positionLoop_total H self hself cs ps hwf todo i progressI pm1 hi,
    fun i j hlo hhi => ⟨by omega, copyRange_window cs i j hlo hhi⟩⟩

/-- The instance of C31 at the components `{a}` and the pattern list
`{x___, a}`, where the window search starts at `j = -1`. -/
theorem NonOrderlessIsMatchQ_in_bounds_witness :
    (∀ p ∈ [Ex.Expression [.Symbol "Pattern", .Symbol "x",
        .Expression [.Symbol "BlankNullSequence"]], Ex.Symbol "a"],
      wellFormedPattern p = true) ∧
    (∃ r, NonOrderlessIsMatchQ (specHelpers 1) [.Symbol "a"]
      [.Expression [.Symbol "Pattern", .Symbol "x", .Expression [.Symbol "BlankNullSequence"]],
        .Symbol "a"] EmptyPD = some r) ∧
    (NonOrderlessIsMatchQ (specHelpers 1) [.Symbol "a"]
      [.Expression [.Symbol "Pattern", .Symbol "x", .Expression [.Symbol "BlankNullSequence"]],
        .Symbol "a"] EmptyPD).map Prod.fst = some true :=
  ⟨by decide,
    (NonOrderlessIsMatchQ_in_bounds (specHelpers 1) [.Symbol "a"]
      [.Expression [.Symbol "Pattern", .Symbol "x", .Expression [.Symbol "BlankNullSequence"]],
        .Symbol "a"] EmptyPD (by decide)).1,
    by decide⟩

/-! ## C32 -/

/-- C32: `NonOrderlessIsMatchQ` terminates.  The recursive call of line 622 is
made on `remainingLhs`, the copy of the elements after position `i`, which is
strictly shorter than the pattern list of the caller; so a bound on the
nesting of the calls greater than the length of the pattern list is never
used up: the call computes the same with every such bound, namely the
recursion on the pattern list `positionalMatch`, which Lean accepts as
structural.  The callees `IsMatchQ` and the window element test are total
functions of the embedding.  With well-formed `Pattern` elements the result
is a value and not a panic. -/
theorem NonOrderlessIsMatchQ_terminates (H : Helpers) (cs ps : List Ex) (pm : PDManager) :
    (∀ depth, ps.length < depth →
      NonOrderlessIsMatchQ.go H depth cs ps pm = positionalMatch H cs ps pm) ∧
    (∀ depth, ps.length < depth →
      NonOrderlessIsMatchQ.go H depth cs ps pm = NonOrderlessIsMatchQ H cs ps pm) ∧
    (∀ (i : Nat) (remainingLhs : List Ex),
      copyRange ps ((i : Int) + 1) ps.length = some remainingLhs →
        remainingLhs.length < ps.length) ∧
    ((∀ p ∈ ps, wellFormedPattern p = true) → ∀ depth, ps.length < depth →
      ∃ r, NonOrderlessIsMatchQ.go H depth cs ps pm = some r) := by
  have h1 : ∀ depth, ps.length < depth →
      NonOrderlessIsMatchQ.go H depth cs ps pm = positionalMatch H cs ps pm :=
    fun depth hd => go_eq_positionalMatch H depth cs ps pm hd
  have h2 : ∀ depth, ps.length < depth →
      NonOrderlessIsMatchQ.go H depth cs ps pm = NonOrderlessIsMatchQ H cs ps pm :=
    fun depth hd => by rw [h1 depth hd, NonOrderlessIsMatchQ_eq_positionalMatch]
  refine ⟨h1, h2, ?_, ?_⟩
  · intro i R hR
    have := copyRange_length ps _ _ _ hR
    omega
  · intro hwf depth hd
    rw [h2 depth hd]
    exact NOIMQ_total H cs ps pm hwf

/-- The instance of C32 at the components `{a}` and the pattern list
`{x___, a}`: the bounds 3 and 10 on the nesting give the same result. -/
theorem NonOrderlessIsMatchQ_terminates_witness :
    NonOrderlessIsMatchQ.go (specHelpers 1) 10 [.Symbol "a"]
      [.Expression [.Symbol "Pattern", .Symbol "x", .Expression [.Symbol "BlankNullSequence"]],
        .Symbol "a"] EmptyPD =
    NonOrderlessIsMatchQ (specHelpers 1) [.Symbol "a"]
      [.Expression [.Symbol "Pattern", .Symbol "x", .Expression [.Symbol "BlankNullSequence"]],
        .Symbol "a"] EmptyPD :=
  (NonOrderlessIsMatchQ_terminates (specHelpers 1) [.Symbol "a"]
    [.Expression [.Symbol "Pattern", .Symbol "x", .Expression [.Symbol "BlankNullSequence"]],
      .Symbol "a"] EmptyPD).2.1 10 (by decide)

/-! ## C34 -/

/-- C34: on normalized rationals `IsEqual` is equality of values.  For two
`Rational`s in lowest terms with positive denominators, `IsEqual` gives
`EQUAL_TRUE` if and only if `Num1 * Den2 = Num2 * Den1`, which is to say that
they denote the same rational number; it gives `EQUAL_FALSE` otherwise, and
`EQUAL_FALSE` on every expression that is not a `Rational`. -/
theorem Rational_IsEqual_normalized (a b : Rational)
    (ha : a.normalized) (hb : b.normalized) :
    (a.IsEqual b.toEx = "EQUAL_TRUE" ↔ a.Num * b.Den = b.Num * a.Den) ∧
    (a.IsEqual b.toEx = "EQUAL_TRUE" ↔ a.value = b.value) ∧
    (a.IsEqual b.toEx = "EQUAL_TRUE" ∨ a.IsEqual b.toEx = "EQUAL_FALSE") ∧
    (∀ other : Ex, (∀ n d e, other ≠ .Rational n d e) →
      a.IsEqual other = "EQUAL_FALSE") := by
  obtain ⟨hga, hda⟩ := ha
  obtain ⟨hgb, hdb⟩ := hb
  have hiff : a.IsEqual b.toEx = "EQUAL_TRUE" ↔ (a.Num = b.Num ∧ a.Den = b.Den) := by
    unfold Rational.IsEqual Rational.toEx
    by_cases h : a.Num ≠ b.Num ∨ a.Den ≠ b.Den
    · simp only [h, if_true]
      constructor
      · intro hc
        exact absurd hc (by decide)
      · rintro ⟨h1, h2⟩
        rcases h with h | h
        · exact absurd h1 h
        · exact absurd h2 h
    · simp only [h, if_false, true_iff]
      push_neg at h
      exact h
  have hcross : a.Num * b.Den = b.Num * a.Den → a.Num = b.Num ∧ a.Den = b.Den := by
    intro hx
    have hca : IsCoprime a.Num a.Den := Int.isCoprime_iff_gcd_eq_one.2 hga
    have hcb : IsCoprime b.Num b.Den := Int.isCoprime_iff_gcd_eq_one.2 hgb
    have h1 : a.Den ∣ b.Den := by
      have : a.Den ∣ a.Num * b.Den := ⟨b.Num, by rw [hx]; ring⟩
      exact hca.symm.dvd_of_dvd_mul_left this
    have h2 : b.Den ∣ a.Den := by
      have : b.Den ∣ b.Num * a.Den := ⟨a.Num, by rw [← hx]; ring⟩
      exact hcb.symm.dvd_of_dvd_mul_left this
    have hden : a.Den = b.Den :=
      le_antisymm (Int.le_of_dvd hdb h1) (Int.le_of_dvd hda h2)
    refine ⟨?_, hden⟩
    rw [hden] at hx
    exact mul_right_cancel₀ (ne_of_gt hdb) hx
  have hval : a.value = b.value ↔ a.Num * b.Den = b.Num * a.Den := by
    unfold Rational.value
    have h1 : (a.Den : ℚ) ≠ 0 := by exact_mod_cast ne_of_gt hda
    have h2 : (b.Den : ℚ) ≠ 0 := by exact_mod_cast ne_of_gt hdb
    rw [div_eq_div_iff h1 h2]
    constructor
    · intro h
      exact_mod_cast h
    · intro h
      exact_mod_cast h
  refine ⟨?_, ?_, ?_, ?_⟩
  · rw [hiff]
    constructor
    · rintro ⟨h1, h2⟩
      rw [h1, h2]
    · exact hcross
  · rw [hiff, hval]
    constructor
    · rintro ⟨h1, h2⟩
      rw [h1, h2]
    · exact hcross
  · unfold Rational.IsEqual Rational.toEx
    by_cases h : a.Num ≠ b.Num ∨ a.Den ≠ b.Den
    · right
      simp only [h, if_true]
    · left
      simp only [h, if_false]
  · intro other hne
    cases other with
    | Rational n d e => exact absurd rfl (hne n d e)
    | _ => rfl

/-- The instance of C34 at `1/2` and `1/2` (equal) and `1/2` and `1/3`. -/
theorem Rational_IsEqual_normalized_witness :
    (Rational.mk 1 2 false).normalized ∧ (Rational.mk 1 3 false).normalized ∧
    (Rational.mk 1 2 false).IsEqual (Rational.mk 1 2 true).toEx = "EQUAL_TRUE" ∧
    ((Rational.mk 1 2 false).IsEqual (Rational.mk 1 3 false).toEx = "EQUAL_TRUE" ↔
      (1 : Int) * 3 = 1 * 2) :=
  ⟨⟨by decide, by decide⟩, ⟨by decide, by decide⟩, rfl,
    (Rational_IsEqual_normalized ⟨1, 2, false⟩ ⟨1, 3, false⟩ ⟨by decide, by decide⟩
      ⟨by decide, by decide⟩).1⟩

/-! ## C35 -/

theorem RatHeap_setInt_same (h : RatHeap) (p : Nat) (v : Int) :
    (h.setInt p v).int p = some v := by
  simp [RatHeap.setInt]

theorem RatHeap_setInt_other (h : RatHeap) (p q : Nat) (v : Int) (hq : q ≠ p) :
    (h.setInt p v).int q = h.int q := by
  simp [RatHeap.setInt, hq]

theorem RatHeap_setInt_rat (h : RatHeap) (p : Nat) (v : Int) :
    (h.setInt p v).rat = h.rat := rfl

theorem RatHeap_read_inv (h : RatHeap) (p : Nat) (o : RationalObj) (a : Rational)
    (ho : h.rat p = some o) (ha : h.read p = some a) :
    h.int o.Num = some a.Num ∧ h.int o.Den = some a.Den ∧ a.needsEval = o.needsEval := by
  unfold RatHeap.read at ha
  rw [ho] at ha
  cases hn : h.int o.Num with
  | none => simp [hn] at ha
  | some n =>
    cases hd : h.int o.Den with
    | none => simp [hn, hd] at ha
    | some d =>
      simp only [hn, hd, Option.some.injEq] at ha
      subst ha
      exact ⟨rfl, rfl, rfl⟩

theorem RatHeap_read_of (h : RatHeap) (p : Nat) (o : RationalObj) (n d : Int)
    (ho : h.rat p = some o) (hn : h.int o.Num = some n) (hd : h.int o.Den = some d) :
    h.read p = some ⟨n, d, o.needsEval⟩ := by
  unfold RatHeap.read
  rw [ho]
  simp only [hn, hd]

/-- C35, with the condition that the code needs: in-place rational arithmetic
is exact when the receiver and the argument share no `big.Int`.  Let the
pointers `this` and `r` hold the fractions `a` and `b`, both with a
denominator other than zero, and let the numerator and the denominator of
`this` be two `big.Int` objects neither of which is the numerator or the
denominator of `r`.  Then `AddR` returns and leaves in `this` the numerator
`a.Num * b.Den + a.Den * b.Num` over the denominator `a.Den * b.Den`, a
fraction whose value is the sum of the two values; `MulR` leaves the product;
in both cases `r` holds `b` as before, the new denominator is not zero, and no
other `big.Int` and no `Rational` struct is written. -/
theorem Rational_AddR_MulR_exact (h : RatHeap) (this r : Nat) (ta tb : RationalObj)
    (a b : Rational)
    (hthis : h.rat this = some ta) (hr : h.rat r = some tb)
    (hra : h.read this = some a) (hrb : h.read r = some b)
    (hnd : ta.Num ≠ ta.Den) (hnn : ta.Num ≠ tb.Num) (hnd2 : ta.Num ≠ tb.Den)
    (hdn : ta.Den ≠ tb.Num) (hdd : ta.Den ≠ tb.Den)
    (ha : a.Den ≠ 0) (hb : b.Den ≠ 0) :
    (∃ h1 a1, h.AddR this r = some h1 ∧ h1.read this = some a1 ∧
      a1.Num = a.Num * b.Den + a.Den * b.Num ∧ a1.Den = a.Den * b.Den ∧
      a1.value = a.value + b.value ∧ a1.Den ≠ 0 ∧ h1.read r = some b ∧
      h1.rat = h.rat ∧ ∀ p, p ≠ ta.Num → p ≠ ta.Den → h1.int p = h.int p) ∧
    (∃ h1 a1, h.MulR this r = some h1 ∧ h1.read this = some a1 ∧
      a1.Num = a.Num * b.Num ∧ a1.Den = a.Den * b.Den ∧
      a1.value = a.value * b.value ∧ a1.Den ≠ 0 ∧ h1.read r = some b ∧
      h1.rat = h.rat ∧ ∀ p, p ≠ ta.Num → p ≠ ta.Den → h1.int p = h.int p) := by
  obtain ⟨han, had, hae⟩ := RatHeap_read_inv h this ta a hthis hra
  obtain ⟨hbn, hbd, hbe⟩ := RatHeap_read_inv h r tb b hr hrb
  have haq : (a.Den : ℚ) ≠ 0 := by exact_mod_cast ha
  have hbq : (b.Den : ℚ) ≠ 0 := by exact_mod_cast hb
  have hb_eq : (some b : Option Rational) = some ⟨b.Num, b.Den, tb.needsEval⟩ := by
    rw [← hbe]
  have hadd : h.AddR this r = some
      (((h.setInt ta.Den (a.Den * b.Den)).setInt ta.Num (a.Num * b.Den)).setInt ta.Num
        (a.Num * b.Den + a.Den * b.Num)) := by
    simp only [RatHeap.AddR, RatHeap.Mul, hthis, hr, had, hbn, hbd, han,
      RatHeap_setInt_same, RatHeap_setInt_other _ _ _ _ hnd,
      RatHeap_setInt_other _ _ _ _ hdd.symm]
  have hmul : h.MulR this r = some
      ((h.setInt ta.Num (a.Num * b.Num)).setInt ta.Den (a.Den * b.Den)) := by
    simp only [RatHeap.MulR, RatHeap.Mul, hthis, hr, had, hbn, hbd, han,
      RatHeap_setInt_other _ _ _ _ (Ne.symm hnd), RatHeap_setInt_other _ _ _ _ hnd2.symm]
  constructor
  · refine ⟨_, ⟨a.Num * b.Den + a.Den * b.Num, a.Den * b.Den, ta.needsEval⟩, hadd, ?_,
      rfl, rfl, ?_, mul_ne_zero ha hb, ?_, rfl, ?_⟩
    · refine RatHeap_read_of _ _ _ _ _ (by exact hthis) ?_ ?_
      · exact RatHeap_setInt_same _ _ _
      · rw [RatHeap_setInt_other _ _ _ _ (Ne.symm hnd),
          RatHeap_setInt_other _ _ _ _ (Ne.symm hnd), RatHeap_setInt_same]
    · simp only [Rational.value]
      push_cast
      field_simp
      ring
    · rw [hb_eq]
      refine RatHeap_read_of _ _ _ _ _ (by exact hr) ?_ ?_
      · rw [RatHeap_setInt_other _ _ _ _ hnn.symm, RatHeap_setInt_other _ _ _ _ hnn.symm,
          RatHeap_setInt_other _ _ _ _ hdn.symm, hbn]
      · rw [RatHeap_setInt_other _ _ _ _ hnd2.symm, RatHeap_setInt_other _ _ _ _ hnd2.symm,
          RatHeap_setInt_other _ _ _ _ hdd.symm, hbd]
    · intro p hp1 hp2
      rw [RatHeap_setInt_other _ _ _ _ hp1, RatHeap_setInt_other _ _ _ _ hp1,
        RatHeap_setInt_other _ _ _ _ hp2]
  · refine ⟨_, ⟨a.Num * b.Num, a.Den * b.Den, ta.needsEval⟩, hmul, ?_,
      rfl, rfl, ?_, mul_ne_zero ha hb, ?_, rfl, ?_⟩
    · refine RatHeap_read_of _ _ _ _ _ (by exact hthis) ?_ ?_
      · rw [RatHeap_setInt_other _ _ _ _ hnd, RatHeap_setInt_same]
      · exact RatHeap_setInt_same _ _ _
    · simp only [Rational.value]
      push_cast
      field_simp
    · rw [hb_eq]
      refine RatHeap_read_of _ _ _ _ _ (by exact hr) ?_ ?_
      · rw [RatHeap_setInt_other _ _ _ _ hdn.symm, RatHeap_setInt_other _ _ _ _ hnn.symm, hbn]
      · rw [RatHeap_setInt_other _ _ _ _ hdd.symm, RatHeap_setInt_other _ _ _ _ hnd2.symm, hbd]
    · intro p hp1 hp2
      rw [RatHeap_setInt_other _ _ _ _ hp2, RatHeap_setInt_other _ _ _ _ hp1]

/-- The instance of C35 at the heap that holds `1/2` at the address 0 and
`1/3` at the address 1, in four `big.Int` objects. -/
theorem Rational_AddR_MulR_exact_witness :
    ratHeapTwo.read 0 = some ⟨1, 2, false⟩ ∧ ratHeapTwo.read 1 = some ⟨1, 3, false⟩ ∧
    (∃ h1 a1, ratHeapTwo.AddR 0 1 = some h1 ∧ h1.read 0 = some a1 ∧
      a1.Num = 1 * 3 + 2 * 1 ∧ a1.Den = 2 * 3) ∧
    (ratHeapTwo.AddR 0 1).bind (fun h1 => h1.read 0) = some ⟨5, 6, false⟩ ∧
    (ratHeapTwo.AddR 0 1).bind (fun h1 => h1.read 1) = some ⟨1, 3, false⟩ :=
  ⟨rfl, rfl,
    match (Rational_AddR_MulR_exact ratHeapTwo 0 1 ⟨0, 1, false⟩ ⟨2, 3, false⟩
      ⟨1, 2, false⟩ ⟨1, 3, false⟩ rfl rfl rfl rfl (by decide) (by decide) (by decide)
      (by decide) (by decide) (by decide) (by decide)).1 with
    | ⟨h1, a1, hrun, hcell, hnum, hden, _⟩ => ⟨h1, a1, hrun, hcell, hnum, hden⟩,
    rfl, rfl⟩

/-- C35, as stated, fails: two different `Rational` objects, both `1/3`, that
share their denominator as one `big.Int`.  `AddR` computes `tmp = 3 * 1`,
squares the shared denominator to `9`, multiplies the numerator by the
denominator it now reads, `1 * 9`, and adds `tmp`: the receiver is left with
`12/9` where the sum is `6/9`, and the argument with `1/9`.  `MulR` leaves the
receiver with `1/9`, which is the product, and the argument with `1/9` too. -/
theorem Rational_AddR_MulR_exact_counterexample :
    (0 : Nat) ≠ 1 ∧
    ratHeapShared.read 0 = some ⟨1, 3, false⟩ ∧ ratHeapShared.read 1 = some ⟨1, 3, false⟩ ∧
    (ratHeapShared.AddR 0 1).bind (fun h1 => h1.read 0) = some ⟨12, 9, false⟩ ∧
    (ratHeapShared.AddR 0 1).bind (fun h1 => h1.read 1) = some ⟨1, 9, false⟩ ∧
    (ratHeapShared.MulR 0 1).bind (fun h1 => h1.read 0) = some ⟨1, 9, false⟩ ∧
    (ratHeapShared.MulR 0 1).bind (fun h1 => h1.read 1) = some ⟨1, 9, false⟩ :=
  ⟨by decide, rfl, rfl, rfl, rfl, rfl, rfl⟩

/-- On one and the same pointer `AddR` is not the sum: from `1/2` it leaves
`6/4`. -/
theorem Rational_AddR_aliased :
    (ratHeapTwo.AddR 0 0).bind (fun h1 => h1.read 0) = some ⟨6, 4, false⟩ := rfl

/-! ## C36 -/

/-- C36: `AddI` keeps a rational normalized.  For a `Rational` in lowest terms
with a positive denominator and every integer `i`, after `AddI` the
numerator is `Num + i * Den`, the denominator is the one it was, the value is
the old value plus `i`, and the fraction is still in lowest terms. -/
theorem Rational_AddI_normalized (a : Rational) (i : Int) (ha : a.normalized) :
    (a.AddI i).Num = a.Num + i * a.Den ∧ (a.AddI i).Den = a.Den ∧
    (a.AddI i).value = a.value + (i : ℚ) ∧
    Int.gcd (a.AddI i).Num (a.AddI i).Den = 1 ∧ (a.AddI i).normalized := by
  obtain ⟨hg, hd⟩ := ha
  have hgcd : Int.gcd (a.Num + i * a.Den) a.Den = 1 := by
    rw [Int.gcd_comm, Int.gcd_eq_one_iff_coprime] at hg ⊢
    exact (IsCoprime.add_mul_right_right_iff).2 hg
  have hq : (a.Den : ℚ) ≠ 0 := by exact_mod_cast ne_of_gt hd
  refine ⟨rfl, rfl, ?_, hgcd, hgcd, hd⟩
  simp only [Rational.value, Rational.AddI]
  push_cast
  field_simp

/-- The instance of C36 at `1/2` and the integer `3`: the result is `7/2`. -/
theorem Rational_AddI_normalized_witness :
    (Rational.mk 1 2 false).normalized ∧
    ((Rational.mk 1 2 false).AddI 3).Num = 1 + 3 * 2 ∧
    ((Rational.mk 1 2 false).AddI 3).Den = 2 ∧
    ((Rational.mk 1 2 false).AddI 3).value = (Rational.mk 1 2 false).value + ((3 : Int) : ℚ) ∧
    Int.gcd ((Rational.mk 1 2 false).AddI 3).Num ((Rational.mk 1 2 false).AddI 3).Den = 1 ∧
    ((Rational.mk 1 2 false).AddI 3).normalized :=
  ⟨⟨by decide, by decide⟩,
    Rational_AddI_normalized ⟨1, 2, false⟩ 3 ⟨by decide, by decide⟩⟩

/-! ## Permutations: the slices -/

theorem getAt_natCast (xs : List Int) (k : Nat) : getAt xs (k : Int) = xs.get? k := by
  unfold getAt
  rw [if_neg (by omega)]
  simp

theorem setAt_natCast (xs : List Int) (k : Nat) (v : Int) (h : k < xs.length) :
    setAt xs (k : Int) v = some (xs.set k v) := by
  unfold setAt
  rw [if_neg (by omega)]
  simp

theorem get?_append_cons (P : List Int) (x : Int) (Q : List Int) :
    (P ++ x :: Q).get? P.length = some x := by
  rw [List.get?_eq_getElem?, List.getElem?_append_right (Nat.le_refl _)]
  simp

theorem getAt_pool (pool : List Int) (v : Nat) (hv : v < pool.length) :
    getAt pool (v : Int) = some (poolAt pool v) := by
  rw [getAt_natCast, List.get?_eq_getElem?]
  unfold poolAt
  rw [List.getD_eq_getElem?_getD, List.getElem?_eq_getElem hv]
  rfl

theorem getAt_toInts (idx : List Nat) (k : Nat) (hk : k < idx.length) :
    getAt (toInts idx) (k : Int) = some ((idx.get ⟨k, hk⟩ : Nat) : Int) := by
  rw [getAt_natCast, List.get?_eq_getElem?]
  unfold toInts
  rw [List.getElem?_map, List.getElem?_eq_getElem hk]
  rfl

theorem set_append_cons (P : List Int) (x v : Int) (Q : List Int) :
    (P ++ x :: Q).set P.length v = P ++ v :: Q := by
  simp

theorem shiftLoop_spec : ∀ (Q P : List Int) (x : Int),
    shiftLoop Q.length (P.length : Int) (P ++ x :: Q) =
      some (P ++ Q ++ [(x :: Q).getLast (List.cons_ne_nil _ _)]) := by
  intro Q
  induction Q with
  | nil =>
    intro P x
    simp [shiftLoop]
  | cons q Q ih =>
    intro P x
    have hget : getAt (P ++ x :: q :: Q) ((P.length : Int) + 1) = some q := by
      have := getAt_natCast (P ++ x :: q :: Q) (P.length + 1)
      rw [Nat.cast_add, Nat.cast_one] at this
      rw [this]
      have h2 : P ++ x :: q :: Q = (P ++ [x]) ++ q :: Q := by simp
      rw [h2]
      have := get?_append_cons (P ++ [x]) q Q
      simpa using this
    have hset : setAt (P ++ x :: q :: Q) (P.length : Int) q = some (P ++ q :: q :: Q) := by
      rw [setAt_natCast _ _ _ (by simp), set_append_cons]
    have hlen : ((P ++ [q]).length : Int) = (P.length : Int) + 1 := by simp
    have hih := ih (P ++ [q]) q
    rw [hlen] at hih
    simp only [List.length_cons, shiftLoop, hget, hset]
    have h3 : P ++ q :: q :: Q = (P ++ [q]) ++ q :: Q := by simp
    rw [h3, hih]
    simp

theorem resultLoop_spec (pool : List Int) (idx : List Nat)
    (hidx : ∀ v ∈ idx, v < pool.length) :
    ∀ (m : Nat) (Rp Rs : List Int), Rs.length = m → Rp.length + m ≤ idx.length →
      resultLoop pool (toInts idx) m (Rp.length : Int) (Rp ++ Rs) =
        some (Rp ++ ((idx.drop Rp.length).take m).map (poolAt pool)) := by
  intro m
  induction m with
  | zero =>
    intro Rp Rs hRs _
    have : Rs = [] := List.length_eq_zero.1 hRs
    subst this
    simp [resultLoop]
  | succ m ih =>
    intro Rp Rs hRs hle
    obtain ⟨s, Rs1, rfl⟩ : ∃ s Rs1, Rs = s :: Rs1 := by
      cases Rs with
      | nil => simp at hRs
      | cons s Rs1 => exact ⟨s, Rs1, rfl⟩
    have hlt : Rp.length < idx.length := by omega
    have hv := hidx (idx.get ⟨Rp.length, hlt⟩) (List.get_mem _ _ _)
    have hget1 : getAt (toInts idx) (Rp.length : Int) =
        some ((idx.get ⟨Rp.length, hlt⟩ : Nat) : Int) := getAt_toInts idx _ hlt
    have hget2 : getAt pool ((idx.get ⟨Rp.length, hlt⟩ : Nat) : Int) =
        some (poolAt pool (idx.get ⟨Rp.length, hlt⟩)) := getAt_pool pool _ hv
    have hset : setAt (Rp ++ s :: Rs1) (Rp.length : Int) (poolAt pool (idx.get ⟨Rp.length, hlt⟩)) =
        some (Rp ++ poolAt pool (idx.get ⟨Rp.length, hlt⟩) :: Rs1) := by
      rw [setAt_natCast _ _ _ (by simp), set_append_cons]
    have hlen : ((Rp ++ [poolAt pool (idx.get ⟨Rp.length, hlt⟩)]).length : Int) =
        (Rp.length : Int) + 1 := by simp
    have hih := ih (Rp ++ [poolAt pool (idx.get ⟨Rp.length, hlt⟩)]) Rs1
      (by simpa using hRs) (by simp; omega)
    rw [hlen] at hih
    simp only [resultLoop, hget1, hget2, hset]
    have h3 : Rp ++ poolAt pool (idx.get ⟨Rp.length, hlt⟩) :: Rs1 =
        (Rp ++ [poolAt pool (idx.get ⟨Rp.length, hlt⟩)]) ++ Rs1 := by simp
    rw [h3, hih]
    simp only [List.length_append, List.length_singleton, List.append_assoc,
      List.singleton_append]
    rw [List.drop_eq_getElem_cons hlt, List.take_succ_cons]
    simp

theorem initResult_spec (pool : List Int) :
    ∀ (els : List Nat) (Rp Rs : List Int), (∀ v ∈ els, v < pool.length) →
      Rs.length = els.length →
      initResult pool (toInts els) (Rp.length : Int) (Rp ++ Rs) =
        some (Rp ++ els.map (poolAt pool)) := by
  intro els
  induction els with
  | nil =>
    intro Rp Rs _ hRs
    have : Rs = [] := List.length_eq_zero.1 hRs
    subst this
    simp [initResult, toInts]
  | cons el els ih =>
    intro Rp Rs hel hRs
    obtain ⟨s, Rs1, rfl⟩ : ∃ s Rs1, Rs = s :: Rs1 := by
      cases Rs with
      | nil => simp at hRs
      | cons s Rs1 => exact ⟨s, Rs1, rfl⟩
    have hv : el < pool.length := hel el (List.mem_cons_self _ _)
    have hget2 : getAt pool (el : Int) = some (poolAt pool el) := getAt_pool pool el hv
    have hset : setAt (Rp ++ s :: Rs1) (Rp.length : Int) (poolAt pool el) =
        some (Rp ++ poolAt pool el :: Rs1) := by
      rw [setAt_natCast _ _ _ (by simp), set_append_cons]
    have hlen : ((Rp ++ [poolAt pool el]).length : Int) = (Rp.length : Int) + 1 := by simp
    have hih := ih (Rp ++ [poolAt pool el]) Rs1
      (fun v hv => hel v (List.mem_cons_of_mem _ hv)) (by simpa using hRs)
    rw [hlen] at hih
    simp only [toInts, List.map_cons, initResult, hget2, hset]
    have h3 : Rp ++ poolAt pool el :: Rs1 = (Rp ++ [poolAt pool el]) ++ Rs1 := by simp
    rw [h3]
    simp only [toInts] at hih
    rw [hih]
    simp

/-! ## Permutations: one iteration of the loop over `i` -/

theorem toInts_append (xs ys : List Nat) : toInts (xs ++ ys) = toInts xs ++ toInts ys := by
  simp [toInts]

theorem toInts_cons (x : Nat) (xs : List Nat) : toInts (x :: xs) = (x : Int) :: toInts xs := rfl

theorem toInts_length (xs : List Nat) : (toInts xs).length = xs.length := by
  simp [toInts]

theorem cycleLoop_rotate (pool : List Int) (n r i : Nat) (pre A : List Nat) (x : Nat)
    (cpre F : List Int) (st : PermState)
    (hidx : st.indices = toInts (pre ++ x :: A))
    (hcyc : st.cycles = cpre ++ 1 :: F)
    (hpre : pre.length = i) (hcpre : cpre.length = i) (hn : i + 1 + A.length = n) :
    cycleLoop pool n r (i + 1) (i : Int) st =
      cycleLoop pool n r i ((i : Int) - 1)
        { st with indices := toInts (pre ++ A ++ [x]),
                  cycles := cpre ++ ((n : Int) - (i : Int)) :: F } := by
  have hget : getAt st.cycles (i : Int) = some 1 := by
    rw [getAt_natCast, hcyc, ← hcpre]
    exact get?_append_cons cpre 1 F
  have hset : setAt st.cycles (i : Int) 0 = some (cpre ++ 0 :: F) := by
    rw [setAt_natCast _ _ _ (by rw [hcyc]; simp; omega), hcyc, ← hcpre, set_append_cons]
  have hgeti : getAt st.indices (i : Int) = some (x : Int) := by
    rw [getAt_natCast, hidx, toInts_append, toInts_cons]
    have := get?_append_cons (toInts pre) (x : Int) (toInts A)
    rwa [toInts_length, hpre] at this
  have htodo : ((n : Int) - 1 - (i : Int)).toNat = (toInts A).length := by
    rw [toInts_length]
    omega
  have hshift : shiftLoop ((n : Int) - 1 - (i : Int)).toNat (i : Int) st.indices =
      some (toInts pre ++ toInts A ++
        [((x : Int) :: toInts A).getLast (List.cons_ne_nil _ _)]) := by
    rw [htodo, hidx, toInts_append, toInts_cons]
    have := shiftLoop_spec (toInts A) (toInts pre) (x : Int)
    rw [toInts_length pre, hpre] at this
    exact this
  have hsetlast : setAt (toInts pre ++ toInts A ++
        [((x : Int) :: toInts A).getLast (List.cons_ne_nil _ _)]) ((n : Int) - 1) (x : Int) =
      some (toInts (pre ++ A ++ [x])) := by
    have hlen : (toInts pre ++ toInts A).length = n - 1 := by
      simp [toInts_length]
      omega
    have hc : ((n : Int) - 1) = ((n - 1 : Nat) : Int) := by omega
    rw [hc, setAt_natCast _ _ _ (by simp [toInts_length]; omega), ← hlen, set_append_cons]
    simp [toInts]
  have hsetc : setAt (cpre ++ 0 :: F) (i : Int) ((n : Int) - (i : Int)) =
      some (cpre ++ ((n : Int) - (i : Int)) :: F) := by
    rw [setAt_natCast _ _ _ (by simp; omega), ← hcpre, set_append_cons]
  conv_lhs => unfold cycleLoop
  simp only [hget, hset, hgeti, hshift, hsetlast, hsetc, sub_self, if_true]

theorem cycleLoop_swap (pool : List Int) (n r i : Nat) (pre A B : List Nat) (x y : Nat)
    (cpre F : List Int) (st : PermState)
    (hidx : st.indices = toInts (pre ++ x :: (A ++ y :: B)))
    (hcyc : st.cycles = cpre ++ ((B.length : Int) + 2) :: F)
    (hres : st.result.length = r)
    (hpre : pre.length = i) (hcpre : cpre.length = i)
    (hn : i + 1 + A.length + 1 + B.length = n) (hir : i < r) (hrn : r ≤ n)
    (hpool : ∀ v ∈ pre ++ y :: (A ++ x :: B), v < pool.length) :
    cycleLoop pool n r (i + 1) (i : Int) st =
      some ({ indices := toInts (pre ++ y :: (A ++ x :: B)),
              cycles := cpre ++ ((B.length : Int) + 1) :: F,
              result := st.result.take i ++
                ((y :: (A ++ x :: B)).take (r - i)).map (poolAt pool),
              res := st.res ++ [st.result.take i ++
                ((y :: (A ++ x :: B)).take (r - i)).map (poolAt pool)] }, true) := by
  have hget : getAt st.cycles (i : Int) = some ((B.length : Int) + 2) := by
    rw [getAt_natCast, hcyc, ← hcpre]
    exact get?_append_cons cpre _ F
  have hset : setAt st.cycles (i : Int) ((B.length : Int) + 2 - 1) =
      some (cpre ++ ((B.length : Int) + 1) :: F) := by
    rw [setAt_natCast _ _ _ (by rw [hcyc]; simp; omega), hcyc, ← hcpre, set_append_cons]
    congr 3
    ring
  have hne : ¬ ((B.length : Int) + 2 - 1 = 0) := by omega
  have hpos : (n : Int) - ((B.length : Int) + 2 - 1) = ((i + 1 + A.length : Nat) : Int) := by
    omega
  have hgeta : getAt st.indices ((i + 1 + A.length : Nat) : Int) = some (y : Int) := by
    rw [getAt_natCast, hidx]
    have h2 : toInts (pre ++ x :: (A ++ y :: B)) =
        toInts (pre ++ x :: A) ++ (y : Int) :: toInts B := by
      simp [toInts]
    rw [h2]
    have := get?_append_cons (toInts (pre ++ x :: A)) (y : Int) (toInts B)
    rw [toInts_length] at this
    have hl : (pre ++ x :: A).length = i + 1 + A.length := by simp; omega
    rwa [hl] at this
  have hgetb : getAt st.indices (i : Int) = some (x : Int) := by
    rw [getAt_natCast, hidx, toInts_append, toInts_cons]
    have := get?_append_cons (toInts pre) (x : Int) (toInts (A ++ y :: B))
    rwa [toInts_length, hpre] at this
  have hset1 : setAt st.indices (i : Int) (y : Int) =
      some (toInts (pre ++ y :: (A ++ y :: B))) := by
    rw [setAt_natCast _ _ _ (by rw [hidx, toInts_length]; simp; omega), hidx, toInts_append,
      toInts_cons]
    have := set_append_cons (toInts pre) (x : Int) (y : Int) (toInts (A ++ y :: B))
    rw [toInts_length, hpre] at this
    rw [this]
    simp [toInts]
  have hset2 : setAt (toInts (pre ++ y :: (A ++ y :: B))) ((i + 1 + A.length : Nat) : Int)
      (x : Int) = some (toInts (pre ++ y :: (A ++ x :: B))) := by
    rw [setAt_natCast _ _ _ (by rw [toInts_length]; simp; omega)]
    have h2 : toInts (pre ++ y :: (A ++ y :: B)) =
        toInts (pre ++ y :: A) ++ (y : Int) :: toInts B := by
      simp [toInts]
    have hl : (toInts (pre ++ y :: A)).length = i + 1 + A.length := by
      rw [toInts_length]; simp; omega
    rw [h2, ← hl, set_append_cons]
    simp [toInts]
  have htodo : ((r : Int) - (i : Int)).toNat = r - i := by omega
  have hsplit : st.result = st.result.take i ++ st.result.drop i :=
    (List.take_append_drop i st.result).symm
  have hlt : (st.result.take i).length = i := by
    rw [List.length_take]
    omega
  have hrl : resultLoop pool (toInts (pre ++ y :: (A ++ x :: B))) (r - i) (i : Int) st.result =
      some (st.result.take i ++ ((y :: (A ++ x :: B)).take (r - i)).map (poolAt pool)) := by
    have := resultLoop_spec pool (pre ++ y :: (A ++ x :: B)) hpool (r - i)
      (st.result.take i) (st.result.drop i) (by rw [List.length_drop]; omega)
      (by rw [hlt]; simp; omega)
    rw [hlt, ← hsplit] at this
    rw [this]
    congr 3
    rw [← hpre, List.drop_left]
  conv_lhs => unfold cycleLoop
  simp only [hget, hset, hne, if_false, hpos, hgeta, hgetb, hset1, hset2, htodo, hrl]

/-! ## Permutations: the blocks of `kPerms` -/

theorem kPerms_head : ∀ (k : Nat) (L : List Nat), k ≤ L.length →
    ∃ tl, kPerms k L = L.take k :: tl := by
  intro k
  induction k with
  | zero =>
    intro L _
    exact ⟨[], by simp [kPerms]⟩
  | succ k ih =>
    intro L hL
    cases L with
    | nil => simp at hL
    | cons x L =>
      obtain ⟨tl, htl⟩ := ih L (by simpa using hL)
      refine ⟨tl.map (fun p => x :: p) ++
        L.flatMap (fun y => (kPerms k ((x :: L).erase y)).map (fun p => y :: p)), ?_⟩
      simp [kPerms, htl]

theorem kPerms_tail_length (k : Nat) (L : List Nat) (h : k ≤ L.length) :
    (kPerms k L).length = (kPerms k L).tail.length + 1 := by
  obtain ⟨tl, htl⟩ := kPerms_head k L h
  rw [htl]
  simp

theorem flatMap_restBlocks (k : Nat) : ∀ (B A : List Nat), (A ++ B).Nodup →
    B.flatMap (fun y => (kPerms k ((A ++ B).erase y)).map (fun p => y :: p)) =
      restBlocks k A B := by
  intro B
  induction B with
  | nil => intro A _; rfl
  | cons y B ih =>
    intro A hnd
    have hyA : y ∉ A := by
      intro hy
      have := List.disjoint_of_nodup_append hnd hy
      exact this (List.mem_cons_self _ _)
    have h1 : (A ++ y :: B).erase y = A ++ B := by
      rw [List.erase_append_right _ hyA, List.erase_cons_head]
    have h2 : A ++ y :: B = (A ++ [y]) ++ B := by simp
    have hnd2 : ((A ++ [y]) ++ B).Nodup := by rw [← h2]; exact hnd
    rw [List.flatMap_cons, h1, restBlocks, ← ih (A ++ [y]) hnd2, h2]

theorem kPerms_succ (k : Nat) (T : List Nat) (hnd : T.Nodup) :
    kPerms (k + 1) T = restBlocks k [] T := by
  rw [← flatMap_restBlocks k T [] (by simpa using hnd)]
  simp [kPerms]

theorem emit_append (pool : List Int) (pre : List Nat) (Q1 Q2 : List (List Nat)) :
    emit pool pre (Q1 ++ Q2) = emit pool pre Q1 ++ emit pool pre Q2 := by
  simp [emit]

theorem emit_cons (pool : List Int) (pre : List Nat) (x : Nat) (Q : List (List Nat)) :
    emit pool (pre ++ [x]) Q = emit pool pre (Q.map (fun p => x :: p)) := by
  simp [emit]

theorem emit_length (pool : List Int) (pre : List Nat) (Q : List (List Nat)) :
    (emit pool pre Q).length = Q.length := by
  simp [emit]

theorem freshCycles_cons (n r i : Nat) (h : i < r) :
    freshCycles n r i = ((n : Int) - (i : Int)) :: freshCycles n r (i + 1) := by
  unfold freshCycles
  have h1 : r - i = (r - (i + 1)) + 1 := by omega
  rw [h1, List.range_succ_eq_map, List.map_cons, List.map_map]
  simp only [Nat.add_zero, List.cons.injEq, true_and]
  apply List.map_congr_left
  intro d _
  simp only [Function.comp]
  congr 2
  omega

theorem freshCycles_self (n r : Nat) : freshCycles n r r = [] := by
  simp [freshCycles]

/-! ## Permutations: the run of the loops -/

theorem mainLoop_succ (pool : List Int) (n r : Nat) (hn : 0 < n) (fuel : Nat)
    (st : PermState) :
    mainLoop pool n r (fuel + 1) st = resumeAt pool n r r fuel st := by
  have h : (n : Int) > 0 := by omega
  simp only [mainLoop, resumeAt, h, if_true, Int.toNat_ofNat]

theorem resumeAt_succ (pool : List Int) (n r : Int) (i fuel : Nat) (st : PermState) :
    resumeAt pool n r (i + 1) fuel st =
      match cycleLoop pool n r (i + 1) (i : Int) st with
      | none => .panic
      | some (st1, broke) => if !broke then .done st1.res else mainLoop pool n r fuel st1 := by
  have h : ((i + 1 : Nat) : Int) - 1 = (i : Int) := by omega
  simp only [resumeAt, h]

theorem perm_middle_prefix (pre A B : List Nat) (x : Nat) :
    List.Perm ((pre ++ [x]) ++ (A ++ B)) (pre ++ (A ++ x :: B)) := by
  have h1 : (pre ++ [x]) ++ (A ++ B) = pre ++ x :: (A ++ B) := by simp
  rw [h1]
  exact List.Perm.append_left pre (List.perm_middle).symm

theorem blockRun (pool : List Int) (n r i k : Nat) (hn : n = pool.length)
    (hik : i + (k + 1) = r) (hrn : r ≤ n)
    (pre : List Nat) (cpre : List Int) (hpre : pre.length = i) (hcpre : cpre.length = i)
    (hk : ∀ (pre1 T1 : List Nat) (cpre1 : List Int) (res1 : List (List Int)) (st : PermState)
      (fuel : Nat), pre1.length = i + 1 → cpre1.length = i + 1 → (pre1 ++ T1).length = n →
      (pre1 ++ T1).Nodup → (∀ v ∈ pre1 ++ T1, v < n) →
      AtLevel pool n r (i + 1) pre1 T1 cpre1 res1 st →
      st.result = (pre1 ++ T1.take k).map (poolAt pool) →
      ∃ st1, AtLevel pool n r (i + 1) pre1 T1 cpre1
          (res1 ++ emit pool pre1 (kPerms k T1).tail) st1 ∧
        resumeAt pool n r r (fuel + (kPerms k T1).tail.length) st =
          resumeAt pool n r (i + 1) fuel st1) :
    ∀ (B A : List Nat) (x : Nat) (res0 : List (List Int)) (st : PermState) (fuel : Nat),
      (pre ++ (A ++ x :: B)).length = n → (pre ++ (A ++ x :: B)).Nodup →
      (∀ v ∈ pre ++ (A ++ x :: B), v < n) →
      AtLevel pool n r (i + 1) (pre ++ [x]) (A ++ B) (cpre ++ [(B.length : Int) + 1]) res0 st →
      st.result = (pre ++ x :: (A ++ B).take k).map (poolAt pool) →
      ∃ st1, AtLevel pool n r i pre (A ++ x :: B) cpre
          (res0 ++ emit pool pre ((kPerms k (A ++ B)).tail.map (fun p => x :: p) ++
            restBlocks k (A ++ [x]) B)) st1 ∧
        resumeAt pool n r r
            (fuel + ((kPerms k (A ++ B)).tail.map (fun p => x :: p) ++
              restBlocks k (A ++ [x]) B).length) st =
          resumeAt pool n r i fuel st1 := by
  intro B
  induction B with
  | nil =>
    intro A x res0 st fuel hlen hnd hbound hst hfull
    have hperm := perm_middle_prefix pre A [] x
    obtain ⟨st2, hst2, hrun2⟩ := hk (pre ++ [x]) (A ++ []) (cpre ++ [((0 : Nat) : Int) + 1])
      res0 st fuel (by simp [hpre]) (by simp [hcpre])
      (by rw [hperm.length_eq]; exact hlen) (hperm.nodup_iff.2 hnd)
      (fun v hv => hbound v (hperm.subset hv)) hst (by rw [hfull]; simp)
    have hlenA : i + 1 + A.length = n := by
      simp at hlen
      omega
    have hrot := cycleLoop_rotate pool n r i pre A x cpre (freshCycles n r (i + 1)) st2
      (by rw [hst2.indices_eq]; simp)
      (by rw [hst2.cycles_eq]; simp)
      hpre hcpre hlenA
    refine ⟨{ st2 with indices := toInts (pre ++ A ++ [x]),
                        cycles := cpre ++ ((n : Int) - (i : Int)) :: freshCycles n r (i + 1) },
      ?_, ?_⟩
    · refine ⟨by simp, ?_, hst2.result_length, ?_, ?_⟩
      · rw [freshCycles_cons n r i (by omega)]
      · have h := hst2.result_take
        have h2 : st2.result.take i = (st2.result.take (i + 1)).take i := by
          rw [List.take_take]
          congr 1
          omega
        rw [h2, h, List.map_append, List.take_append_of_le_length (by simp [hpre])]
        rw [List.take_of_length_le (by simp [hpre])]
      · rw [hst2.res_eq]
        simp [restBlocks, emit_cons]
    · simp only [restBlocks, List.append_nil, List.length_map] at hrun2 ⊢
      rw [hrun2, resumeAt_succ, hrot]
      rfl
  | cons y B ih =>
    intro A x res0 st fuel hlen hnd hbound hst hfull
    have hperm := perm_middle_prefix pre A (y :: B) x
    have hlenN : i + 1 + A.length + 1 + B.length = n := by
      simp at hlen
      omega
    have hkle : k ≤ ((A ++ [x]) ++ B).length := by
      simp
      omega
    obtain ⟨tl, htl⟩ := kPerms_head k ((A ++ [x]) ++ B) hkle
    -- the rest of the block of `x`
    obtain ⟨st2, hst2, hrun2⟩ := hk (pre ++ [x]) (A ++ y :: B)
      (cpre ++ [(((y :: B).length : Nat) : Int) + 1]) res0 st
      (fuel + (tl.map (fun p => y :: p) ++ restBlocks k ((A ++ [x]) ++ [y]) B).length + 1)
      (by simp [hpre]) (by simp [hcpre])
      (by rw [hperm.length_eq]; exact hlen) (hperm.nodup_iff.2 hnd)
      (fun v hv => hbound v (hperm.subset hv)) hst (by rw [hfull]; simp)
    -- the exchange that starts the block of `y`
    have hpool : ∀ v ∈ pre ++ y :: (A ++ x :: B), v < pool.length := by
      intro v hv
      rw [← hn]
      apply hbound v
      simp only [List.mem_append, List.mem_cons] at hv ⊢
      tauto
    have hswap := cycleLoop_swap pool n r i pre A B x y cpre (freshCycles n r (i + 1)) st2
      (by rw [hst2.indices_eq]; simp)
      (by rw [hst2.cycles_eq]; simp; ring)
      hst2.result_length hpre hcpre hlenN (by omega) hrn hpool
    have htake : st2.result.take i = pre.map (poolAt pool) := by
      have h := hst2.result_take
      have h2 : st2.result.take i = (st2.result.take (i + 1)).take i := by
        rw [List.take_take]
        congr 1
        omega
      rw [h2, h, List.map_append, List.take_append_of_le_length (by simp [hpre])]
      rw [List.take_of_length_le (by simp [hpre])]
    have hri : r - i = k + 1 := by omega
    have hout : st2.result.take i ++ ((y :: (A ++ x :: B)).take (r - i)).map (poolAt pool) =
        (pre ++ y :: ((A ++ [x]) ++ B).take k).map (poolAt pool) := by
      rw [htake, hri, List.take_succ_cons]
      simp
    rw [hout] at hswap
    -- the state after the exchange
    obtain ⟨st3, hst3, hrun3⟩ := ih (A ++ [x]) y
      (res0 ++ emit pool (pre ++ [x]) (kPerms k (A ++ y :: B)).tail ++
        [(pre ++ y :: ((A ++ [x]) ++ B).take k).map (poolAt pool)])
      { indices := toInts (pre ++ y :: (A ++ x :: B)),
        cycles := cpre ++ ((B.length : Int) + 1) :: freshCycles n r (i + 1),
        result := (pre ++ y :: ((A ++ [x]) ++ B).take k).map (poolAt pool),
        res := st2.res ++ [(pre ++ y :: ((A ++ [x]) ++ B).take k).map (poolAt pool)] }
      fuel
      (by simp at hlen ⊢; omega)
      (by
        have h2 : pre ++ ((A ++ [x]) ++ y :: B) = pre ++ (A ++ x :: y :: B) := by simp
        rw [h2]; exact hnd)
      (by
        intro v hv
        apply hbound v
        simpa using hv)
      ⟨by simp, by simp, by
          simp [hpre]
          omega,
        by
          rw [List.map_append, List.take_append_eq_append_take]
          simp [hpre],
        by rw [hst2.res_eq]⟩
      rfl
    refine ⟨st3, ?_, ?_⟩
    · have h := hst3
      have e1 : (A ++ [x]) ++ y :: B = A ++ x :: y :: B := by simp
      have e2 : res0 ++ emit pool (pre ++ [x]) (kPerms k (A ++ y :: B)).tail ++
          [(pre ++ y :: ((A ++ [x]) ++ B).take k).map (poolAt pool)] ++
          emit pool pre ((kPerms k ((A ++ [x]) ++ B)).tail.map (fun p => y :: p) ++
            restBlocks k ((A ++ [x]) ++ [y]) B) =
          res0 ++ emit pool pre ((kPerms k (A ++ y :: B)).tail.map (fun p => x :: p) ++
            restBlocks k (A ++ [x]) (y :: B)) := by
        rw [restBlocks, htl, emit_cons, emit_append, emit_append, emit_append, List.tail_cons,
          List.map_cons]
        have e5 : emit pool pre ((y :: List.take k (A ++ [x] ++ B)) :: tl.map (fun p => y :: p)) =
            [(pre ++ y :: ((A ++ [x]) ++ B).take k).map (poolAt pool)] ++
              emit pool pre (tl.map (fun p => y :: p)) := rfl
        rw [e5]
        simp only [List.append_assoc]
      rw [e1, e2] at h
      exact h
    · have e3 : fuel + ((kPerms k (A ++ y :: B)).tail.map (fun p => x :: p) ++
            restBlocks k (A ++ [x]) (y :: B)).length =
          (fuel + (tl.map (fun p => y :: p) ++ restBlocks k ((A ++ [x]) ++ [y]) B).length + 1) +
            (kPerms k (A ++ y :: B)).tail.length := by
        rw [restBlocks, htl]
        simp
        omega
      rw [e3, hrun2, resumeAt_succ, hswap]
      simp only [Bool.not_true, Bool.false_eq_true, if_false]
      rw [mainLoop_succ pool n r (by omega)]
      have e4 : (kPerms k ((A ++ [x]) ++ B)).tail = tl := by rw [htl]; rfl
      rw [e4] at hrun3
      exact hrun3

theorem segment (pool : List Int) (n r : Nat) (hn : n = pool.length) (hrn : r ≤ n) :
    ∀ (k i : Nat), i + k = r →
      ∀ (pre T : List Nat) (cpre : List Int) (res1 : List (List Int)) (st : PermState)
        (fuel : Nat), pre.length = i → cpre.length = i → (pre ++ T).length = n →
        (pre ++ T).Nodup → (∀ v ∈ pre ++ T, v < n) →
        AtLevel pool n r i pre T cpre res1 st →
        st.result = (pre ++ T.take k).map (poolAt pool) →
        ∃ st1, AtLevel pool n r i pre T cpre (res1 ++ emit pool pre (kPerms k T).tail) st1 ∧
          resumeAt pool n r r (fuel + (kPerms k T).tail.length) st =
            resumeAt pool n r i fuel st1 := by
  intro k
  induction k with
  | zero =>
    intro i hi pre T cpre res1 st fuel _ _ _ _ _ hst _
    have hir : i = r := by omega
    subst hir
    refine ⟨st, ?_, ?_⟩
    · have : res1 ++ emit pool pre (kPerms 0 T).tail = res1 := by simp [kPerms, emit]
      rw [this]
      exact hst
    · simp [kPerms]
  | succ k ih =>
    intro i hi pre T cpre res1 st fuel hpre hcpre hlen hnd hbound hst hfull
    have hT : k + 1 ≤ T.length := by
      simp at hlen
      omega
    obtain ⟨x, B, rfl⟩ : ∃ x B, T = x :: B := by
      cases T with
      | nil => simp at hT
      | cons x B => exact ⟨x, B, rfl⟩
    have hTnd : (x :: B).Nodup := (List.nodup_append.1 hnd).2.1
    have hB : i + 1 + B.length = n := by
      simp at hlen
      omega
    have hst1 : AtLevel pool n r (i + 1) (pre ++ [x]) ([] ++ B)
        (cpre ++ [(B.length : Int) + 1]) res1 st := by
      refine ⟨by rw [hst.indices_eq]; simp, ?_, hst.result_length, ?_, hst.res_eq⟩
      · rw [hst.cycles_eq, freshCycles_cons n r i (by omega)]
        have : (n : Int) - (i : Int) = (B.length : Int) + 1 := by omega
        rw [this]
        simp
      · rw [hfull, List.take_succ_cons, List.map_append, List.take_append_eq_append_take]
        simp [hpre]
    obtain ⟨st1, hst1', hrun⟩ := blockRun pool n r i k hn (by omega) hrn pre cpre hpre hcpre
      (fun pre1 T1 cpre1 res2 st2 fuel2 h1 h2 h3 h4 h5 h6 h7 =>
        ih (i + 1) (by omega) pre1 T1 cpre1 res2 st2 fuel2 h1 h2 h3 h4 h5 h6 h7)
      B [] x res1 st fuel (by simpa using hlen) (by simpa using hnd)
      (by simpa using hbound) hst1 (by rw [hfull]; simp)
    rw [kPerms_succ k (x :: B) hTnd, restBlocks]
    obtain ⟨tl, htl⟩ := kPerms_head k B (by simp at hT; omega)
    simp only [List.nil_append] at hst1' hrun
    have e1 : ((kPerms k ([] ++ B)).map (fun p => x :: p) ++ restBlocks k ([] ++ [x]) B).tail =
        (kPerms k B).tail.map (fun p => x :: p) ++ restBlocks k [x] B := by
      simp only [List.nil_append]
      rw [htl]
      rfl
    rw [e1]
    exact ⟨st1, hst1', hrun⟩

theorem permutationsBounded_eq (iterable : List Int) (r : Nat) (hr : r ≤ iterable.length)
    (fuel : Nat) (hfuel : (kPerms r (List.range iterable.length)).length ≤ fuel) :
    permutationsBounded fuel iterable (r : Int) =
      .done (emit iterable [] (kPerms r (List.range iterable.length))) := by
  obtain ⟨tl, htl⟩ := kPerms_head r (List.range iterable.length) (by simpa using hr)
  have hbound : ∀ v ∈ List.range iterable.length, v < iterable.length := fun v hv =>
    List.mem_range.1 hv
  have hinit : initResult iterable (((List.range iterable.length).map
        (fun i : Nat => (i : Int))).take r) 0 (List.replicate r 0) =
      some (((List.range iterable.length).take r).map (poolAt iterable)) := by
    have := initResult_spec iterable ((List.range iterable.length).take r) []
      (List.replicate r 0) (fun v hv => hbound v (List.mem_of_mem_take hv))
      (by simp; omega)
    simpa [toInts, List.map_take] using this
  have h1 : ¬ ((r : Int) > (iterable.length : Int)) := by omega
  have h2 : ¬ ((r : Int) < 0) := by omega
  unfold permutationsBounded
  simp only [h1, h2, if_false, Int.toNat_ofNat, hinit, List.nil_append]
  have hst0 : AtLevel iterable iterable.length r 0 [] (List.range iterable.length) []
      [((List.range iterable.length).take r).map (poolAt iterable)]
      { indices := (List.range iterable.length).map (fun i : Nat => (i : Int)),
        cycles := (List.range r).map (fun i : Nat => (iterable.length : Int) - (i : Int)),
        result := ((List.range iterable.length).take r).map (poolAt iterable),
        res := [((List.range iterable.length).take r).map (poolAt iterable)] } := by
    refine ⟨rfl, ?_, by simp; omega, rfl, rfl⟩
    simp [freshCycles]
  have hres : [((List.range iterable.length).take r).map (poolAt iterable)] ++
      emit iterable [] tl = emit iterable [] (kPerms r (List.range iterable.length)) := by
    rw [htl]
    simp [emit]
  by_cases hn : 0 < iterable.length
  · obtain ⟨f, rfl⟩ : ∃ f, fuel = (f + tl.length) + 1 := by
      rw [htl] at hfuel
      simp at hfuel
      exact ⟨fuel - tl.length - 1, by omega⟩
    obtain ⟨st1, hst1, hrun⟩ := segment iterable iterable.length r rfl hr r 0 (by omega) []
      (List.range iterable.length) [] _ _ f rfl rfl (by simp) (List.nodup_range _)
      (by simp) hst0 (by simp)
    have htail : (kPerms r (List.range iterable.length)).tail = tl := by rw [htl]; rfl
    rw [htail] at hst1 hrun
    rw [mainLoop_succ iterable iterable.length r hn, hrun]
    simp only [resumeAt, cycleLoop, Bool.not_false, if_true]
    rw [hst1.res_eq, hres]
  · have hn0 : iterable.length = 0 := by omega
    have hr0 : r = 0 := by omega
    obtain ⟨f, rfl⟩ : ∃ f, fuel = f + 1 := by
      rw [htl] at hfuel
      simp at hfuel
      exact ⟨fuel - 1, by omega⟩
    have hneg : ¬ ((iterable.length : Int) > 0) := by omega
    simp only [mainLoop, hneg, if_false]
    subst hr0
    simp [emit, kPerms]

/-! ## Permutations: what `kPerms` lists -/

theorem kPerms_length : ∀ (k : Nat) (L : List Nat),
    (kPerms k L).length = L.length.descFactorial k := by
  intro k
  induction k with
  | zero => intro L; simp [kPerms]
  | succ k ih =>
    intro L
    have key : ∀ (M : List Nat), (∀ x ∈ M, x ∈ L) →
        (M.flatMap (fun x => (kPerms k (L.erase x)).map (fun p => x :: p))).length =
          M.length * (L.length - 1).descFactorial k := by
      intro M
      induction M with
      | nil => intro _; simp
      | cons x M ihM =>
        intro hM
        have hx : x ∈ L := hM x (List.mem_cons_self _ _)
        rw [List.flatMap_cons, List.length_append, List.length_map, ih,
          ihM (fun z hz => hM z (List.mem_cons_of_mem _ hz)), List.length_erase_of_mem hx,
          List.length_cons]
        ring
    rw [kPerms, key L (fun x hx => hx)]
    cases hL : L.length with
    | zero => simp
    | succ m => rw [Nat.succ_descFactorial_succ]; rfl

theorem kPerms_mem : ∀ (k : Nat) (L : List Nat), L.Nodup → ∀ p : List Nat,
    p ∈ kPerms k L ↔ p.length = k ∧ p.Nodup ∧ ∀ i ∈ p, i ∈ L := by
  intro k
  induction k with
  | zero =>
    intro L _ p
    simp only [kPerms, List.mem_singleton]
    constructor
    · rintro rfl
      exact ⟨rfl, List.nodup_nil, fun i hi => by cases hi⟩
    · rintro ⟨h, _, _⟩
      exact List.length_eq_zero.1 h
  | succ k ih =>
    intro L hL p
    simp only [kPerms, List.mem_flatMap, List.mem_map]
    constructor
    · rintro ⟨x, hx, q, hq, rfl⟩
      obtain ⟨h1, h2, h3⟩ := (ih (L.erase x) (hL.erase x) q).1 hq
      refine ⟨by simp [h1], List.nodup_cons.2 ⟨?_, h2⟩, ?_⟩
      · intro hxq
        exact (List.Nodup.mem_erase_iff hL).1 (h3 x hxq) |>.1 rfl
      · intro i hi
        rcases List.mem_cons.1 hi with rfl | hi
        · exact hx
        · exact List.mem_of_mem_erase (h3 i hi)
    · rintro ⟨h1, h2, h3⟩
      cases p with
      | nil => simp at h1
      | cons x q =>
        rw [List.nodup_cons] at h2
        refine ⟨x, h3 x (List.mem_cons_self _ _), q, ?_, rfl⟩
        apply (ih (L.erase x) (hL.erase x) q).2
        refine ⟨by simpa using h1, h2.2, ?_⟩
        intro i hi
        apply (List.Nodup.mem_erase_iff hL).2
        exact ⟨fun heq => h2.1 (heq ▸ hi), h3 i (List.mem_cons_of_mem _ hi)⟩

theorem kPerms_sorted : ∀ (k : Nat) (L : List Nat), L.Pairwise (fun a b => a < b) →
    (kPerms k L).Pairwise (List.Lex (fun a b : Nat => a < b)) := by
  intro k
  induction k with
  | zero => intro L _; simp [kPerms]
  | succ k ih =>
    intro L hL
    rw [kPerms, List.pairwise_flatMap]
    constructor
    · intro x _
      rw [List.pairwise_map]
      exact (ih (L.erase x) (hL.sublist (List.erase_sublist x L))).imp
        (fun h => List.Lex.cons h)
    · refine hL.imp ?_
      intro x y hxy p hp q hq
      simp only [List.mem_map] at hp hq
      obtain ⟨p1, _, rfl⟩ := hp
      obtain ⟨q1, _, rfl⟩ := hq
      exact List.Lex.rel hxy

theorem lex_irrefl : ∀ p : List Nat, ¬ List.Lex (fun a b : Nat => a < b) p p := by
  intro p
  induction p with
  | nil => intro h; cases h
  | cons a p ih =>
    intro h
    cases h with
    | cons h => exact ih h
    | rel h => exact Nat.lt_irrefl a h

theorem kPerms_nodup (k : Nat) (L : List Nat) (hL : L.Pairwise (fun a b => a < b)) :
    (kPerms k L).Nodup := by
  have h := kPerms_sorted k L hL
  unfold List.Nodup
  refine h.imp ?_
  intro p q hpq heq
  subst heq
  exact lex_irrefl p hpq

/-! ## C33 -/

/-- C33: `permutations(iterable, r)` enumerates the `r`-permutations.  For a
list of length `n` and `0 ≤ r ≤ n` the call returns, for each list of
positions of `kPerms r [0, ..., n-1]` in turn, the elements of `iterable` at
these positions; the bound on the iterations of the loop `for n > 0` is not
used up, and a larger bound gives the same.  The position lists are exactly
the lists of `r` distinct positions below `n`, each listed once,
`n (n-1) ... (n-r+1)` of them, which is `n! / (n-r)!`, in lexicographic order,
the first being `[0, ..., r-1]`.  For `r > n` the result is empty.  For a
negative `r` the allocation `make([]int, r)` panics.  In no case does the call
run on for ever. -/
theorem permutations_enumerates (iterable : List Int) (r : Nat) :
    (r ≤ iterable.length →
      permutations iterable r =
        .done ((kPerms r (List.range iterable.length)).map
          (fun p => p.map (poolAt iterable))) ∧
      ∀ fuel, iterable.length.descFactorial r ≤ fuel →
        permutationsBounded fuel iterable r = permutations iterable r) ∧
    (∀ i, i < iterable.length → iterable.get? i = some (poolAt iterable i)) ∧
    (∀ p : List Nat, p ∈ kPerms r (List.range iterable.length) ↔
      p.length = r ∧ p.Nodup ∧ ∀ i ∈ p, i < iterable.length) ∧
    (kPerms r (List.range iterable.length)).Nodup ∧
    (kPerms r (List.range iterable.length)).length = iterable.length.descFactorial r ∧
    (r ≤ iterable.length →
      (iterable.length - r).factorial * (kPerms r (List.range iterable.length)).length =
        iterable.length.factorial) ∧
    (kPerms r (List.range iterable.length)).Pairwise (List.Lex (fun a b : Nat => a < b)) ∧
    (r ≤ iterable.length →
      (kPerms r (List.range iterable.length)).head? = some (List.range r)) ∧
    (iterable.length < r → permutations iterable r = .done []) ∧
    (∀ q : Int, q < 0 → permutations iterable q = .panic) ∧
    (∀ q : Int, permutations iterable q ≠ .unfinished) := by
  have hsorted : (List.range iterable.length).Pairwise (fun a b => a < b) :=
    List.pairwise_lt_range _
  have hlen := kPerms_length r (List.range iterable.length)
  rw [List.length_range] at hlen
  have hmain : ∀ r1 : Nat, r1 ≤ iterable.length → ∀ fuel,
      iterable.length.descFactorial r1 ≤ fuel →
      permutationsBounded fuel iterable r1 =
        .done ((kPerms r1 (List.range iterable.length)).map
          (fun p => p.map (poolAt iterable))) := by
    intro r1 hr1 fuel hfuel
    have := permutationsBounded_eq iterable r1 hr1 fuel (by
      rw [kPerms_length, List.length_range]; exact hfuel)
    rw [this]
    simp [emit]
  have hperm : ∀ r1 : Nat, r1 ≤ iterable.length →
      permutations iterable r1 =
        .done ((kPerms r1 (List.range iterable.length)).map
          (fun p => p.map (poolAt iterable))) := by
    intro r1 hr1
    unfold permutations
    rw [Int.toNat_ofNat]
    exact hmain r1 hr1 _ (Nat.le_succ _)
  have hover : ∀ q : Int, (iterable.length : Int) < q → permutations iterable q = .done [] := by
    intro q hq
    unfold permutations permutationsBounded
    simp only [gt_iff_lt, hq, if_true]
  have hneg : ∀ q : Int, q < 0 → permutations iterable q = .panic := by
    intro q hq
    have h1 : ¬ ((iterable.length : Int) < q) := by omega
    unfold permutations permutationsBounded
    simp only [gt_iff_lt, h1, hq, if_true, if_false]
  refine ⟨fun hr => ⟨hperm r hr, fun fuel hfuel => by rw [hmain r hr fuel hfuel, hperm r hr]⟩,
    ?_, ?_, kPerms_nodup r _ hsorted, hlen, ?_, kPerms_sorted r _ hsorted, ?_,
    fun hr => hover r (by omega), hneg, ?_⟩
  · intro i hi
    rw [List.get?_eq_getElem?]
    unfold poolAt
    rw [List.getD_eq_getElem?_getD, List.getElem?_eq_getElem hi]
    rfl
  · intro p
    rw [kPerms_mem r _ (List.nodup_range _) p]
    simp only [List.mem_range]
  · intro hr
    rw [hlen]
    exact Nat.factorial_mul_descFactorial hr
  · intro hr
    obtain ⟨tl, htl⟩ := kPerms_head r (List.range iterable.length) (by simpa using hr)
    rw [htl, List.head?_cons, List.take_range, Nat.min_eq_left hr]
  · intro q
    rcases lt_or_le q 0 with hq | hq
    · rw [hneg q hq]
      intro h
      cases h
    · rcases lt_or_le (iterable.length : Int) q with hq2 | hq2
      · rw [hover q hq2]
        intro h
        cases h
      · obtain ⟨r1, rfl⟩ : ∃ r1 : Nat, q = (r1 : Int) := ⟨q.toNat, by omega⟩
        rw [hperm r1 (by omega)]
        intro h
        cases h

/-- The instance of C33 at the list `[10, 20, 30]` and `r = 2`. -/
theorem permutations_enumerates_witness :
    2 ≤ [(10 : Int), 20, 30].length ∧
    permutations [10, 20, 30] ((2 : Nat) : Int) =
      .done ((kPerms 2 (List.range [(10 : Int), 20, 30].length)).map
        (fun p => p.map (poolAt [10, 20, 30]))) ∧
    permutations [10, 20, 30] 2 =
      .done [[10, 20], [10, 30], [20, 10], [20, 30], [30, 10], [30, 20]] :=
  ⟨by decide, ((permutations_enumerates [10, 20, 30] 2).1 (by decide)).1, rfl⟩

/-! ## The native evaluator of `StringTake`: the range check -/

theorem goBytes_length (s : String) : (goBytes s).length = len s := by
  unfold goBytes len
  rw [← String.size_toUTF8]
  rfl

theorem wrapInt64_of_fits (x : Int) (h1 : -2 ^ 63 ≤ x) (h2 : x < 2 ^ 63) : wrapInt64 x = x := by
  unfold wrapInt64
  omega

theorem wrapInt64_range (x : Int) : -2 ^ 63 ≤ wrapInt64 x ∧ wrapInt64 x < 2 ^ 63 := by
  unfold wrapInt64
  omega

/-- The evaluator on `hd[str, {m, n}]`, after the checks of the shape of the
argument. -/
theorem stringTakeEvalFn_shaped (NewString : List UInt8 → Ex) (hd : Ex) (str : String)
    (m n : Int) :
    stringTakeEvalFn NewString
        (.Expression [hd, .String str, .Expression [.Symbol "System`List", .Integer m, .Integer n]]) =
      if wrapInt64 (wrapInt64 m - 1) < 0 ∨ wrapInt64 (wrapInt64 n - 1) ≥ (len str : Int) then
        some (.Expression [hd, .String str,
          .Expression [.Symbol "System`List", .Integer m, .Integer n]])
      else if wrapInt64 (wrapInt64 n - 1) < wrapInt64 (wrapInt64 m - 1) then
        some (NewString [])
      else (goSlice (goBytes str) (wrapInt64 (wrapInt64 m - 1))
        (wrapInt64 (wrapInt64 (wrapInt64 n - 1) + 1))).map NewString := by
  simp [stringTakeEvalFn, Ex.Parts, HeadAssertion]

/-- The evaluator on `hd[str, {m, n}]` where `m - 1` and `n - 1` do not
overflow: the input when `m < 1` or `n > len(str)`, else the empty string
when `n < m`, else the `n - m + 1` bytes of `str` from position `m` to
position `n`. -/
theorem stringTakeEvalFn_in_range (NewString : List UInt8 → Ex) (hd : Ex) (str : String)
    (m n : Int) (hm1 : -2 ^ 63 < m) (hm2 : m < 2 ^ 63) (hn1 : -2 ^ 63 < n) (hn2 : n < 2 ^ 63) :
    stringTakeEvalFn NewString
        (.Expression [hd, .String str, .Expression [.Symbol "System`List", .Integer m, .Integer n]]) =
      (if m < 1 ∨ n > (len str : Int) then
        some (.Expression [hd, .String str,
          .Expression [.Symbol "System`List", .Integer m, .Integer n]])
       else if n < m then some (NewString [])
       else some (NewString (((goBytes str).drop (m - 1).toNat).take (n - m + 1).toNat))) ∧
    (1 ≤ m → n ≤ (len str : Int) → m ≤ n →
      (((goBytes str).drop (m - 1).toNat).take (n - m + 1).toNat).length = (n - m + 1).toNat) := by
  have e1 : wrapInt64 m = m := wrapInt64_of_fits m (by omega) hm2
  have e2 : wrapInt64 n = n := wrapInt64_of_fits n (by omega) hn2
  have e3 : wrapInt64 (m - 1) = m - 1 := wrapInt64_of_fits _ (by omega) (by omega)
  have e4 : wrapInt64 (n - 1) = n - 1 := wrapInt64_of_fits _ (by omega) (by omega)
  have e5 : wrapInt64 (n - 1 + 1) = n := by
    rw [show n - 1 + 1 = n by omega]; exact e2
  refine ⟨?_, ?_⟩
  · rw [stringTakeEvalFn_shaped, e1, e2, e3, e4, e5]
    by_cases h1 : m < 1 ∨ n > (len str : Int)
    · rw [if_pos h1, if_pos (by omega)]
    · rw [if_neg h1, if_neg (by omega)]
      by_cases h2 : n < m
      · rw [if_pos h2, if_pos (by omega)]
      · rw [if_neg h2, if_neg (by omega)]
        unfold goSlice
        rw [if_pos ⟨by omega, by omega, by rw [goBytes_length]; omega⟩]
        have : n.toNat - (m - 1).toNat = (n - m + 1).toNat := by omega
        rw [this]
        rfl
  · intro h1 h2 h3
    rw [List.length_take, List.length_drop, goBytes_length]
    omega

/-- The evaluator returns its argument when the argument is not of the shape
`hd[str, {m, n}]` with a string and two integers. -/
theorem stringTakeEvalFn_other_shape (NewString : List UInt8 → Ex) (this : Ex)
    (h : ∀ hd str m n, this ≠
      .Expression [hd, .String str, .Expression [.Symbol "System`List", .Integer m, .Integer n]]) :
    stringTakeEvalFn NewString this = some this := by
  cases this with
  | Expression ps =>
    rcases ps with _ | ⟨hd, _ | ⟨p1, _ | ⟨p2, _ | ⟨p3, rest⟩⟩⟩⟩
    · simp [stringTakeEvalFn, Ex.Parts]
    · simp [stringTakeEvalFn, Ex.Parts]
    · simp [stringTakeEvalFn, Ex.Parts]
    · cases p1 with
      | String str =>
        cases p2 with
        | Expression qs =>
          rcases qs with _ | ⟨q0, qs⟩
          · simp [stringTakeEvalFn, Ex.Parts, HeadAssertion, NewEmptyExpression]
          · cases q0 with
            | Symbol name =>
              by_cases hname : name = "System`List"
              · subst hname
                rcases qs with _ | ⟨q1, _ | ⟨q2, _ | ⟨q3, rest⟩⟩⟩
                · simp [stringTakeEvalFn, Ex.Parts, HeadAssertion]
                · simp [stringTakeEvalFn, Ex.Parts, HeadAssertion]
                · cases q1 <;> cases q2 <;>
                    first
                    | exact absurd rfl (h _ _ _ _)
                    | simp [stringTakeEvalFn, Ex.Parts, HeadAssertion]
                · simp [stringTakeEvalFn, Ex.Parts, HeadAssertion]
              · simp [stringTakeEvalFn, Ex.Parts, HeadAssertion, NewEmptyExpression, hname]
            | _ => simp [stringTakeEvalFn, Ex.Parts, HeadAssertion, NewEmptyExpression]
        | _ => simp [stringTakeEvalFn, Ex.Parts, HeadAssertion, NewEmptyExpression]
      | _ => simp [stringTakeEvalFn, Ex.Parts]
    · simp [stringTakeEvalFn, Ex.Parts]
  | _ => simp [stringTakeEvalFn, Ex.Parts]

/-- The evaluator never panics: on every argument whose string is shorter
than `2^63` bytes, as every Go string is, it returns an expression. -/
theorem stringTakeEvalFn_total (NewString : List UInt8 → Ex) (this : Ex)
    (hlen : ∀ str, this.Parts.get? 1 = some (.String str) → (len str : Int) < 2 ^ 63) :
    ∃ res, stringTakeEvalFn NewString this = some res := by
  by_cases h : ∀ hd str m n, this ≠
      .Expression [hd, .String str, .Expression [.Symbol "System`List", .Integer m, .Integer n]]
  · exact ⟨this, stringTakeEvalFn_other_shape NewString this h⟩
  · push_neg at h
    obtain ⟨hd, str, m, n, rfl⟩ := h
    have hl := hlen str rfl
    rw [stringTakeEvalFn_shaped]
    have r1 := wrapInt64_range (wrapInt64 m - 1)
    have r2 := wrapInt64_range (wrapInt64 n - 1)
    split
    · exact ⟨_, rfl⟩
    · split
      · exact ⟨_, rfl⟩
      · rename_i h1 h2
        have e : wrapInt64 (wrapInt64 (wrapInt64 n - 1) + 1) = wrapInt64 (wrapInt64 n - 1) + 1 :=
          wrapInt64_of_fits _ (by omega) (by omega)
        rw [e]
        unfold goSlice
        rw [if_pos ⟨by omega, by omega, by rw [goBytes_length]; omega⟩]
        exact ⟨_, rfl⟩

/-! ## C37 -/

/-- C37, at the input where the code departs from it: on
`StringTake["abc", {-9223372036854775808, 2}]` the claim gives the input
unchanged, since `m < 1`.  The code computes `s` as `m - 1` in `int64`, which
wraps around to `9223372036854775807`, so the check `s < 0` does not fire;
`e = 1` is below `len("abc")`, and by `e < s` the call returns
`NewString("")`, for every `NewString`.  With the constructor
`specNewString` this is the string `""` and not the input. -/
theorem stringTakeEvalFn_min_int64 :
    wrapInt64 (wrapInt64 (-9223372036854775808) - 1) = 9223372036854775807 ∧
    (∀ NewString : List UInt8 → Ex,
      stringTakeEvalFn NewString (stringTakeOf "abc" (-9223372036854775808) 2) =
        some (NewString [])) ∧
    stringTakeEvalFn specNewString (stringTakeOf "abc" (-9223372036854775808) 2) =
      some (.String "") ∧
    stringTakeEvalFn specNewString (stringTakeOf "abc" (-9223372036854775808) 2) ≠
      some (stringTakeOf "abc" (-9223372036854775808) 2) := by
  have hw : wrapInt64 (wrapInt64 (-9223372036854775808) - 1) = 9223372036854775807 := by
    decide
  have hw2 : wrapInt64 (wrapInt64 2 - 1) = 1 := by decide
  have hl : len "abc" = 3 := by decide
  have hall : ∀ NewString : List UInt8 → Ex,
      stringTakeEvalFn NewString (stringTakeOf "abc" (-9223372036854775808) 2) =
        some (NewString []) := by
    intro NewString
    unfold stringTakeOf
    rw [stringTakeEvalFn_shaped, hw, hw2, hl, if_neg (by decide), if_pos (by decide)]
  refine ⟨hw, hall, ?_, ?_⟩
  · rw [hall]
    rfl
  · rw [hall]
    intro h
    simp [specNewString, stringTakeOf] at h

end Expreduce
